import Mathlib

/-!
Verification of the adjacency-list undirected graph of
`undirected_graph.py` (together with the shared base class in
`graph_basics.py`): vertex/edge mutation, BFS, DFS, shortest path by hop
count, and connected-component counting.

Embedding notes.
* Python objects are mutated in place and compared with `is` (object
  identity).  The graph owns every `Vertex` and keeps vertex ids unique, so
  object identity of vertices coincides with id equality on every state the
  public API can build; the embedding therefore addresses vertices by id and
  threads the graph state explicitly.  An in-place update of a vertex object
  becomes `updateVtx`, which rewrites the (unique) record with that id.
* A raised `IllegalArgumentError` leaves all mutations performed so far in
  place, so results carry the graph state on the error path too
  (`GResult.err msg g`).
* `UndirectedEdge` stores its two endpoint ids.  `list.remove` (removal of
  the first element identical to the argument) becomes `List.erase`; on the
  states the API can build at most one edge connects a given pair, so
  erasure by value is erasure of the identical object.
* Python `set` becomes a duplicate-free `List Nat`: `set.add` appends when
  absent, `set.remove` filters.
* The `graph_basics.py` sitting next to `undirected_graph.py` (the module
  it imports) is not part of the sources; the shared pieces that are also
  present in the provided `graph_basics.py` (`_vtx_list`, `_edge_list`,
  `_find_vtx`, `remove_vtx`) are embedded from that file, and the missing
  pieces (`explored`, `layer`, `set_as_explored`, `dfs`) are modelled from
  the spec where marked.
-/

/-- Embedding of `UndirectedEdge`: two endpoint vertex ids (`end1`, `end2`). -/
structure UndirectedEdge where
  end1 : Nat
  end2 : Nat
deriving DecidableEq, Repr

/-- Embedding of `Vertex` (class `Vertex(AbstractVertex)`): id, the ordered
adjacency list `_edges`, the neighbor-id set `_neighbors` (as a
duplicate-free list), and the transient exploration state.
Modelled from the spec: the fields `explored` and `layer` live on the
`AbstractVertex` of the module-local `graph_basics.py`, which is missing
from the sources; the spec describes them as "a boolean explored mark and
an integer layer (hop distance from a BFS source)", initially clean. -/
structure Vertex where
  vtx_id : Nat
  edges : List UndirectedEdge
  neighbors : List Nat
  explored : Bool
  layer : Int
deriving DecidableEq, Repr

/-- Modelled from the spec: `set_as_explored` of the missing
`AbstractVertex` marks the vertex explored. -/
def Vertex.set_as_explored (v : Vertex) : Vertex :=
  { v with explored := true }

/-- The neighbor associated with an edge at a given endpoint: the other
endpoint (the repeated "find the neighbor" pattern of the source: endpoint 2
if endpoint 1 is this vertex, else endpoint 1). -/
def UndirectedEdge.otherEnd (e : UndirectedEdge) (x : Nat) : Nat :=
  if e.end1 = x then e.end2 else e.end1

/-- Embedding of `Vertex.get_edge_with_neighbor`: first edge of the
adjacency list connecting this vertex and the given neighbor, or `none`. -/
def Vertex.get_edge_with_neighbor (v : Vertex) (nbId : Nat) : Option UndirectedEdge :=
  v.edges.find? (fun e =>
    (e.end1 == v.vtx_id && e.end2 == nbId) || (e.end1 == nbId && e.end2 == v.vtx_id))

/-- Embedding of `Vertex.add_edge`: rejects an edge that does not involve
this vertex and a parallel edge (neighbor already present), otherwise
appends to the adjacency list and inserts the neighbor id. -/
def Vertex.add_edge (v : Vertex) (new_edge : UndirectedEdge) : Except String Vertex :=
  if new_edge.end1 ≠ v.vtx_id ∧ new_edge.end2 ≠ v.vtx_id then
    .error "The edge to add should involve this vertex."
  else
    let neighbor := new_edge.otherEnd v.vtx_id
    if neighbor ∈ v.neighbors then .error "The edge to add already exists."
    else .ok { v with edges := v.edges ++ [new_edge], neighbors := v.neighbors ++ [neighbor] }

/-- Embedding of `Vertex.remove_edge`: rejects an edge that does not
involve this vertex or whose neighbor relationship is absent, otherwise
removes it from the adjacency list and the neighbor set. -/
def Vertex.remove_edge (v : Vertex) (edge_to_remove : UndirectedEdge) : Except String Vertex :=
  if edge_to_remove.end1 ≠ v.vtx_id ∧ edge_to_remove.end2 ≠ v.vtx_id then
    .error "The edge to remove should involve this vertex."
  else
    let neighbor := edge_to_remove.otherEnd v.vtx_id
    if neighbor ∉ v.neighbors then .error "The edge to remove doesn't exist."
    else .ok { v with edges := v.edges.erase edge_to_remove,
                      neighbors := v.neighbors.filter (fun n => n ≠ neighbor) }

/-- Embedding of `UndirectedGraph` (fields `_vtx_list`, `_edge_list` of
`AbstractGraph`). -/
structure UndirectedGraph where
  vtx_list : List Vertex
  edge_list : List UndirectedEdge
deriving DecidableEq, Repr

/-- Result of an operation: Python exceptions (`IllegalArgumentError`)
propagate while leaving in-place mutations behind, so the error carries the
graph state at raise time. -/
inductive GResult (α : Type) where
  | ok (val : α) (g : UndirectedGraph)
  | err (msg : String) (g : UndirectedGraph)
deriving DecidableEq, Repr

/-- Graph state reached by an operation, on success or failure. -/
def GResult.state {α : Type} : GResult α → UndirectedGraph
  | .ok _ g => g
  | .err _ g => g

/-- Value of a successful operation, `none` on failure. -/
def GResult.val? {α : Type} : GResult α → Option α
  | .ok a _ => some a
  | .err _ _ => none

namespace UndirectedGraph

/-- Embedding of `AbstractGraph._find_vtx`: first vertex of `_vtx_list`
with the given id. -/
def find_vtx (g : UndirectedGraph) (vtx_id : Nat) : Option Vertex :=
  g.vtx_list.find? (fun v => v.vtx_id == vtx_id)

/-- In-place mutation of a vertex object: every record carrying the same id
is replaced (on API-reachable states ids are unique, so exactly one is). -/
def updateVtx (g : UndirectedGraph) (v : Vertex) : UndirectedGraph :=
  { g with vtx_list := g.vtx_list.map (fun u => if u.vtx_id = v.vtx_id then v else u) }

/-- Embedding of `UndirectedGraph.add_vtx`: rejects a repeated id,
otherwise appends a fresh vertex. -/
def add_vtx (g : UndirectedGraph) (new_vtx_id : Nat) : GResult Unit :=
  if (g.find_vtx new_vtx_id).isSome then .err "The input vertex is repeated." g
  else .ok () { g with vtx_list := g.vtx_list ++ [⟨new_vtx_id, [], [], false, 0⟩] }

/-- Embedding of `UndirectedGraph._add_edge`: registers the new edge with
both endpoint vertices (the given records are the looked-up endpoint
objects) and appends it to `_edge_list`; a failure in either registration
propagates, leaving the mutations already performed. -/
def addEdgeImpl (g : UndirectedGraph) (v1 v2 : Vertex) (new_edge : UndirectedEdge) :
    GResult Unit :=
  match v1.add_edge new_edge with
  | .error m => .err m g
  | .ok v1' =>
    let g1 := g.updateVtx v1'
    match v2.add_edge new_edge with
    | .error m => .err m g1
    | .ok v2' =>
      let g2 := g1.updateVtx v2'
      .ok () { g2 with edge_list := g2.edge_list ++ [new_edge] }

/-- Embedding of `UndirectedGraph.add_edge`: requires both endpoints to
exist and to be distinct (self-loop rejection), then delegates to
`addEdgeImpl`. -/
def add_edge (g : UndirectedGraph) (end1_id end2_id : Nat) : GResult Unit :=
  match g.find_vtx end1_id, g.find_vtx end2_id with
  | some end1, some end2 =>
    if end1_id = end2_id then .err "The endpoints are the same (self-loop)." g
    else g.addEdgeImpl end1 end2 ⟨end1_id, end2_id⟩
  | _, _ => .err "The endpoints don't both exist." g

/-- Embedding of `UndirectedGraph._remove_edge`: detaches the edge from
both endpoint vertices and removes it from `_edge_list`; the endpoint
objects are reached through the edge's endpoint references. -/
def removeEdgeImpl (g : UndirectedGraph) (edge_to_remove : UndirectedEdge) : GResult Unit :=
  match g.find_vtx edge_to_remove.end1 with
  | none => .err "The edge's first endpoint is not in the graph." g
  | some v1 =>
    match v1.remove_edge edge_to_remove with
    | .error m => .err m g
    | .ok v1' =>
      let g1 := g.updateVtx v1'
      match g1.find_vtx edge_to_remove.end2 with
      | none => .err "The edge's second endpoint is not in the graph." g1
      | some v2 =>
        match v2.remove_edge edge_to_remove with
        | .error m => .err m g1
        | .ok v2' =>
          let g2 := g1.updateVtx v2'
          .ok () { g2 with edge_list := g2.edge_list.erase edge_to_remove }

/-- Embedding of `UndirectedGraph.remove_edge`: requires both endpoints to
exist and an edge connecting them, then delegates to `removeEdgeImpl`. -/
def remove_edge (g : UndirectedGraph) (end1_id end2_id : Nat) : GResult Unit :=
  match g.find_vtx end1_id, g.find_vtx end2_id with
  | some end1, some end2 =>
    match end1.get_edge_with_neighbor end2.vtx_id with
    | none => .err "The edge to remove doesn't exist." g
    | some edge_to_remove => g.removeEdgeImpl edge_to_remove
  | _, _ => .err "The endpoints don't both exist." g

/-- Embedding of the edge-clearing loop of `UndirectedGraph._remove_vtx`:
while the vertex still has incident edges, remove the first one through the
edge-removal path; the fuel is the initial number of incident edges, which
is exactly the number of iterations on API-reachable states. -/
def removeIncidentEdges (g : UndirectedGraph) (vtx_id : Nat) : Nat → GResult Unit
  | 0 => .ok () g
  | fuel + 1 =>
    match g.find_vtx vtx_id with
    | none => .ok () g
    | some v =>
      match v.edges with
      | [] => .ok () g
      | e :: _ =>
        match g.removeEdgeImpl e with
        | .ok _ g' => removeIncidentEdges g' vtx_id fuel
        | .err m g' => .err m g'

/-- Embedding of `UndirectedGraph._remove_vtx`: removes every incident edge,
then removes the vertex object itself from `_vtx_list`. -/
def removeVtxImpl (g : UndirectedGraph) (v : Vertex) : GResult Unit :=
  match removeIncidentEdges g v.vtx_id v.edges.length with
  | .ok _ g' =>
    .ok () { g' with vtx_list := g'.vtx_list.eraseP (fun u => u.vtx_id == v.vtx_id) }
  | .err m g' => .err m g'

/-- Embedding of `AbstractGraph.remove_vtx`: rejects a missing id,
otherwise delegates to `removeVtxImpl`. -/
def remove_vtx (g : UndirectedGraph) (vtx_id : Nat) : GResult Unit :=
  match g.find_vtx vtx_id with
  | none => .err "The input vertex doesn't exist." g
  | some v => g.removeVtxImpl v

/-- Embedding of the edge scan inside the BFS loop of
`UndirectedGraph.bfs`: for every edge of the dequeued vertex, the neighbor
is the other endpoint; an unexplored neighbor is marked explored, recorded,
and enqueued. -/
def bfsScan (vid : Nat) :
    List UndirectedEdge → UndirectedGraph → List Nat → List Nat →
      UndirectedGraph × List Nat × List Nat
  | [], g, q, f => (g, q, f)
  | e :: es, g, q, f =>
    let nb := e.otherEnd vid
    match g.find_vtx nb with
    | none => bfsScan vid es g q f
    | some w =>
      if w.explored then bfsScan vid es g q f
      else bfsScan vid es (g.updateVtx w.set_as_explored) (q ++ [nb]) (f ++ [nb])

/-- Embedding of the queue loop of `UndirectedGraph.bfs`; the fuel only
bounds the iteration count and is chosen large enough to be irrelevant. -/
def bfsLoop : Nat → UndirectedGraph → List Nat → List Nat → List Nat × UndirectedGraph
  | 0, g, _, f => (f, g)
  | _ + 1, g, [], f => (f, g)
  | fuel + 1, g, vid :: rest, f =>
    match g.find_vtx vid with
    | none => bfsLoop fuel g rest f
    | some v =>
      match bfsScan vid v.edges g rest f with
      | (g', q', f') => bfsLoop fuel g' q' f'

/-- Embedding of `UndirectedGraph.bfs`: rejects a missing source, marks the
source explored, seeds the queue and the result list with it, and runs the
queue loop. -/
def bfs (g : UndirectedGraph) (src_vtx_id : Nat) : GResult (List Nat) :=
  match g.find_vtx src_vtx_id with
  | none => .err "The input source vertex doesn't exist." g
  | some src_vtx =>
    let g1 := g.updateVtx src_vtx.set_as_explored
    match bfsLoop (2 * g1.vtx_list.length + 1) g1 [src_vtx_id] [src_vtx_id] with
    | (f, g2) => .ok f g2

/-- Embedding of the edge scan inside `UndirectedGraph.shortest_path`: an
unexplored neighbor is marked explored and gets layer `current + 1`; if it
is the destination object its layer is returned at once, otherwise it is
enqueued.  `destOpt` is the destination lookup performed on entry (`none`
when no such vertex exists, in which case the identity test `neighbor is
dest_vtx` can never succeed). -/
def spScan (vid : Nat) (destOpt : Option Nat) (vlayer : Int) :
    List UndirectedEdge → UndirectedGraph → List Nat →
      UndirectedGraph × List Nat × Option Int
  | [], g, q => (g, q, none)
  | e :: es, g, q =>
    let nb := e.otherEnd vid
    match g.find_vtx nb with
    | none => spScan vid destOpt vlayer es g q
    | some w =>
      if w.explored then spScan vid destOpt vlayer es g q
      else
        let w' := { w with explored := true, layer := vlayer + 1 }
        let g' := g.updateVtx w'
        if destOpt = some nb then (g', q, some (vlayer + 1))
        else spScan vid destOpt vlayer es g' (q ++ [nb])

/-- Embedding of the queue loop of `UndirectedGraph.shortest_path`:
`-1` when the queue empties without discovering the destination. -/
def spLoop (destOpt : Option Nat) : Nat → UndirectedGraph → List Nat → Int × UndirectedGraph
  | 0, g, _ => (-1, g)
  | _ + 1, g, [] => (-1, g)
  | fuel + 1, g, vid :: rest =>
    match g.find_vtx vid with
    | none => spLoop destOpt fuel g rest
    | some v =>
      match spScan vid destOpt v.layer v.edges g rest with
      | (g', _, some ans) => (ans, g')
      | (g', q', none) => spLoop destOpt fuel g' q'

/-- Embedding of `UndirectedGraph.shortest_path`: only the source lookup is
checked (the code raises solely on `not src_vtx`), the destination lookup
is kept for the identity test inside the loop. -/
def shortest_path (g : UndirectedGraph) (src_vtx_id dest_vtx_id : Nat) : GResult Int :=
  match g.find_vtx src_vtx_id with
  | none => .err "The input source and destination vertices don't both exist." g
  | some src_vtx =>
    let destOpt := (g.find_vtx dest_vtx_id).map (fun v => v.vtx_id)
    let g1 := g.updateVtx src_vtx.set_as_explored
    match spLoop destOpt (2 * g1.vtx_list.length + 1) g1 [src_vtx_id] with
    | (ans, g2) => .ok ans g2

/-- Embedding of the vertex sweep of
`UndirectedGraph.num_of_connected_components_with_bfs`: one BFS, and one
counted component, per still-unexplored vertex, in `_vtx_list` order. -/
def ccLoopBfs : List Nat → UndirectedGraph → Nat → Nat × UndirectedGraph
  | [], g, n => (n, g)
  | vid :: rest, g, n =>
    match g.find_vtx vid with
    | none => ccLoopBfs rest g n
    | some v =>
      if v.explored then ccLoopBfs rest g n
      else
        match g.bfs vid with
        | .ok _ g' => ccLoopBfs rest g' (n + 1)
        | .err _ g' => ccLoopBfs rest g' n

/-- Embedding of `UndirectedGraph.num_of_connected_components_with_bfs`. -/
def num_of_connected_components_with_bfs (g : UndirectedGraph) : Nat × UndirectedGraph :=
  ccLoopBfs (g.vtx_list.map (fun v => v.vtx_id)) g 0

/-- Embedding of `UndirectedGraph._dfs_helper` together with the recursive
descent: scan the edges of `vid`; an unexplored neighbor is marked, recorded
and recursively scanned before the remaining edges.  The fuel bounds the
recursion depth only (each descent marks a previously unexplored vertex, so
the number of unexplored vertices is a sufficient fuel). -/
def dfsScan (vid : Nat) (fuel : Nat) (g : UndirectedGraph) :
    List UndirectedEdge → List Nat → UndirectedGraph × List Nat
  | [], f => (g, f)
  | e :: es, f =>
    let nb := e.otherEnd vid
    match g.find_vtx nb with
    | none => dfsScan vid fuel g es f
    | some w =>
      if w.explored then dfsScan vid fuel g es f
      else
        let g1 := g.updateVtx w.set_as_explored
        match fuel with
        | 0 => dfsScan vid 0 g1 es (f ++ [nb])
        | fuel' + 1 =>
          match dfsScan nb fuel' g1 w.edges (f ++ [nb]) with
          | (g2, f2) => dfsScan vid (fuel' + 1) g2 es f2
  termination_by es => (fuel, es.length)

/-- Modelled from the spec: the public `dfs` entry point called by
`num_of_connected_components_with_dfs` lives in the missing module-local
`graph_basics.py`; per the spec it discovers a component by recursive
depth-first traversal — "explore a vertex, mark it, recurse into each
unexplored neighbor in adjacency order" — returning the discovered ids with
the source first, and requires the source to exist. -/
def dfs (g : UndirectedGraph) (src_vtx_id : Nat) : GResult (List Nat) :=
  match g.find_vtx src_vtx_id with
  | none => .err "The input source vertex doesn't exist." g
  | some src_vtx =>
    let g1 := g.updateVtx src_vtx.set_as_explored
    match dfsScan src_vtx_id g1.vtx_list.length g1 src_vtx.edges [src_vtx_id] with
    | (g2, f) => .ok f g2

/-- Embedding of the vertex sweep of
`UndirectedGraph.num_of_connected_components_with_dfs`. -/
def ccLoopDfs : List Nat → UndirectedGraph → Nat → Nat × UndirectedGraph
  | [], g, n => (n, g)
  | vid :: rest, g, n =>
    match g.find_vtx vid with
    | none => ccLoopDfs rest g n
    | some v =>
      if v.explored then ccLoopDfs rest g n
      else
        match g.dfs vid with
        | .ok _ g' => ccLoopDfs rest g' (n + 1)
        | .err _ g' => ccLoopDfs rest g' n

/-- Embedding of `UndirectedGraph.num_of_connected_components_with_dfs`. -/
def num_of_connected_components_with_dfs (g : UndirectedGraph) : Nat × UndirectedGraph :=
  ccLoopDfs (g.vtx_list.map (fun v => v.vtx_id)) g 0

end UndirectedGraph

namespace UndirectedGraph

/-- The vertex ids of the graph, in `_vtx_list` order. -/
def ids (g : UndirectedGraph) : List Nat :=
  g.vtx_list.map (fun v => v.vtx_id)

/-- Two edges connect the same unordered pair of vertices. -/
def samePair (e e' : UndirectedEdge) : Prop :=
  (e.end1 = e'.end1 ∧ e.end2 = e'.end2) ∨ (e.end1 = e'.end2 ∧ e.end2 = e'.end1)

instance (e e' : UndirectedEdge) : Decidable (samePair e e') := by
  unfold samePair; exact inferInstance

/-- Vertex `x` currently carries the explored mark. -/
def exploredAt (g : UndirectedGraph) (x : Nat) : Prop :=
  ∃ v ∈ g.vtx_list, v.vtx_id = x ∧ v.explored = true

instance (g : UndirectedGraph) (x : Nat) : Decidable (exploredAt g x) := by
  unfold exploredAt; exact inferInstance

/-- All exploration state is clean: no vertex carries the explored mark. -/
def Clean (g : UndirectedGraph) : Prop :=
  ∀ v ∈ g.vtx_list, v.explored = false

instance (g : UndirectedGraph) : Decidable (Clean g) := by
  unfold Clean; exact inferInstance

/-- One traversal step: some vertex record with id `x` has an adjacency
edge whose other endpoint is `y` (exactly the neighbor computation of the
traversal loops). -/
def Adj (g : UndirectedGraph) (x y : Nat) : Prop :=
  ∃ v ∈ g.vtx_list, v.vtx_id = x ∧ ∃ e ∈ v.edges, e.otherEnd x = y

instance (g : UndirectedGraph) (x y : Nat) : Decidable (Adj g x y) := by
  unfold Adj; exact inferInstance

/-- Reachability along adjacency steps; `Reaches g s` carves out the
connected component of `s`. -/
def Reaches (g : UndirectedGraph) (x y : Nat) : Prop :=
  Relation.ReflTransGen (Adj g) x y

/-- Well-formedness: the structural invariants the mutation API maintains.
W1 vertex ids are unique; W2 no stored edge is a self-loop; W3 stored edges
have existing endpoints; W4 no two stored edges connect the same unordered
pair; W5 adjacency lists are duplicate-free; W6 every adjacency edge is a
stored edge incident to its vertex; W7 every stored edge is in the
adjacency of each vertex it is incident to; W8 neighbor sets are
duplicate-free; W9 every neighbor id is witnessed by an adjacency edge;
W10 every adjacency edge contributes its other endpoint to the neighbor
set. -/
def WF (g : UndirectedGraph) : Prop :=
  (ids g).Nodup ∧
  (∀ e ∈ g.edge_list, e.end1 ≠ e.end2) ∧
  (∀ e ∈ g.edge_list, e.end1 ∈ ids g ∧ e.end2 ∈ ids g) ∧
  g.edge_list.Pairwise (fun e e' => ¬ samePair e e') ∧
  (∀ v ∈ g.vtx_list, v.edges.Nodup) ∧
  (∀ v ∈ g.vtx_list, ∀ e ∈ v.edges, e ∈ g.edge_list ∧ (e.end1 = v.vtx_id ∨ e.end2 = v.vtx_id)) ∧
  (∀ e ∈ g.edge_list, ∀ v ∈ g.vtx_list, (e.end1 = v.vtx_id ∨ e.end2 = v.vtx_id) → e ∈ v.edges) ∧
  (∀ v ∈ g.vtx_list, v.neighbors.Nodup) ∧
  (∀ v ∈ g.vtx_list, ∀ n ∈ v.neighbors, ∃ e ∈ v.edges, samePair e ⟨v.vtx_id, n⟩) ∧
  (∀ v ∈ g.vtx_list, ∀ e ∈ v.edges, e.otherEnd v.vtx_id ∈ v.neighbors)

instance (g : UndirectedGraph) : Decidable (WF g) := by
  unfold WF; exact inferInstance

/-- Pointwise marking function: set the explored mark on a vertex whose id
is listed. -/
def markV (F : List Nat) (u : Vertex) : Vertex :=
  if u.vtx_id ∈ F then u.set_as_explored else u

/-- The graph with the explored mark set on exactly the given ids (the
accumulated effect of the in-place `set_as_explored` calls of one
traversal). -/
def markExplored (g : UndirectedGraph) (F : List Nat) : UndirectedGraph :=
  { g with vtx_list := g.vtx_list.map (markV F) }

/-- A mutation request against the public graph API. -/
inductive Op where
  | addV (i : Nat)
  | removeV (i : Nat)
  | addE (a b : Nat)
  | removeE (a b : Nat)
deriving DecidableEq, Repr

/-- Dispatch one mutation request. -/
def applyOp (g : UndirectedGraph) : Op → GResult Unit
  | .addV i => g.add_vtx i
  | .removeV i => g.remove_vtx i
  | .addE a b => g.add_edge a b
  | .removeE a b => g.remove_edge a b

/-- The empty graph a fresh `UndirectedGraph()` starts from. -/
def emptyGraph : UndirectedGraph := ⟨[], []⟩

/-- Run a sequence of mutation requests from the empty graph; `some g`
exactly when every call succeeds (a sequence of valid calls) and leaves
state `g`. -/
def runOps (ops : List Op) : Option UndirectedGraph :=
  ops.foldl
    (fun og op => og.bind (fun g => match applyOp g op with
      | .ok _ g' => some g'
      | .err _ _ => none))
    (some emptyGraph)

end UndirectedGraph

namespace UndirectedGraph

theorem mem_ids_iff {g : UndirectedGraph} {i : Nat} :
    i ∈ ids g ↔ ∃ v ∈ g.vtx_list, v.vtx_id = i := by
  simp [ids]

theorem find_vtx_some {g : UndirectedGraph} {i : Nat} {v : Vertex}
    (h : g.find_vtx i = some v) : v ∈ g.vtx_list ∧ v.vtx_id = i := by
  unfold find_vtx at h
  have hm := List.mem_of_find?_eq_some h
  have hp := List.find?_some h
  simp only [beq_iff_eq] at hp
  exact ⟨hm, hp⟩

theorem find_vtx_none {g : UndirectedGraph} {i : Nat} :
    g.find_vtx i = none ↔ ∀ v ∈ g.vtx_list, v.vtx_id ≠ i := by
  unfold find_vtx
  rw [List.find?_eq_none]
  simp

theorem find_vtx_isSome_iff {g : UndirectedGraph} {i : Nat} :
    (g.find_vtx i).isSome ↔ i ∈ ids g := by
  constructor
  · intro h
    obtain ⟨v, hv⟩ := Option.isSome_iff_exists.mp h
    obtain ⟨hm, hid⟩ := find_vtx_some hv
    exact mem_ids_iff.mpr ⟨v, hm, hid⟩
  · intro h
    obtain ⟨v, hm, hid⟩ := mem_ids_iff.mp h
    cases hf : g.find_vtx i with
    | none => exact absurd hid (find_vtx_none.mp hf v hm)
    | some w => simp

theorem ids_nodup_inj {g : UndirectedGraph} {u v : Vertex} (h : (ids g).Nodup)
    (hu : u ∈ g.vtx_list) (hv : v ∈ g.vtx_list) (heq : u.vtx_id = v.vtx_id) : u = v :=
  List.inj_on_of_nodup_map h hu hv heq

theorem find_vtx_of_mem {g : UndirectedGraph} {u : Vertex} (h : (ids g).Nodup)
    (hu : u ∈ g.vtx_list) : g.find_vtx u.vtx_id = some u := by
  cases hf : g.find_vtx u.vtx_id with
  | none => exact absurd rfl (find_vtx_none.mp hf u hu)
  | some w =>
    obtain ⟨hw, hid⟩ := find_vtx_some hf
    rw [ids_nodup_inj h hw hu hid]

theorem find?_map_id_pres (φ : Vertex → Vertex) (hφ : ∀ u, (φ u).vtx_id = u.vtx_id)
    (i : Nat) (l : List Vertex) :
    (l.map φ).find? (fun v => v.vtx_id == i) =
      (l.find? (fun v => v.vtx_id == i)).map φ := by
  induction l with
  | nil => rfl
  | cons u t ih =>
    by_cases h : u.vtx_id = i
    · simp [List.find?, hφ, h]
    · simp only [List.map_cons, List.find?]
      rw [show ((φ u).vtx_id == i) = false by simp [hφ, h],
        show (u.vtx_id == i) = false by simp [h]]
      exact ih

theorem find_vtx_updateVtx {g : UndirectedGraph} {v : Vertex} (i : Nat) :
    (g.updateVtx v).find_vtx i =
      (g.find_vtx i).map (fun u => if u.vtx_id = v.vtx_id then v else u) :=
  find?_map_id_pres _ (fun u => by by_cases h : u.vtx_id = v.vtx_id <;> simp [h]) i _

theorem ids_updateVtx (g : UndirectedGraph) (v : Vertex) : ids (g.updateVtx v) = ids g := by
  unfold ids updateVtx
  simp only [List.map_map]
  apply List.map_congr_left
  intro u _
  by_cases h : u.vtx_id = v.vtx_id <;> simp [Function.comp, h]

theorem mem_updateVtx {g : UndirectedGraph} {v u' : Vertex} :
    u' ∈ (g.updateVtx v).vtx_list ↔
      ∃ u ∈ g.vtx_list, (if u.vtx_id = v.vtx_id then v else u) = u' := by
  simp [updateVtx]

theorem edge_list_updateVtx (g : UndirectedGraph) (v : Vertex) :
    (g.updateVtx v).edge_list = g.edge_list := rfl

end UndirectedGraph

@[simp] theorem Vertex.set_as_explored_vtx_id (v : Vertex) :
    v.set_as_explored.vtx_id = v.vtx_id := rfl

@[simp] theorem Vertex.set_as_explored_edges (v : Vertex) :
    v.set_as_explored.edges = v.edges := rfl

@[simp] theorem Vertex.set_as_explored_neighbors (v : Vertex) :
    v.set_as_explored.neighbors = v.neighbors := rfl

@[simp] theorem Vertex.set_as_explored_explored (v : Vertex) :
    v.set_as_explored.explored = true := rfl

@[simp] theorem Vertex.set_as_explored_layer (v : Vertex) :
    v.set_as_explored.layer = v.layer := rfl

theorem Vertex.set_as_explored_idem (v : Vertex) :
    v.set_as_explored.set_as_explored = v.set_as_explored := rfl

theorem Vertex.set_as_explored_eq_self {v : Vertex} (h : v.explored = true) :
    v.set_as_explored = v := by
  cases v
  simp_all [Vertex.set_as_explored]

namespace UndirectedGraph

theorem WF.idsNodup {g : UndirectedGraph} (h : WF g) : (ids g).Nodup := h.1

theorem WF.noSelfLoop {g : UndirectedGraph} (h : WF g) :
    ∀ e ∈ g.edge_list, e.end1 ≠ e.end2 := h.2.1

theorem WF.endsMem {g : UndirectedGraph} (h : WF g) :
    ∀ e ∈ g.edge_list, e.end1 ∈ ids g ∧ e.end2 ∈ ids g := h.2.2.1

theorem WF.noParallel {g : UndirectedGraph} (h : WF g) :
    g.edge_list.Pairwise (fun e e' => ¬ samePair e e') := h.2.2.2.1

theorem WF.adjNodup {g : UndirectedGraph} (h : WF g) :
    ∀ v ∈ g.vtx_list, v.edges.Nodup := h.2.2.2.2.1

theorem WF.adjSub {g : UndirectedGraph} (h : WF g) :
    ∀ v ∈ g.vtx_list, ∀ e ∈ v.edges,
      e ∈ g.edge_list ∧ (e.end1 = v.vtx_id ∨ e.end2 = v.vtx_id) := h.2.2.2.2.2.1

theorem WF.edgeAdj {g : UndirectedGraph} (h : WF g) :
    ∀ e ∈ g.edge_list, ∀ v ∈ g.vtx_list,
      (e.end1 = v.vtx_id ∨ e.end2 = v.vtx_id) → e ∈ v.edges := h.2.2.2.2.2.2.1

theorem WF.nsNodup {g : UndirectedGraph} (h : WF g) :
    ∀ v ∈ g.vtx_list, v.neighbors.Nodup := h.2.2.2.2.2.2.2.1

theorem WF.nsWitness {g : UndirectedGraph} (h : WF g) :
    ∀ v ∈ g.vtx_list, ∀ n ∈ v.neighbors,
      ∃ e ∈ v.edges, samePair e ⟨v.vtx_id, n⟩ := h.2.2.2.2.2.2.2.2.1

theorem WF.adjNs {g : UndirectedGraph} (h : WF g) :
    ∀ v ∈ g.vtx_list, ∀ e ∈ v.edges,
      e.otherEnd v.vtx_id ∈ v.neighbors := h.2.2.2.2.2.2.2.2.2

theorem samePair_symm {e e' : UndirectedEdge} (h : samePair e e') : samePair e' e := by
  rcases h with ⟨h1, h2⟩ | ⟨h1, h2⟩
  · exact Or.inl ⟨h1.symm, h2.symm⟩
  · exact Or.inr ⟨h2.symm, h1.symm⟩

theorem samePair_refl (e : UndirectedEdge) : samePair e e := Or.inl ⟨rfl, rfl⟩

theorem samePair_swap {e : UndirectedEdge} {x y : Nat} (h : samePair e ⟨x, y⟩) :
    samePair e ⟨y, x⟩ := by
  rcases h with ⟨h1, h2⟩ | ⟨h1, h2⟩
  · exact Or.inr ⟨h1, h2⟩
  · exact Or.inl ⟨h1, h2⟩

theorem samePair_otherEnd {e : UndirectedEdge} {x n : Nat} (h : samePair e ⟨x, n⟩) :
    e.otherEnd x = n := by
  unfold UndirectedEdge.otherEnd
  rcases h with ⟨h1, h2⟩ | ⟨h1, h2⟩
  · have h1' : e.end1 = x := h1
    have h2' : e.end2 = n := h2
    simp [h1', h2']
  · have h1' : e.end1 = n := h1
    have h2' : e.end2 = x := h2
    by_cases hx : e.end1 = x
    · simp only [if_pos hx]
      rw [h2', ← hx, h1']
    · simp only [if_neg hx]
      exact h1'

theorem wf_edge_unique {g : UndirectedGraph} (h : WF g) {e e' : UndirectedEdge}
    (he : e ∈ g.edge_list) (he' : e' ∈ g.edge_list) (hp : samePair e e') : e = e' := by
  by_contra hne
  have hsym : Symmetric (fun e e' : UndirectedEdge => ¬ samePair e e') :=
    fun a b hab hs => hab (samePair_symm hs)
  exact (List.Pairwise.forall hsym h.noParallel he he' hne) hp

theorem adj_iff_edge {g : UndirectedGraph} (h : WF g) {x y : Nat} :
    Adj g x y ↔ ∃ e ∈ g.edge_list, samePair e ⟨x, y⟩ := by
  constructor
  · rintro ⟨v, hv, hvid, e, he, hoe⟩
    obtain ⟨hel, hinc⟩ := h.adjSub v hv e he
    refine ⟨e, hel, ?_⟩
    rcases hinc with h1 | h2
    · rw [hvid] at h1
      subst hoe
      exact Or.inl ⟨h1, by simp [UndirectedEdge.otherEnd, h1]⟩
    · rw [hvid] at h2
      by_cases h1 : e.end1 = x
      · subst hoe
        exact Or.inl ⟨h1, by simp [UndirectedEdge.otherEnd, h1]⟩
      · subst hoe
        exact Or.inr ⟨by simp [UndirectedEdge.otherEnd, h1], h2⟩
  · rintro ⟨e, hel, hp⟩
    have hinc : e.end1 = x ∨ e.end2 = x := by
      rcases hp with ⟨h1, _⟩ | ⟨_, h2⟩
      · exact Or.inl h1
      · exact Or.inr h2
    have hxmem : x ∈ ids g := by
      rcases hinc with h1 | h2
      · exact h1 ▸ (h.endsMem e hel).1
      · exact h2 ▸ (h.endsMem e hel).2
    obtain ⟨v, hv, hvid⟩ := mem_ids_iff.mp hxmem
    have hev : e ∈ v.edges := h.edgeAdj e hel v hv (by rw [hvid]; exact hinc)
    exact ⟨v, hv, hvid, e, hev, hvid ▸ samePair_otherEnd (hvid ▸ hp)⟩

theorem adj_symm {g : UndirectedGraph} (h : WF g) {x y : Nat} (hadj : Adj g x y) :
    Adj g y x := by
  obtain ⟨e, hel, hp⟩ := (adj_iff_edge h).mp hadj
  exact (adj_iff_edge h).mpr ⟨e, hel, samePair_swap hp⟩

theorem reaches_symm {g : UndirectedGraph} (h : WF g) {x y : Nat}
    (hr : Reaches g x y) : Reaches g y x :=
  Relation.ReflTransGen.symmetric (fun _ _ hab => adj_symm h hab) hr

theorem adj_mem_ids {g : UndirectedGraph} (h : WF g) {x y : Nat} (hadj : Adj g x y) :
    x ∈ ids g ∧ y ∈ ids g := by
  obtain ⟨e, hel, hp⟩ := (adj_iff_edge h).mp hadj
  have h1 := (h.endsMem e hel).1
  have h2 := (h.endsMem e hel).2
  rcases hp with ⟨hp1, hp2⟩ | ⟨hp1, hp2⟩
  · have hp1' : e.end1 = x := hp1
    have hp2' : e.end2 = y := hp2
    exact ⟨hp1' ▸ h1, hp2' ▸ h2⟩
  · have hp1' : e.end1 = y := hp1
    have hp2' : e.end2 = x := hp2
    exact ⟨hp2' ▸ h2, hp1' ▸ h1⟩

end UndirectedGraph

namespace UndirectedGraph

@[simp] theorem markV_vtx_id (F : List Nat) (u : Vertex) : (markV F u).vtx_id = u.vtx_id := by
  unfold markV; split <;> rfl

@[simp] theorem markV_edges (F : List Nat) (u : Vertex) : (markV F u).edges = u.edges := by
  unfold markV; split <;> rfl

@[simp] theorem markV_neighbors (F : List Nat) (u : Vertex) :
    (markV F u).neighbors = u.neighbors := by
  unfold markV; split <;> rfl

@[simp] theorem markV_layer (F : List Nat) (u : Vertex) : (markV F u).layer = u.layer := by
  unfold markV; split <;> rfl

theorem markExplored_def (g : UndirectedGraph) (F : List Nat) :
    markExplored g F = { g with vtx_list := g.vtx_list.map (markV F) } := rfl

@[simp] theorem edge_list_markExplored (g : UndirectedGraph) (F : List Nat) :
    (markExplored g F).edge_list = g.edge_list := rfl

theorem vtx_list_markExplored (g : UndirectedGraph) (F : List Nat) :
    (markExplored g F).vtx_list = g.vtx_list.map (markV F) := rfl

@[simp] theorem ids_markExplored (g : UndirectedGraph) (F : List Nat) :
    ids (markExplored g F) = ids g := by
  unfold ids
  rw [vtx_list_markExplored, List.map_map]
  exact List.map_congr_left (fun u _ => markV_vtx_id F u)

theorem find_vtx_markExplored (g : UndirectedGraph) (F : List Nat) (i : Nat) :
    (markExplored g F).find_vtx i = (g.find_vtx i).map (markV F) :=
  find?_map_id_pres _ (markV_vtx_id F) i _

theorem forall_mem_map_iff {α : Type} (l : List α) (φ : α → α) (P : α → Prop)
    (h : ∀ u ∈ l, (P (φ u) ↔ P u)) : (∀ v ∈ l.map φ, P v) ↔ (∀ v ∈ l, P v) := by
  constructor
  · intro H v hv
    exact (h v hv).mp (H (φ v) (List.mem_map.mpr ⟨v, hv, rfl⟩))
  · intro H v hv
    obtain ⟨a, ha, rfl⟩ := List.mem_map.mp hv
    exact (h a ha).mpr (H a ha)

theorem wf_markExplored_iff (g : UndirectedGraph) (F : List Nat) :
    WF (markExplored g F) ↔ WF g := by
  unfold WF
  rw [ids_markExplored, edge_list_markExplored, vtx_list_markExplored]
  have t5 := forall_mem_map_iff g.vtx_list (markV F)
    (fun v => v.edges.Nodup) (fun u _ => by simp)
  have t6 := forall_mem_map_iff g.vtx_list (markV F)
    (fun v => ∀ e ∈ v.edges, e ∈ g.edge_list ∧ (e.end1 = v.vtx_id ∨ e.end2 = v.vtx_id))
    (fun u _ => by simp)
  have t7 : (∀ e ∈ g.edge_list, ∀ v ∈ g.vtx_list.map (markV F),
      (e.end1 = v.vtx_id ∨ e.end2 = v.vtx_id) → e ∈ v.edges) ↔
      (∀ e ∈ g.edge_list, ∀ v ∈ g.vtx_list,
      (e.end1 = v.vtx_id ∨ e.end2 = v.vtx_id) → e ∈ v.edges) := by
    refine forall₂_congr (fun e _ => ?_)
    exact forall_mem_map_iff g.vtx_list (markV F)
      (fun v => (e.end1 = v.vtx_id ∨ e.end2 = v.vtx_id) → e ∈ v.edges) (fun u _ => by simp)
  have t8 := forall_mem_map_iff g.vtx_list (markV F)
    (fun v => v.neighbors.Nodup) (fun u _ => by simp)
  have t9 := forall_mem_map_iff g.vtx_list (markV F)
    (fun v => ∀ n ∈ v.neighbors, ∃ e ∈ v.edges, samePair e ⟨v.vtx_id, n⟩)
    (fun u _ => by simp [samePair])
  have t10 := forall_mem_map_iff g.vtx_list (markV F)
    (fun v => ∀ e ∈ v.edges, e.otherEnd v.vtx_id ∈ v.neighbors)
    (fun u _ => by simp)
  rw [t5, t6, t7, t8, t9, t10]

theorem exists_mem_map_iff {α : Type} (l : List α) (φ : α → α) (P : α → Prop)
    (h : ∀ u ∈ l, (P (φ u) ↔ P u)) : (∃ v ∈ l.map φ, P v) ↔ (∃ v ∈ l, P v) := by
  constructor
  · rintro ⟨v, hv, hp⟩
    obtain ⟨a, ha, rfl⟩ := List.mem_map.mp hv
    exact ⟨a, ha, (h a ha).mp hp⟩
  · rintro ⟨v, hv, hp⟩
    exact ⟨φ v, List.mem_map.mpr ⟨v, hv, rfl⟩, (h v hv).mpr hp⟩

theorem adj_markExplored (g : UndirectedGraph) (F : List Nat) (x y : Nat) :
    Adj (markExplored g F) x y ↔ Adj g x y := by
  unfold Adj
  rw [vtx_list_markExplored]
  exact exists_mem_map_iff g.vtx_list (markV F)
    (fun v => v.vtx_id = x ∧ ∃ e ∈ v.edges, e.otherEnd x = y) (fun u _ => by simp)

theorem exploredAt_markExplored {g : UndirectedGraph} {F : List Nat} {x : Nat} :
    exploredAt (markExplored g F) x ↔ exploredAt g x ∨ (x ∈ F ∧ x ∈ ids g) := by
  unfold exploredAt
  rw [vtx_list_markExplored]
  constructor
  · rintro ⟨v, hv, hvid, hex⟩
    obtain ⟨u, hu, rfl⟩ := List.mem_map.mp hv
    rw [markV_vtx_id] at hvid
    unfold markV at hex
    by_cases hm : u.vtx_id ∈ F
    · exact Or.inr ⟨hvid ▸ hm, mem_ids_iff.mpr ⟨u, hu, hvid⟩⟩
    · rw [if_neg hm] at hex
      exact Or.inl ⟨u, hu, hvid, hex⟩
  · rintro (⟨v, hv, hvid, hex⟩ | ⟨hF, hmem⟩)
    · refine ⟨markV F v, List.mem_map.mpr ⟨v, hv, rfl⟩, by rw [markV_vtx_id]; exact hvid, ?_⟩
      unfold markV
      split <;> simp [hex]
    · obtain ⟨v, hv, hvid⟩ := mem_ids_iff.mp hmem
      refine ⟨markV F v, List.mem_map.mpr ⟨v, hv, rfl⟩, by rw [markV_vtx_id]; exact hvid, ?_⟩
      unfold markV
      rw [if_pos (hvid ▸ hF)]
      rfl

end UndirectedGraph

namespace UndirectedGraph

@[simp] theorem markExplored_nil (g : UndirectedGraph) : markExplored g [] = g := by
  unfold markExplored markV
  simp

theorem markExplored_append (g : UndirectedGraph) (F F' : List Nat) :
    markExplored g (F ++ F') = markExplored (markExplored g F) F' := by
  unfold markExplored
  simp only [List.map_map]
  have : ∀ u ∈ g.vtx_list, markV F' (markV F u) = markV (F ++ F') u := by
    intro u _
    unfold markV
    by_cases h1 : u.vtx_id ∈ F <;> by_cases h2 : u.vtx_id ∈ F' <;>
      simp [h1, h2, Vertex.set_as_explored_idem]
  rw [show g.vtx_list.map (markV F' ∘ markV F) = g.vtx_list.map (markV (F ++ F')) from
    List.map_congr_left (fun u hu => this u hu)]

theorem markExplored_eq_self {g : UndirectedGraph} {F : List Nat}
    (h : ∀ u ∈ g.vtx_list, u.vtx_id ∈ F → u.explored = true) : markExplored g F = g := by
  unfold markExplored
  have : g.vtx_list.map (markV F) = g.vtx_list := by
    rw [show g.vtx_list.map (markV F) = g.vtx_list.map (fun u => u) from
      List.map_congr_left (fun u hu => by
        unfold markV
        split
        next hm => exact Vertex.set_as_explored_eq_self (h u hu hm)
        next => rfl)]
    exact List.map_id' g.vtx_list
  rw [this]

theorem updateVtx_markExplored {g : UndirectedGraph} {F : List Nat} {nb : Nat} {w : Vertex}
    (hnd : (ids g).Nodup) (hw : (markExplored g F).find_vtx nb = some w) :
    (markExplored g F).updateVtx w.set_as_explored = markExplored g (F ++ [nb]) := by
  rw [find_vtx_markExplored] at hw
  obtain ⟨u0, hu0, hmark⟩ := Option.map_eq_some'.mp hw
  obtain ⟨hu0mem, hu0id⟩ := find_vtx_some hu0
  unfold updateVtx markExplored
  simp only [List.map_map]
  congr 1
  apply List.map_congr_left
  intro u hu
  simp only [Function.comp]
  by_cases hid : u.vtx_id = nb
  · have hueq : u = u0 := ids_nodup_inj hnd hu hu0mem (by rw [hid, hu0id])
    have hcond : (markV F u).vtx_id = w.set_as_explored.vtx_id := by
      rw [markV_vtx_id, Vertex.set_as_explored_vtx_id, ← hmark, markV_vtx_id, hid, hu0id]
    rw [if_pos hcond]
    subst hueq
    subst hmark
    unfold markV
    by_cases hm : nb ∈ F <;>
      simp [hm, hid, Vertex.set_as_explored_idem]
  · have hcond : ¬ (markV F u).vtx_id = w.set_as_explored.vtx_id := by
      rw [markV_vtx_id, Vertex.set_as_explored_vtx_id, ← hmark, markV_vtx_id, hu0id]
      exact hid
    rw [if_neg hcond]
    unfold markV
    by_cases hm : u.vtx_id ∈ F <;> simp [hm, hid]

/-- Number of vertices still unexplored (the decreasing measure of the
traversal loops). -/
def ucount (g : UndirectedGraph) : Nat :=
  (g.vtx_list.filter (fun u => !u.explored)).length

theorem length_filter_map_le {α : Type} (p : α → Bool) (φ : α → α) :
    ∀ l : List α, (∀ x ∈ l, p (φ x) = true → p x = true) →
      ((l.map φ).filter p).length ≤ (l.filter p).length := by
  intro l
  induction l with
  | nil => intro _; simp
  | cons a t ih =>
    intro h
    have ht := ih (fun x hx => h x (List.mem_cons_of_mem a hx))
    by_cases hpa : p (φ a) = true
    · have hpa' := h a (List.mem_cons_self a t) hpa
      simp [List.filter_cons, hpa, hpa']
      exact ht
    · simp only [List.map_cons, List.filter_cons, Bool.not_eq_true] at *
      rw [if_neg (by simp [hpa])]
      by_cases hpa2 : p a = true
      · rw [if_pos (by simp [hpa2])]
        exact Nat.le_succ_of_le ht
      · rw [if_neg (by simp [hpa2])]
        exact ht

theorem length_filter_map_lt {α : Type} (p : α → Bool) (φ : α → α) :
    ∀ l : List α, (∀ x ∈ l, p (φ x) = true → p x = true) →
      ∀ x ∈ l, p x = true → p (φ x) = false →
      ((l.map φ).filter p).length < (l.filter p).length := by
  intro l
  induction l with
  | nil => intro _ x hx; simp at hx
  | cons a t ih =>
    intro h x hx hpx hpφx
    have hmono := fun y hy => h y (List.mem_cons_of_mem a hy)
    rcases List.mem_cons.mp hx with rfl | hxt
    · simp only [List.map_cons, List.filter_cons, hpφx, Bool.false_eq_true, if_false, hpx,
        if_true, List.length_cons]
      exact Nat.lt_succ_of_le (length_filter_map_le p φ t hmono)
    · have ht := ih hmono x hxt hpx hpφx
      by_cases hpa : p (φ a) = true
      · have hpa' := h a (List.mem_cons_self a t) hpa
        simp only [List.map_cons, List.filter_cons, hpa, if_true, hpa', List.length_cons]
        exact Nat.succ_lt_succ ht
      · simp only [List.map_cons, List.filter_cons, Bool.not_eq_true] at *
        rw [if_neg (by simp [hpa])]
        by_cases hpa2 : p a = true
        · rw [if_pos (by simp [hpa2])]
          exact Nat.lt_succ_of_lt ht
        · rw [if_neg (by simp [hpa2])]
          exact ht

end UndirectedGraph

namespace UndirectedGraph

theorem find_explored_iff {g : UndirectedGraph} {x : Nat} {w : Vertex}
    (hnd : (ids g).Nodup) (hw : g.find_vtx x = some w) :
    exploredAt g x ↔ w.explored = true := by
  obtain ⟨hwm, hwid⟩ := find_vtx_some hw
  constructor
  · rintro ⟨v, hv, hvid, hex⟩
    rwa [ids_nodup_inj hnd hwm hv (by rw [hwid, hvid])]
  · intro hex
    exact ⟨w, hwm, hwid, hex⟩

theorem ucount_updateVtx_set_lt {G : UndirectedGraph} {nb : Nat} {w : Vertex}
    (hw : G.find_vtx nb = some w) (hunexp : w.explored = false) :
    ucount (G.updateVtx w.set_as_explored) < ucount G := by
  obtain ⟨hwm, hwid⟩ := find_vtx_some hw
  unfold ucount updateVtx
  apply length_filter_map_lt
  · intro x hx hpx
    by_cases hc : x.vtx_id = w.set_as_explored.vtx_id
    · rw [if_pos hc] at hpx
      simp at hpx
    · rwa [if_neg hc] at hpx
  · exact hwm
  · simp [hunexp]
  · simp

theorem ucount_markExplored_snoc_lt {g : UndirectedGraph} {F : List Nat} {nb : Nat}
    {w : Vertex} (hnd : (ids g).Nodup) (hw : (markExplored g F).find_vtx nb = some w)
    (hunexp : w.explored = false) :
    ucount (markExplored g (F ++ [nb])) < ucount (markExplored g F) := by
  rw [← updateVtx_markExplored hnd hw]
  exact ucount_updateVtx_set_lt hw hunexp

/-- One step of a traversal started on graph `g`: an adjacency step into a
vertex that was unexplored when the traversal began. -/
def stepR (g : UndirectedGraph) (a b : Nat) : Prop :=
  Adj g a b ∧ ¬ exploredAt g b

/-- Everything a traversal from `s` on graph `g` can discover beyond `s`
itself: reflexive-transitive closure of `stepR`. -/
def Discoverable (g : UndirectedGraph) (s y : Nat) : Prop :=
  Relation.ReflTransGen (stepR g) s y

theorem bfsScan_spec {g0 : UndirectedGraph} (hwf : WF g0) {vid : Nat} {v0 : Vertex}
    (hv0 : v0 ∈ g0.vtx_list) (hv0id : v0.vtx_id = vid) :
    ∀ (es : List UndirectedEdge) (f q : List Nat), (∀ e ∈ es, e ∈ v0.edges) →
    ∃ N : List Nat,
      bfsScan vid es (markExplored g0 f) q f = (markExplored g0 (f ++ N), q ++ N, f ++ N) ∧
      (f.Nodup → (f ++ N).Nodup) ∧
      (∀ n ∈ N, Adj g0 vid n ∧ ¬ exploredAt g0 n) ∧
      (∀ y, (∃ e ∈ es, e.otherEnd vid = y) → ¬ exploredAt g0 y → y ∈ f ++ N) ∧
      ucount (markExplored g0 (f ++ N)) + N.length ≤ ucount (markExplored g0 f) := by
  intro es
  induction es with
  | nil =>
    intro f q _
    refine ⟨[], ?_, ?_, ?_, ?_, ?_⟩ <;> simp [bfsScan]
  | cons e es ih =>
    intro f q hsub
    have he : e ∈ v0.edges := hsub e (List.mem_cons_self e es)
    have hsub' : ∀ e' ∈ es, e' ∈ v0.edges := fun e' h' => hsub e' (List.mem_cons_of_mem e h')
    have hnb_ids : e.otherEnd vid ∈ ids g0 := by
      have hadj : Adj g0 vid (e.otherEnd vid) := ⟨v0, hv0, hv0id, e, he, rfl⟩
      exact (adj_mem_ids hwf hadj).2
    have hfind_base : ∃ w0, g0.find_vtx (e.otherEnd vid) = some w0 := by
      cases hf : g0.find_vtx (e.otherEnd vid) with
      | none =>
        rw [← find_vtx_isSome_iff] at hnb_ids
        rw [hf] at hnb_ids
        simp at hnb_ids
      | some w0 => exact ⟨w0, rfl⟩
    obtain ⟨w0, hw0⟩ := hfind_base
    have hfind : (markExplored g0 f).find_vtx (e.otherEnd vid) = some (markV f w0) := by
      rw [find_vtx_markExplored, hw0]
      rfl
    by_cases hexp : (markV f w0).explored = true
    · -- neighbor already explored: skip
      obtain ⟨N, hrun, hnd, hsound, hcompl, hcount⟩ := ih f q hsub'
      refine ⟨N, ?_, hnd, hsound, ?_, hcount⟩
      · simp only [bfsScan, hfind, hexp, if_true]
        exact hrun
      · rintro y ⟨e', he', hoe⟩ hnexp
        rcases List.mem_cons.mp he' with rfl | hmem
        · subst hoe
          have hexpAt : exploredAt (markExplored g0 f) (e'.otherEnd vid) :=
            (find_explored_iff (by rw [ids_markExplored]; exact hwf.idsNodup) hfind).mpr hexp
          rcases exploredAt_markExplored.mp hexpAt with h | ⟨hmemf, _⟩
          · exact absurd h hnexp
          · exact List.mem_append_left N hmemf
        · exact hcompl y ⟨e', hmem, hoe⟩ hnexp
    · -- fresh neighbor: mark, enqueue, record
      have hexp' : (markV f w0).explored = false := by
        cases h : (markV f w0).explored
        · rfl
        · exact absurd h hexp
      have hnext : (markExplored g0 f).updateVtx (markV f w0).set_as_explored =
          markExplored g0 (f ++ [e.otherEnd vid]) :=
        updateVtx_markExplored hwf.idsNodup hfind
      have hnotf : e.otherEnd vid ∉ f := by
        intro hmemf
        have : exploredAt (markExplored g0 f) (e.otherEnd vid) :=
          exploredAt_markExplored.mpr (Or.inr ⟨hmemf, hnb_ids⟩)
        have := (find_explored_iff (by rw [ids_markExplored]; exact hwf.idsNodup) hfind).mp this
        rw [this] at hexp'
        cases hexp'
      have hnexp0 : ¬ exploredAt g0 (e.otherEnd vid) := by
        intro hcontra
        have : exploredAt (markExplored g0 f) (e.otherEnd vid) :=
          exploredAt_markExplored.mpr (Or.inl hcontra)
        have := (find_explored_iff (by rw [ids_markExplored]; exact hwf.idsNodup) hfind).mp this
        rw [this] at hexp'
        cases hexp'
      obtain ⟨N', hrun, hnd, hsound, hcompl, hcount⟩ :=
        ih (f ++ [e.otherEnd vid]) (q ++ [e.otherEnd vid]) hsub'
      refine ⟨e.otherEnd vid :: N', ?_, ?_, ?_, ?_, ?_⟩
      · simp only [bfsScan, hfind, hexp', if_false, Bool.false_eq_true]
        rw [hnext, hrun]
        simp
      · intro hfnd
        have : (f ++ [e.otherEnd vid]).Nodup := by
          rw [List.nodup_append]
          exact ⟨hfnd, List.nodup_singleton _, by simpa using hnotf⟩
        have := hnd this
        simpa using this
      · intro n hn
        rcases List.mem_cons.mp hn with rfl | hmem
        · exact ⟨⟨v0, hv0, hv0id, e, he, rfl⟩, hnexp0⟩
        · exact hsound n hmem
      · rintro y ⟨e', he', hoe⟩ hnexp
        rcases List.mem_cons.mp he' with rfl | hmem
        · subst hoe
          simp
        · have := hcompl y ⟨e', hmem, hoe⟩ hnexp
          simpa using this
      · have hlt : ucount (markExplored g0 (f ++ [e.otherEnd vid])) <
            ucount (markExplored g0 f) :=
          ucount_markExplored_snoc_lt hwf.idsNodup hfind hexp'
        have : ucount (markExplored g0 ((f ++ [e.otherEnd vid]) ++ N')) + N'.length ≤
            ucount (markExplored g0 (f ++ [e.otherEnd vid])) := hcount
        rw [List.append_assoc] at this
        simp only [List.singleton_append] at this
        simp only [List.length_cons]
        omega

end UndirectedGraph

namespace UndirectedGraph

theorem bfsLoop_spec {g0 : UndirectedGraph} (hwf : WF g0) (s : Nat) :
    ∀ (fuel : Nat) (f q : List Nat),
    2 * ucount (markExplored g0 f) + q.length ≤ fuel →
    (∀ x ∈ q, x ∈ f) →
    (∀ x ∈ f, x ∈ ids g0) →
    (∀ x ∈ f, x ∉ q → ∀ y, Adj g0 x y → ¬ exploredAt g0 y → y ∈ f) →
    (∀ x ∈ f, Discoverable g0 s x) →
    f.Nodup →
    (∃ t, f = s :: t) →
    ∃ F : List Nat,
      bfsLoop fuel (markExplored g0 f) q f = (F, markExplored g0 F) ∧
      f <+: F ∧ F.Nodup ∧
      (∀ x ∈ F, x ∈ ids g0) ∧
      (∀ x ∈ F, Discoverable g0 s x) ∧
      (∀ x ∈ F, ∀ y, Adj g0 x y → ¬ exploredAt g0 y → y ∈ F) := by
  intro fuel
  induction fuel with
  | zero =>
    intro f q hfuel hq hfids hclosed hsound hnodup hhead
    have hq0 : q = [] := by
      cases q with
      | nil => rfl
      | cons a t =>
        exfalso
        simp only [List.length_cons] at hfuel
        omega
    subst hq0
    exact ⟨f, by simp [bfsLoop], List.prefix_refl f, hnodup, hfids, hsound,
      fun x hx y hadj hnexp => hclosed x hx (by simp) y hadj hnexp⟩
  | succ fuel ih =>
    intro f q hfuel hq hfids hclosed hsound hnodup hhead
    cases q with
    | nil =>
      exact ⟨f, by simp [bfsLoop], List.prefix_refl f, hnodup, hfids, hsound,
        fun x hx y hadj hnexp => hclosed x hx (by simp) y hadj hnexp⟩
    | cons vid rest =>
      have hvid_f : vid ∈ f := hq vid (List.mem_cons_self vid rest)
      have hvid_ids : vid ∈ ids g0 := hfids vid hvid_f
      obtain ⟨v0, hv0find⟩ : ∃ v0, g0.find_vtx vid = some v0 := by
        have := find_vtx_isSome_iff.mpr hvid_ids
        exact Option.isSome_iff_exists.mp this
      obtain ⟨hv0mem, hv0id⟩ := find_vtx_some hv0find
      have hfind : (markExplored g0 f).find_vtx vid = some (markV f v0) := by
        rw [find_vtx_markExplored, hv0find]
        rfl
      obtain ⟨N, hrun, hndN, hsoundN, hcomplN, hcountN⟩ :=
        bfsScan_spec hwf hv0mem hv0id (markV f v0).edges f rest
          (fun e he => by rwa [markV_edges] at he)
      have hstep : bfsLoop (fuel + 1) (markExplored g0 f) (vid :: rest) f =
          bfsLoop fuel (markExplored g0 (f ++ N)) (rest ++ N) (f ++ N) := by
        simp only [bfsLoop, hfind]
        rw [hrun]
      have hfuel' : 2 * ucount (markExplored g0 (f ++ N)) + (rest ++ N).length ≤ fuel := by
        simp only [List.length_cons] at hfuel
        simp only [List.length_append]
        omega
      have hq' : ∀ x ∈ rest ++ N, x ∈ f ++ N := by
        intro x hx
        rcases List.mem_append.mp hx with hx | hx
        · exact List.mem_append_left N (hq x (List.mem_cons_of_mem vid hx))
        · exact List.mem_append_right f hx
      have hfids' : ∀ x ∈ f ++ N, x ∈ ids g0 := by
        intro x hx
        rcases List.mem_append.mp hx with hx | hx
        · exact hfids x hx
        · exact (adj_mem_ids hwf (hsoundN x hx).1).2
      have hclosed' : ∀ x ∈ f ++ N, x ∉ rest ++ N →
          ∀ y, Adj g0 x y → ¬ exploredAt g0 y → y ∈ f ++ N := by
        intro x hx hxq y hadj hnexp
        rcases List.mem_append.mp hx with hxf | hxN
        · by_cases hxv : x = vid
          · subst hxv
            obtain ⟨v', hv', hv'id, e, he', hoe⟩ := hadj
            have hv'eq : v' = v0 := ids_nodup_inj hwf.idsNodup hv' hv0mem (by rw [hv'id, hv0id])
            subst hv'eq
            exact hcomplN y ⟨e, by rwa [markV_edges], hoe⟩ hnexp
          · have hxrest : x ∉ rest := fun hc => hxq (List.mem_append_left N hc)
            have hxveclist : x ∉ vid :: rest := by
              intro hc
              rcases List.mem_cons.mp hc with h | h
              · exact hxv h
              · exact hxrest h
            exact List.mem_append_left N (hclosed x hxf hxveclist y hadj hnexp)
        · exact absurd (List.mem_append_right rest hxN) hxq
      have hsound' : ∀ x ∈ f ++ N, Discoverable g0 s x := by
        intro x hx
        rcases List.mem_append.mp hx with hx | hx
        · exact hsound x hx
        · exact Relation.ReflTransGen.tail (hsound vid hvid_f)
            ⟨(hsoundN x hx).1, (hsoundN x hx).2⟩
      have hnodup' : (f ++ N).Nodup := hndN hnodup
      have hhead' : ∃ t, f ++ N = s :: t := by
        obtain ⟨t, rfl⟩ := hhead
        exact ⟨t ++ N, by simp⟩
      obtain ⟨F, hF, hpre, hFnd, hFids, hFsound, hFclosed⟩ :=
        ih (f ++ N) (rest ++ N) hfuel' hq' hfids' hclosed' hsound' hnodup' hhead'
      exact ⟨F, by rw [hstep]; exact hF,
        List.IsPrefix.trans (List.prefix_append f N) hpre, hFnd, hFids, hFsound, hFclosed⟩

end UndirectedGraph

namespace UndirectedGraph

theorem ucount_le_length (g : UndirectedGraph) : ucount g ≤ g.vtx_list.length :=
  List.length_filter_le _ _

theorem vtx_list_length_markExplored (g : UndirectedGraph) (F : List Nat) :
    (markExplored g F).vtx_list.length = g.vtx_list.length := by
  rw [vtx_list_markExplored, List.length_map]

theorem updateVtx_eq_markExplored_single {g : UndirectedGraph} {s : Nat} {src : Vertex}
    (hnd : (ids g).Nodup) (hsrc : g.find_vtx s = some src) :
    g.updateVtx src.set_as_explored = markExplored g [s] := by
  obtain ⟨hsm, hsid⟩ := find_vtx_some hsrc
  unfold updateVtx markExplored
  congr 1
  apply List.map_congr_left
  intro u hu
  by_cases h : u.vtx_id = s
  · have hu_eq : u = src := ids_nodup_inj hnd hu hsm (h.trans hsid.symm)
    subst hu_eq
    unfold markV
    simp [h, hsid]
  · unfold markV
    simp [h, hsid]

/-- Central BFS theorem: on a well-formed graph, `bfs` from an existing
source returns the source followed by every further vertex discoverable
through initially-unexplored vertices, each exactly once, and its only
mutation is setting the explored mark on exactly the returned ids. -/
theorem bfs_spec {g : UndirectedGraph} (hwf : WF g) {s : Nat} (hs : s ∈ ids g) :
    ∃ t : List Nat,
      g.bfs s = .ok (s :: t) (markExplored g (s :: t)) ∧
      (s :: t).Nodup ∧
      (∀ y, y ∈ s :: t ↔ Discoverable g s y) := by
  obtain ⟨src, hsrc⟩ := Option.isSome_iff_exists.mp (find_vtx_isSome_iff.mpr hs)
  obtain ⟨hsm, hsid⟩ := find_vtx_some hsrc
  have hinit := updateVtx_eq_markExplored_single hwf.idsNodup hsrc
  have hfuel : 2 * ucount (markExplored g [s]) + ([s] : List Nat).length ≤
      2 * (g.updateVtx src.set_as_explored).vtx_list.length + 1 := by
    rw [hinit, vtx_list_length_markExplored]
    have h1 : ucount (markExplored g [s]) ≤ (markExplored g [s]).vtx_list.length :=
      ucount_le_length _
    rw [vtx_list_length_markExplored] at h1
    simp only [List.length_singleton]
    omega
  obtain ⟨F, hF, hpre, hFnd, hFids, hFsound, hFclosed⟩ :=
    bfsLoop_spec hwf s (2 * (g.updateVtx src.set_as_explored).vtx_list.length + 1) [s] [s]
      hfuel
      (fun x hx => hx)
      (fun x hx => by rwa [List.mem_singleton.mp hx])
      (fun x hx hnx => absurd hx hnx)
      (fun x hx => by rw [List.mem_singleton.mp hx]; exact Relation.ReflTransGen.refl)
      (List.nodup_singleton s)
      ⟨[], rfl⟩
  obtain ⟨t, ht⟩ := hpre
  have hFeq : F = s :: t := by
    rw [← ht]
    rfl
  subst hFeq
  refine ⟨t, ?_, hFnd, ?_⟩
  · show g.bfs s = .ok (s :: t) (markExplored g (s :: t))
    unfold bfs
    rw [hsrc]
    simp only
    rw [hinit] at hF ⊢
    rw [hF]
  · intro y
    constructor
    · exact hFsound y
    · intro hdisc
      induction hdisc with
      | refl => exact List.mem_cons_self s t
      | tail hab hbc ihb => exact hFclosed _ ihb _ hbc.1 hbc.2

end UndirectedGraph

theorem Vertex.add_edge_ok_iff {v : Vertex} {e : UndirectedEdge} {v' : Vertex} :
    v.add_edge e = .ok v' ↔
      (e.end1 = v.vtx_id ∨ e.end2 = v.vtx_id) ∧ e.otherEnd v.vtx_id ∉ v.neighbors ∧
      v' = { v with edges := v.edges ++ [e],
                    neighbors := v.neighbors ++ [e.otherEnd v.vtx_id] } := by
  unfold Vertex.add_edge
  by_cases h1 : e.end1 ≠ v.vtx_id ∧ e.end2 ≠ v.vtx_id
  · rw [if_pos h1]
    simp only [reduceCtorEq, false_iff]
    rintro ⟨hor, _, _⟩
    rcases hor with h | h
    · exact h1.1 h
    · exact h1.2 h
  · rw [if_neg h1]
    have hor : e.end1 = v.vtx_id ∨ e.end2 = v.vtx_id := by
      rcases not_and_or.mp h1 with h | h
      · exact Or.inl (not_not.mp h)
      · exact Or.inr (not_not.mp h)
    by_cases h2 : e.otherEnd v.vtx_id ∈ v.neighbors
    · rw [if_pos h2]
      simp only [reduceCtorEq, false_iff]
      rintro ⟨_, hnn, _⟩
      exact hnn h2
    · rw [if_neg h2]
      simp only [Except.ok.injEq]
      constructor
      · intro h
        exact ⟨hor, h2, h.symm⟩
      · rintro ⟨_, _, h⟩
        exact h.symm

theorem Vertex.add_edge_err_iff {v : Vertex} {e : UndirectedEdge} :
    (∃ m, v.add_edge e = .error m) ↔
      (e.end1 ≠ v.vtx_id ∧ e.end2 ≠ v.vtx_id) ∨ e.otherEnd v.vtx_id ∈ v.neighbors := by
  unfold Vertex.add_edge
  by_cases h1 : e.end1 ≠ v.vtx_id ∧ e.end2 ≠ v.vtx_id
  · simp [h1]
  · rw [if_neg h1]
    by_cases h2 : e.otherEnd v.vtx_id ∈ v.neighbors
    · simp [h2, h1]
    · simp [h2, h1]

theorem Vertex.remove_edge_ok_iff {v : Vertex} {e : UndirectedEdge} {v' : Vertex} :
    v.remove_edge e = .ok v' ↔
      (e.end1 = v.vtx_id ∨ e.end2 = v.vtx_id) ∧ e.otherEnd v.vtx_id ∈ v.neighbors ∧
      v' = { v with edges := v.edges.erase e,
                    neighbors := v.neighbors.filter (fun n => n ≠ e.otherEnd v.vtx_id) } := by
  unfold Vertex.remove_edge
  by_cases h1 : e.end1 ≠ v.vtx_id ∧ e.end2 ≠ v.vtx_id
  · rw [if_pos h1]
    simp only [reduceCtorEq, false_iff]
    rintro ⟨hor, _, _⟩
    rcases hor with h | h
    · exact h1.1 h
    · exact h1.2 h
  · rw [if_neg h1]
    have hor : e.end1 = v.vtx_id ∨ e.end2 = v.vtx_id := by
      rcases not_and_or.mp h1 with h | h
      · exact Or.inl (not_not.mp h)
      · exact Or.inr (not_not.mp h)
    by_cases h2 : e.otherEnd v.vtx_id ∈ v.neighbors
    · rw [if_neg (not_not_intro h2)]
      simp only [Except.ok.injEq]
      constructor
      · intro h
        exact ⟨hor, h2, h.symm⟩
      · rintro ⟨_, _, h⟩
        exact h.symm
    · rw [if_pos h2]
      simp only [reduceCtorEq, false_iff]
      rintro ⟨_, hnn, _⟩
      exact h2 hnn

theorem Vertex.remove_edge_err_iff {v : Vertex} {e : UndirectedEdge} :
    (∃ m, v.remove_edge e = .error m) ↔
      (e.end1 ≠ v.vtx_id ∧ e.end2 ≠ v.vtx_id) ∨ e.otherEnd v.vtx_id ∉ v.neighbors := by
  unfold Vertex.remove_edge
  by_cases h1 : e.end1 ≠ v.vtx_id ∧ e.end2 ≠ v.vtx_id
  · simp [h1]
  · rw [if_neg h1]
    by_cases h2 : e.otherEnd v.vtx_id ∈ v.neighbors
    · simp [h2, h1]
    · simp [h2, h1]

namespace UndirectedGraph

theorem updateVtx_updateVtx {g : UndirectedGraph} {v1 v2 : Vertex}
    (hne : v1.vtx_id ≠ v2.vtx_id) :
    (g.updateVtx v1).updateVtx v2 =
      { g with vtx_list := (g.vtx_list.map (fun u =>
          if u.vtx_id = v1.vtx_id then v1 else if u.vtx_id = v2.vtx_id then v2 else u)) } := by
  unfold updateVtx
  simp only [List.map_map]
  congr 1
  apply List.map_congr_left
  intro u _
  simp only [Function.comp]
  by_cases h1 : u.vtx_id = v1.vtx_id
  · simp [h1, hne]
  · by_cases h2 : u.vtx_id = v2.vtx_id
    · simp [h1, h2, Ne.symm hne]
    · simp [h1, h2]

end UndirectedGraph

namespace UndirectedGraph

/-- The state produced by a successful `add_edge a b` (with `va`, `vb` the
looked-up endpoint records): the new edge is appended to `_edge_list` and
to both endpoints' adjacency, and each endpoint gains the other in its
neighbor set. -/
def addEdgeResult (g : UndirectedGraph) (a b : Nat) (va vb : Vertex) : UndirectedGraph :=
  { vtx_list := g.vtx_list.map (fun u =>
      if u.vtx_id = a then
        { va with edges := va.edges ++ [⟨a, b⟩], neighbors := va.neighbors ++ [b] }
      else if u.vtx_id = b then
        { vb with edges := vb.edges ++ [⟨a, b⟩], neighbors := vb.neighbors ++ [a] }
      else u),
    edge_list := g.edge_list ++ [⟨a, b⟩] }

theorem otherEnd_left {a b x : Nat} (hx : x = a) : (⟨a, b⟩ : UndirectedEdge).otherEnd x = b := by
  subst hx
  simp [UndirectedEdge.otherEnd]

theorem otherEnd_right {a b x : Nat} (hx : x = b) (hab : a ≠ b) :
    (⟨a, b⟩ : UndirectedEdge).otherEnd x = a := by
  subst hx
  simp [UndirectedEdge.otherEnd, hab]

theorem add_edge_ok_state {g g' : UndirectedGraph} {a b : Nat}
    (h : g.add_edge a b = .ok () g') :
    ∃ va vb, g.find_vtx a = some va ∧ g.find_vtx b = some vb ∧ a ≠ b ∧
      b ∉ va.neighbors ∧ a ∉ vb.neighbors ∧ g' = addEdgeResult g a b va vb := by
  unfold add_edge at h
  cases ha : g.find_vtx a with
  | none => rw [ha] at h; cases hb : g.find_vtx b with
    | none => rw [hb] at h; cases h
    | some vb => rw [hb] at h; cases h
  | some va =>
    rw [ha] at h
    cases hb : g.find_vtx b with
    | none => rw [hb] at h; cases h
    | some vb =>
      rw [hb] at h
      dsimp only at h
      by_cases hab : a = b
      · rw [if_pos hab] at h; cases h
      · rw [if_neg hab] at h
        obtain ⟨ham, haid⟩ := find_vtx_some ha
        obtain ⟨hbm, hbid⟩ := find_vtx_some hb
        unfold addEdgeImpl at h
        cases h1 : va.add_edge ⟨a, b⟩ with
        | error m => rw [h1] at h; cases h
        | ok va1 =>
          rw [h1] at h
          cases h2 : vb.add_edge ⟨a, b⟩ with
          | error m => rw [h2] at h; cases h
          | ok vb1 =>
            rw [h2] at h
            obtain ⟨_, hna, hva1⟩ := Vertex.add_edge_ok_iff.mp h1
            obtain ⟨_, hnb, hvb1⟩ := Vertex.add_edge_ok_iff.mp h2
            rw [otherEnd_left haid] at hna hva1
            rw [otherEnd_right hbid hab] at hnb hvb1
            refine ⟨va, vb, rfl, rfl, hab, hna, hnb, ?_⟩
            cases h
            subst hva1
            subst hvb1
            rw [updateVtx_updateVtx (by
              show va.vtx_id ≠ vb.vtx_id
              rw [haid, hbid]
              exact hab)]
            unfold addEdgeResult
            simp only [haid, hbid]

theorem add_edge_ok_of {g : UndirectedGraph} {a b : Nat} {va vb : Vertex}
    (ha : g.find_vtx a = some va) (hb : g.find_vtx b = some vb) (hab : a ≠ b)
    (hba : b ∉ va.neighbors) (hab2 : a ∉ vb.neighbors) :
    g.add_edge a b = .ok () (addEdgeResult g a b va vb) := by
  obtain ⟨ham, haid⟩ := find_vtx_some ha
  obtain ⟨hbm, hbid⟩ := find_vtx_some hb
  unfold add_edge
  rw [ha, hb]
  dsimp only
  rw [if_neg hab]
  unfold addEdgeImpl
  have h1 : va.add_edge ⟨a, b⟩ =
      .ok { va with edges := va.edges ++ [⟨a, b⟩], neighbors := va.neighbors ++ [b] } := by
    apply Vertex.add_edge_ok_iff.mpr
    refine ⟨Or.inl haid.symm, ?_, ?_⟩
    · rw [otherEnd_left haid]
      exact hba
    · rw [otherEnd_left haid]
  have h2 : vb.add_edge ⟨a, b⟩ =
      .ok { vb with edges := vb.edges ++ [⟨a, b⟩], neighbors := vb.neighbors ++ [a] } := by
    apply Vertex.add_edge_ok_iff.mpr
    refine ⟨Or.inr hbid.symm, ?_, ?_⟩
    · rw [otherEnd_right hbid hab]
      exact hab2
    · rw [otherEnd_right hbid hab]
  rw [h1, h2]
  simp only
  rw [updateVtx_updateVtx (by
    show va.vtx_id ≠ vb.vtx_id
    rw [haid, hbid]
    exact hab)]
  unfold addEdgeResult
  simp only [haid, hbid]

end UndirectedGraph

namespace UndirectedGraph

theorem mem_ns_iff_edge {g : UndirectedGraph} (hwf : WF g) {v : Vertex}
    (hv : v ∈ g.vtx_list) (n : Nat) :
    n ∈ v.neighbors ↔ ∃ e ∈ g.edge_list, samePair e ⟨v.vtx_id, n⟩ := by
  constructor
  · intro hn
    obtain ⟨e, he, hp⟩ := hwf.nsWitness v hv n hn
    exact ⟨e, (hwf.adjSub v hv e he).1, hp⟩
  · rintro ⟨e, hel, hp⟩
    have hinc : e.end1 = v.vtx_id ∨ e.end2 = v.vtx_id := by
      rcases hp with ⟨h1, _⟩ | ⟨_, h2⟩
      · exact Or.inl h1
      · exact Or.inr h2
    have hev : e ∈ v.edges := hwf.edgeAdj e hel v hv hinc
    have := hwf.adjNs v hv e hev
    rwa [samePair_otherEnd hp] at this

theorem wf_ns_symm {g : UndirectedGraph} (hwf : WF g) {a b : Nat} {va vb : Vertex}
    (hva : va ∈ g.vtx_list) (hvb : vb ∈ g.vtx_list)
    (haid : va.vtx_id = a) (hbid : vb.vtx_id = b) :
    b ∈ va.neighbors ↔ a ∈ vb.neighbors := by
  rw [mem_ns_iff_edge hwf hva, mem_ns_iff_edge hwf hvb, haid, hbid]
  constructor
  · rintro ⟨e, hel, hp⟩
    exact ⟨e, hel, samePair_swap hp⟩
  · rintro ⟨e, hel, hp⟩
    exact ⟨e, hel, samePair_swap hp⟩

theorem no_parallel_new {g : UndirectedGraph} (hwf : WF g) {a b : Nat} {va : Vertex}
    (hva : va ∈ g.vtx_list) (haid : va.vtx_id = a) (hba : b ∉ va.neighbors) :
    ∀ e ∈ g.edge_list, ¬ samePair e ⟨a, b⟩ := by
  intro e hel hp
  exact hba ((mem_ns_iff_edge hwf hva b).mpr ⟨e, hel, haid.symm ▸ hp⟩)

theorem new_edge_not_mem_adj {g : UndirectedGraph} (hwf : WF g) {a b : Nat} {v : Vertex}
    (hv : v ∈ g.vtx_list) {e : UndirectedEdge} (he : e ∈ v.edges)
    (hnp : ∀ e' ∈ g.edge_list, ¬ samePair e' ⟨a, b⟩) : e ≠ (⟨a, b⟩ : UndirectedEdge) := by
  intro hc
  subst hc
  exact hnp _ (hwf.adjSub v hv _ he).1 (samePair_refl _)

end UndirectedGraph

/-- A vertex extended by one adjacency edge and one neighbor id (the
successful `Vertex.add_edge` outcome). -/
def Vertex.extendV (v : Vertex) (e : UndirectedEdge) (n : Nat) : Vertex :=
  { v with edges := v.edges ++ [e], neighbors := v.neighbors ++ [n] }

@[simp] theorem Vertex.extendV_vtx_id (v : Vertex) (e : UndirectedEdge) (n : Nat) :
    (v.extendV e n).vtx_id = v.vtx_id := rfl

@[simp] theorem Vertex.extendV_edges (v : Vertex) (e : UndirectedEdge) (n : Nat) :
    (v.extendV e n).edges = v.edges ++ [e] := rfl

@[simp] theorem Vertex.extendV_neighbors (v : Vertex) (e : UndirectedEdge) (n : Nat) :
    (v.extendV e n).neighbors = v.neighbors ++ [n] := rfl

@[simp] theorem Vertex.extendV_explored (v : Vertex) (e : UndirectedEdge) (n : Nat) :
    (v.extendV e n).explored = v.explored := rfl

namespace UndirectedGraph

theorem ids_addEdgeResult {g : UndirectedGraph} {a b : Nat} {va vb : Vertex}
    (haid : va.vtx_id = a) (hbid : vb.vtx_id = b) :
    ids (addEdgeResult g a b va vb) = ids g := by
  unfold ids addEdgeResult
  simp only [List.map_map]
  apply List.map_congr_left
  intro u _
  simp only [Function.comp]
  by_cases h1 : u.vtx_id = a
  · rw [if_pos h1]
    show va.vtx_id = u.vtx_id
    rw [haid, h1]
  · rw [if_neg h1]
    by_cases h2 : u.vtx_id = b
    · rw [if_pos h2]
      show vb.vtx_id = u.vtx_id
      rw [hbid, h2]
    · rw [if_neg h2]

theorem mem_addEdgeResult_cases {g : UndirectedGraph} {a b : Nat} {va vb : Vertex}
    (hnd : (ids g).Nodup) (ham : va ∈ g.vtx_list) (haid : va.vtx_id = a)
    (hbm : vb ∈ g.vtx_list) (hbid : vb.vtx_id = b) :
    ∀ u' ∈ (addEdgeResult g a b va vb).vtx_list,
      u' = va.extendV ⟨a, b⟩ b ∨ u' = vb.extendV ⟨a, b⟩ a ∨
        (u' ∈ g.vtx_list ∧ u'.vtx_id ≠ a ∧ u'.vtx_id ≠ b) := by
  intro u' hu'
  obtain ⟨u, hu, hψ⟩ := List.mem_map.mp hu'
  by_cases h1 : u.vtx_id = a
  · have : u = va := ids_nodup_inj hnd hu ham (by rw [h1, haid])
    subst this
    rw [if_pos h1] at hψ
    exact Or.inl hψ.symm
  · by_cases h2 : u.vtx_id = b
    · have : u = vb := ids_nodup_inj hnd hu hbm (by rw [h2, hbid])
      subst this
      rw [if_neg h1, if_pos h2] at hψ
      exact Or.inr (Or.inl hψ.symm)
    · rw [if_neg h1, if_neg h2] at hψ
      subst hψ
      exact Or.inr (Or.inr ⟨hu, h1, h2⟩)

theorem extendV_mem_addEdgeResult {g : UndirectedGraph} {a b : Nat} {va vb : Vertex}
    (ham : va ∈ g.vtx_list) (haid : va.vtx_id = a) :
    va.extendV ⟨a, b⟩ b ∈ (addEdgeResult g a b va vb).vtx_list := by
  apply List.mem_map.mpr
  exact ⟨va, ham, by rw [if_pos haid]; rfl⟩

end UndirectedGraph

namespace UndirectedGraph

@[simp] theorem edge_list_addEdgeResult (g : UndirectedGraph) (a b : Nat) (va vb : Vertex) :
    (addEdgeResult g a b va vb).edge_list = g.edge_list ++ [⟨a, b⟩] := rfl

theorem wf_addEdgeResult {g : UndirectedGraph} {a b : Nat} {va vb : Vertex}
    (hwf : WF g) (ha : g.find_vtx a = some va) (hb : g.find_vtx b = some vb)
    (hab : a ≠ b) (hba : b ∉ va.neighbors) :
    WF (addEdgeResult g a b va vb) := by
  obtain ⟨ham, haid⟩ := find_vtx_some ha
  obtain ⟨hbm, hbid⟩ := find_vtx_some hb
  have hab2 : a ∉ vb.neighbors := fun hc =>
    hba ((wf_ns_symm hwf ham hbm haid hbid).mpr hc)
  have hnp : ∀ e ∈ g.edge_list, ¬ samePair e ⟨a, b⟩ := no_parallel_new hwf ham haid hba
  have hmemc := mem_addEdgeResult_cases hwf.idsNodup ham haid hbm hbid
  have ha_ids : a ∈ ids g := mem_ids_iff.mpr ⟨va, ham, haid⟩
  have hb_ids : b ∈ ids g := mem_ids_iff.mpr ⟨vb, hbm, hbid⟩
  refine ⟨?_, ?_, ?_, ?_, ?_, ?_, ?_, ?_, ?_, ?_⟩
  · rw [ids_addEdgeResult haid hbid]
    exact hwf.idsNodup
  · intro e he
    rw [edge_list_addEdgeResult] at he
    rcases List.mem_append.mp he with h | h
    · exact hwf.noSelfLoop e h
    · rw [List.mem_singleton.mp h]
      simpa using hab
  · intro e he
    rw [edge_list_addEdgeResult] at he
    rw [ids_addEdgeResult haid hbid]
    rcases List.mem_append.mp he with h | h
    · exact hwf.endsMem e h
    · rw [List.mem_singleton.mp h]
      exact ⟨ha_ids, hb_ids⟩
  · rw [edge_list_addEdgeResult, List.pairwise_append]
    refine ⟨hwf.noParallel, List.pairwise_singleton _ _, ?_⟩
    intro e he e' he'
    rw [List.mem_singleton.mp he']
    exact hnp e he
  · intro v' hv'
    rcases hmemc v' hv' with rfl | rfl | ⟨hm, _, _⟩
    · rw [Vertex.extendV_edges, List.nodup_append]
      exact ⟨hwf.adjNodup va ham, List.nodup_singleton _,
        fun x hx hx' => new_edge_not_mem_adj hwf ham hx hnp (List.mem_singleton.mp hx')⟩
    · rw [Vertex.extendV_edges, List.nodup_append]
      exact ⟨hwf.adjNodup vb hbm, List.nodup_singleton _,
        fun x hx hx' => new_edge_not_mem_adj hwf hbm hx hnp (List.mem_singleton.mp hx')⟩
    · exact hwf.adjNodup v' hm
  · intro v' hv' e he
    rw [edge_list_addEdgeResult]
    rcases hmemc v' hv' with rfl | rfl | ⟨hm, hna, hnb⟩
    · rw [Vertex.extendV_edges] at he
      rcases List.mem_append.mp he with h | h
      · obtain ⟨h1, h2⟩ := hwf.adjSub va ham e h
        exact ⟨List.mem_append_left _ h1, by rw [Vertex.extendV_vtx_id]; exact h2⟩
      · rw [List.mem_singleton.mp h]
        refine ⟨List.mem_append_right _ (List.mem_singleton_self _), Or.inl ?_⟩
        rw [Vertex.extendV_vtx_id, haid]
    · rw [Vertex.extendV_edges] at he
      rcases List.mem_append.mp he with h | h
      · obtain ⟨h1, h2⟩ := hwf.adjSub vb hbm e h
        exact ⟨List.mem_append_left _ h1, by rw [Vertex.extendV_vtx_id]; exact h2⟩
      · rw [List.mem_singleton.mp h]
        refine ⟨List.mem_append_right _ (List.mem_singleton_self _), Or.inr ?_⟩
        rw [Vertex.extendV_vtx_id, hbid]
    · obtain ⟨h1, h2⟩ := hwf.adjSub v' hm e he
      exact ⟨List.mem_append_left _ h1, h2⟩
  · intro e he v' hv' hinc
    rw [edge_list_addEdgeResult] at he
    rcases hmemc v' hv' with rfl | rfl | ⟨hm, hna, hnb⟩
    · rw [Vertex.extendV_edges]
      rcases List.mem_append.mp he with h | h
      · rw [Vertex.extendV_vtx_id] at hinc
        exact List.mem_append_left _ (hwf.edgeAdj e h va ham hinc)
      · rw [List.mem_singleton.mp h]
        exact List.mem_append_right _ (List.mem_singleton_self _)
    · rw [Vertex.extendV_edges]
      rcases List.mem_append.mp he with h | h
      · rw [Vertex.extendV_vtx_id] at hinc
        exact List.mem_append_left _ (hwf.edgeAdj e h vb hbm hinc)
      · rw [List.mem_singleton.mp h]
        exact List.mem_append_right _ (List.mem_singleton_self _)
    · rcases List.mem_append.mp he with h | h
      · exact hwf.edgeAdj e h v' hm hinc
      · exfalso
        rw [List.mem_singleton.mp h] at hinc
        rcases hinc with h1 | h2
        · exact hna ((show a = v'.vtx_id from h1).symm)
        · exact hnb ((show b = v'.vtx_id from h2).symm)
  · intro v' hv'
    rcases hmemc v' hv' with rfl | rfl | ⟨hm, _, _⟩
    · rw [Vertex.extendV_neighbors, List.nodup_append]
      exact ⟨hwf.nsNodup va ham, List.nodup_singleton _,
        fun x hx hx' => hba ((List.mem_singleton.mp hx') ▸ hx)⟩
    · rw [Vertex.extendV_neighbors, List.nodup_append]
      exact ⟨hwf.nsNodup vb hbm, List.nodup_singleton _,
        fun x hx hx' => hab2 ((List.mem_singleton.mp hx') ▸ hx)⟩
    · exact hwf.nsNodup v' hm
  · intro v' hv' n hn
    rcases hmemc v' hv' with rfl | rfl | ⟨hm, _, _⟩
    · rw [Vertex.extendV_neighbors] at hn
      rw [Vertex.extendV_edges]
      rcases List.mem_append.mp hn with h | h
      · obtain ⟨e, he, hp⟩ := hwf.nsWitness va ham n h
        refine ⟨e, List.mem_append_left _ he, ?_⟩
        rw [Vertex.extendV_vtx_id]
        exact hp
      · rw [List.mem_singleton.mp h]
        refine ⟨⟨a, b⟩, List.mem_append_right _ (List.mem_singleton_self _), ?_⟩
        rw [Vertex.extendV_vtx_id]
        exact Or.inl ⟨haid.symm, rfl⟩
    · rw [Vertex.extendV_neighbors] at hn
      rw [Vertex.extendV_edges]
      rcases List.mem_append.mp hn with h | h
      · obtain ⟨e, he, hp⟩ := hwf.nsWitness vb hbm n h
        refine ⟨e, List.mem_append_left _ he, ?_⟩
        rw [Vertex.extendV_vtx_id]
        exact hp
      · rw [List.mem_singleton.mp h]
        refine ⟨⟨a, b⟩, List.mem_append_right _ (List.mem_singleton_self _), ?_⟩
        rw [Vertex.extendV_vtx_id]
        exact Or.inr ⟨rfl, hbid.symm⟩
    · exact hwf.nsWitness v' hm n hn
  · intro v' hv' e he
    rcases hmemc v' hv' with rfl | rfl | ⟨hm, _, _⟩
    · rw [Vertex.extendV_edges] at he
      rw [Vertex.extendV_neighbors, Vertex.extendV_vtx_id]
      rcases List.mem_append.mp he with h | h
      · exact List.mem_append_left _ (hwf.adjNs va ham e h)
      · rw [List.mem_singleton.mp h, otherEnd_left haid]
        exact List.mem_append_right _ (List.mem_singleton_self _)
    · rw [Vertex.extendV_edges] at he
      rw [Vertex.extendV_neighbors, Vertex.extendV_vtx_id]
      rcases List.mem_append.mp he with h | h
      · exact List.mem_append_left _ (hwf.adjNs vb hbm e h)
      · rw [List.mem_singleton.mp h, otherEnd_right hbid hab]
        exact List.mem_append_right _ (List.mem_singleton_self _)
    · exact hwf.adjNs v' hm e he

theorem clean_addEdgeResult {g : UndirectedGraph} {a b : Nat} {va vb : Vertex}
    (hclean : Clean g) (ham : va ∈ g.vtx_list) (hbm : vb ∈ g.vtx_list) :
    Clean (addEdgeResult g a b va vb) := by
  intro v' hv'
  obtain ⟨u, hu, hψ⟩ := List.mem_map.mp hv'
  subst hψ
  by_cases h1 : u.vtx_id = a
  · rw [if_pos h1]
    exact hclean va ham
  · rw [if_neg h1]
    by_cases h2 : u.vtx_id = b
    · rw [if_pos h2]
      exact hclean vb hbm
    · rw [if_neg h2]
      exact hclean u hu

end UndirectedGraph

theorem UndirectedEdge.otherEnd_end1 (e : UndirectedEdge) : e.otherEnd e.end1 = e.end2 := by
  simp [UndirectedEdge.otherEnd]

theorem UndirectedEdge.otherEnd_end2 {e : UndirectedEdge} (h : e.end1 ≠ e.end2) :
    e.otherEnd e.end2 = e.end1 := by
  simp [UndirectedEdge.otherEnd, h]

namespace UndirectedGraph

theorem samePair_of_incident_otherEnd {x : UndirectedEdge} {p q : Nat}
    (hinc : x.end1 = p ∨ x.end2 = p) (hoe : x.otherEnd p = q) : samePair x ⟨p, q⟩ := by
  unfold UndirectedEdge.otherEnd at hoe
  by_cases h1 : x.end1 = p
  · rw [if_pos h1] at hoe
    exact Or.inl ⟨h1, hoe⟩
  · rw [if_neg h1] at hoe
    rcases hinc with h | h
    · exact absurd h h1
    · exact Or.inr ⟨hoe, h⟩

theorem samePair_trans' {x e : UndirectedEdge} {c : UndirectedEdge}
    (h1 : samePair x c) (h2 : samePair e c) : samePair x e := by
  rcases h1 with ⟨a1, a2⟩ | ⟨a1, a2⟩ <;> rcases h2 with ⟨b1, b2⟩ | ⟨b1, b2⟩
  · exact Or.inl ⟨a1.trans b1.symm, a2.trans b2.symm⟩
  · exact Or.inr ⟨a1.trans b2.symm, a2.trans b1.symm⟩
  · exact Or.inr ⟨a1.trans b2.symm, a2.trans b1.symm⟩
  · exact Or.inl ⟨a1.trans b1.symm, a2.trans b2.symm⟩

theorem wf_edge_nodup {g : UndirectedGraph} (hwf : WF g) : g.edge_list.Nodup := by
  apply List.Pairwise.imp _ hwf.noParallel
  intro a b hab
  intro hc
  subst hc
  exact hab (samePair_refl a)

end UndirectedGraph

theorem Vertex.gewn_pred_iff (v : Vertex) (n : Nat) (e : UndirectedEdge) :
    ((e.end1 == v.vtx_id && e.end2 == n) || (e.end1 == n && e.end2 == v.vtx_id)) = true ↔
      UndirectedGraph.samePair e ⟨v.vtx_id, n⟩ := by
  unfold UndirectedGraph.samePair
  constructor
  · intro h
    rcases Bool.or_eq_true_iff.mp h with h | h
    · obtain ⟨h1, h2⟩ := Bool.and_eq_true_iff.mp h
      exact Or.inl ⟨beq_iff_eq.mp h1, beq_iff_eq.mp h2⟩
    · obtain ⟨h1, h2⟩ := Bool.and_eq_true_iff.mp h
      exact Or.inr ⟨beq_iff_eq.mp h1, beq_iff_eq.mp h2⟩
  · intro h
    rcases h with ⟨h1, h2⟩ | ⟨h1, h2⟩
    · apply Bool.or_eq_true_iff.mpr
      exact Or.inl (Bool.and_eq_true_iff.mpr ⟨beq_iff_eq.mpr h1, beq_iff_eq.mpr h2⟩)
    · apply Bool.or_eq_true_iff.mpr
      exact Or.inr (Bool.and_eq_true_iff.mpr ⟨beq_iff_eq.mpr h1, beq_iff_eq.mpr h2⟩)

theorem Vertex.get_edge_with_neighbor_some {v : Vertex} {n : Nat} {e : UndirectedEdge}
    (h : v.get_edge_with_neighbor n = some e) :
    e ∈ v.edges ∧ UndirectedGraph.samePair e ⟨v.vtx_id, n⟩ := by
  unfold Vertex.get_edge_with_neighbor at h
  have h1 := List.mem_of_find?_eq_some h
  have h2 := List.find?_some h
  exact ⟨h1, (Vertex.gewn_pred_iff v n e).mp h2⟩

theorem Vertex.get_edge_with_neighbor_none {v : Vertex} {n : Nat} :
    v.get_edge_with_neighbor n = none ↔
      ∀ e ∈ v.edges, ¬ UndirectedGraph.samePair e ⟨v.vtx_id, n⟩ := by
  unfold Vertex.get_edge_with_neighbor
  rw [List.find?_eq_none]
  constructor
  · intro h e he hp
    exact h e he ((Vertex.gewn_pred_iff v n e).mpr hp)
  · intro h e he hp
    exact h e he ((Vertex.gewn_pred_iff v n e).mp hp)

/-- A vertex with one adjacency edge erased and one neighbor id filtered out
(the successful `Vertex.remove_edge` outcome). -/
def Vertex.shrinkV (v : Vertex) (e : UndirectedEdge) (n : Nat) : Vertex :=
  { v with edges := v.edges.erase e, neighbors := v.neighbors.filter (fun m => m ≠ n) }

@[simp] theorem Vertex.shrinkV_vtx_id (v : Vertex) (e : UndirectedEdge) (n : Nat) :
    (v.shrinkV e n).vtx_id = v.vtx_id := rfl

@[simp] theorem Vertex.shrinkV_edges (v : Vertex) (e : UndirectedEdge) (n : Nat) :
    (v.shrinkV e n).edges = v.edges.erase e := rfl

@[simp] theorem Vertex.shrinkV_neighbors (v : Vertex) (e : UndirectedEdge) (n : Nat) :
    (v.shrinkV e n).neighbors = v.neighbors.filter (fun m => m ≠ n) := rfl

@[simp] theorem Vertex.shrinkV_explored (v : Vertex) (e : UndirectedEdge) (n : Nat) :
    (v.shrinkV e n).explored = v.explored := rfl

namespace UndirectedGraph

/-- The state produced by a successful removal of stored edge `e` (with
`v1`, `v2` the records of its endpoints): the edge disappears from
`_edge_list` and from both endpoints' adjacency, and each endpoint loses
the other from its neighbor set. -/
def removeEdgeResult (g : UndirectedGraph) (e : UndirectedEdge) (v1 v2 : Vertex) :
    UndirectedGraph :=
  { vtx_list := g.vtx_list.map (fun u =>
      if u.vtx_id = e.end1 then v1.shrinkV e e.end2
      else if u.vtx_id = e.end2 then v2.shrinkV e e.end1
      else u),
    edge_list := g.edge_list.erase e }

theorem removeEdgeImpl_ok {g : UndirectedGraph} {e : UndirectedEdge}
    (hwf : WF g) (hel : e ∈ g.edge_list) :
    ∃ v1 v2, g.find_vtx e.end1 = some v1 ∧ g.find_vtx e.end2 = some v2 ∧
      g.removeEdgeImpl e = .ok () (removeEdgeResult g e v1 v2) := by
  have hne : e.end1 ≠ e.end2 := hwf.noSelfLoop e hel
  obtain ⟨h1_ids, h2_ids⟩ := hwf.endsMem e hel
  obtain ⟨v1, hv1⟩ := Option.isSome_iff_exists.mp (find_vtx_isSome_iff.mpr h1_ids)
  obtain ⟨v2, hv2⟩ := Option.isSome_iff_exists.mp (find_vtx_isSome_iff.mpr h2_ids)
  obtain ⟨hv1m, hv1id⟩ := find_vtx_some hv1
  obtain ⟨hv2m, hv2id⟩ := find_vtx_some hv2
  have he1 : e ∈ v1.edges := hwf.edgeAdj e hel v1 hv1m (Or.inl hv1id.symm)
  have he2 : e ∈ v2.edges := hwf.edgeAdj e hel v2 hv2m (Or.inr hv2id.symm)
  have hoe1 : e.otherEnd v1.vtx_id = e.end2 := by rw [hv1id]; exact e.otherEnd_end1
  have hoe2 : e.otherEnd v2.vtx_id = e.end1 := by rw [hv2id]; exact e.otherEnd_end2 hne
  have hr1 : v1.remove_edge e = .ok (v1.shrinkV e e.end2) := by
    apply Vertex.remove_edge_ok_iff.mpr
    refine ⟨Or.inl hv1id.symm, ?_, ?_⟩
    · rw [hoe1, ← hoe1]
      exact hwf.adjNs v1 hv1m e he1
    · rw [hoe1]
      rfl
  have hr2 : v2.remove_edge e = .ok (v2.shrinkV e e.end1) := by
    apply Vertex.remove_edge_ok_iff.mpr
    refine ⟨Or.inr hv2id.symm, ?_, ?_⟩
    · rw [hoe2, ← hoe2]
      exact hwf.adjNs v2 hv2m e he2
    · rw [hoe2]
      rfl
  refine ⟨v1, v2, hv1, hv2, ?_⟩
  unfold removeEdgeImpl
  rw [hv1]
  dsimp only
  rw [hr1]
  dsimp only
  have hfind2 : (g.updateVtx (v1.shrinkV e e.end2)).find_vtx e.end2 = some v2 := by
    rw [find_vtx_updateVtx, hv2, Option.map_some']
    rw [if_neg (by rw [hv2id, Vertex.shrinkV_vtx_id, hv1id]; exact fun hc => hne hc.symm)]
  rw [hfind2]
  dsimp only
  rw [hr2]
  dsimp only
  rw [updateVtx_updateVtx (by
    rw [Vertex.shrinkV_vtx_id, Vertex.shrinkV_vtx_id, hv1id, hv2id]
    exact hne)]
  unfold removeEdgeResult
  simp only [Vertex.shrinkV_vtx_id, hv1id, hv2id]

end UndirectedGraph

namespace UndirectedGraph

@[simp] theorem edge_list_removeEdgeResult (g : UndirectedGraph) (e : UndirectedEdge)
    (v1 v2 : Vertex) : (removeEdgeResult g e v1 v2).edge_list = g.edge_list.erase e := rfl

theorem ids_removeEdgeResult {g : UndirectedGraph} {e : UndirectedEdge} {v1 v2 : Vertex}
    (hv1id : v1.vtx_id = e.end1) (hv2id : v2.vtx_id = e.end2) :
    ids (removeEdgeResult g e v1 v2) = ids g := by
  unfold ids removeEdgeResult
  simp only [List.map_map]
  apply List.map_congr_left
  intro u _
  simp only [Function.comp]
  by_cases h1 : u.vtx_id = e.end1
  · rw [if_pos h1]
    show v1.vtx_id = u.vtx_id
    rw [hv1id, h1]
  · rw [if_neg h1]
    by_cases h2 : u.vtx_id = e.end2
    · rw [if_pos h2]
      show v2.vtx_id = u.vtx_id
      rw [hv2id, h2]
    · rw [if_neg h2]

theorem mem_removeEdgeResult_cases {g : UndirectedGraph} {e : UndirectedEdge} {v1 v2 : Vertex}
    (hnd : (ids g).Nodup) (hv1m : v1 ∈ g.vtx_list) (hv1id : v1.vtx_id = e.end1)
    (hv2m : v2 ∈ g.vtx_list) (hv2id : v2.vtx_id = e.end2) :
    ∀ u' ∈ (removeEdgeResult g e v1 v2).vtx_list,
      u' = v1.shrinkV e e.end2 ∨ u' = v2.shrinkV e e.end1 ∨
        (u' ∈ g.vtx_list ∧ u'.vtx_id ≠ e.end1 ∧ u'.vtx_id ≠ e.end2) := by
  intro u' hu'
  obtain ⟨u, hu, hψ⟩ := List.mem_map.mp hu'
  by_cases h1 : u.vtx_id = e.end1
  · have : u = v1 := ids_nodup_inj hnd hu hv1m (by rw [h1, hv1id])
    subst this
    rw [if_pos h1] at hψ
    exact Or.inl hψ.symm
  · by_cases h2 : u.vtx_id = e.end2
    · have : u = v2 := ids_nodup_inj hnd hu hv2m (by rw [h2, hv2id])
      subst this
      rw [if_neg h1, if_pos h2] at hψ
      exact Or.inr (Or.inl hψ.symm)
    · rw [if_neg h1, if_neg h2] at hψ
      subst hψ
      exact Or.inr (Or.inr ⟨hu, h1, h2⟩)

theorem mem_filter_ne {l : List Nat} {x m : Nat} :
    x ∈ l.filter (fun n => n ≠ m) ↔ x ∈ l ∧ x ≠ m := by
  simp [List.mem_filter]

theorem wf_removeEdgeResult {g : UndirectedGraph} {e : UndirectedEdge} {v1 v2 : Vertex}
    (hwf : WF g) (hel : e ∈ g.edge_list)
    (hv1 : g.find_vtx e.end1 = some v1) (hv2 : g.find_vtx e.end2 = some v2) :
    WF (removeEdgeResult g e v1 v2) := by
  have hne : e.end1 ≠ e.end2 := hwf.noSelfLoop e hel
  obtain ⟨hv1m, hv1id⟩ := find_vtx_some hv1
  obtain ⟨hv2m, hv2id⟩ := find_vtx_some hv2
  have hEnd : g.edge_list.Nodup := wf_edge_nodup hwf
  have hmemc := mem_removeEdgeResult_cases hwf.idsNodup hv1m hv1id hv2m hv2id
  have hmem_erase : ∀ x, x ∈ g.edge_list.erase e ↔ x ≠ e ∧ x ∈ g.edge_list :=
    fun x => List.Nodup.mem_erase_iff hEnd
  refine ⟨?_, ?_, ?_, ?_, ?_, ?_, ?_, ?_, ?_, ?_⟩
  · rw [ids_removeEdgeResult hv1id hv2id]
    exact hwf.idsNodup
  · intro x hx
    rw [edge_list_removeEdgeResult] at hx
    exact hwf.noSelfLoop x ((hmem_erase x).mp hx).2
  · intro x hx
    rw [edge_list_removeEdgeResult] at hx
    rw [ids_removeEdgeResult hv1id hv2id]
    exact hwf.endsMem x ((hmem_erase x).mp hx).2
  · rw [edge_list_removeEdgeResult]
    exact List.Pairwise.sublist (List.erase_sublist e g.edge_list) hwf.noParallel
  · intro v' hv'
    rcases hmemc v' hv' with rfl | rfl | ⟨hm, _, _⟩
    · rw [Vertex.shrinkV_edges]
      exact List.Nodup.erase e (hwf.adjNodup v1 hv1m)
    · rw [Vertex.shrinkV_edges]
      exact List.Nodup.erase e (hwf.adjNodup v2 hv2m)
    · exact hwf.adjNodup v' hm
  · intro v' hv' x hx
    rw [edge_list_removeEdgeResult]
    rcases hmemc v' hv' with rfl | rfl | ⟨hm, hna, hnb⟩
    · rw [Vertex.shrinkV_edges] at hx
      obtain ⟨hxe, hxm⟩ := (List.Nodup.mem_erase_iff (hwf.adjNodup v1 hv1m)).mp hx
      obtain ⟨h1, h2⟩ := hwf.adjSub v1 hv1m x hxm
      exact ⟨(hmem_erase x).mpr ⟨hxe, h1⟩, by rw [Vertex.shrinkV_vtx_id]; exact h2⟩
    · rw [Vertex.shrinkV_edges] at hx
      obtain ⟨hxe, hxm⟩ := (List.Nodup.mem_erase_iff (hwf.adjNodup v2 hv2m)).mp hx
      obtain ⟨h1, h2⟩ := hwf.adjSub v2 hv2m x hxm
      exact ⟨(hmem_erase x).mpr ⟨hxe, h1⟩, by rw [Vertex.shrinkV_vtx_id]; exact h2⟩
    · obtain ⟨h1, h2⟩ := hwf.adjSub v' hm x hx
      refine ⟨(hmem_erase x).mpr ⟨?_, h1⟩, h2⟩
      intro hc
      subst hc
      rcases h2 with h | h
      · exact hna h.symm
      · exact hnb h.symm
  · intro x hx v' hv' hinc
    rw [edge_list_removeEdgeResult] at hx
    obtain ⟨hxe, hxm⟩ := (hmem_erase x).mp hx
    rcases hmemc v' hv' with rfl | rfl | ⟨hm, _, _⟩
    · rw [Vertex.shrinkV_vtx_id] at hinc
      rw [Vertex.shrinkV_edges]
      exact (List.Nodup.mem_erase_iff (hwf.adjNodup v1 hv1m)).mpr
        ⟨hxe, hwf.edgeAdj x hxm v1 hv1m hinc⟩
    · rw [Vertex.shrinkV_vtx_id] at hinc
      rw [Vertex.shrinkV_edges]
      exact (List.Nodup.mem_erase_iff (hwf.adjNodup v2 hv2m)).mpr
        ⟨hxe, hwf.edgeAdj x hxm v2 hv2m hinc⟩
    · exact hwf.edgeAdj x hxm v' hm hinc
  · intro v' hv'
    rcases hmemc v' hv' with rfl | rfl | ⟨hm, _, _⟩
    · rw [Vertex.shrinkV_neighbors]
      exact List.Nodup.filter _ (hwf.nsNodup v1 hv1m)
    · rw [Vertex.shrinkV_neighbors]
      exact List.Nodup.filter _ (hwf.nsNodup v2 hv2m)
    · exact hwf.nsNodup v' hm
  · intro v' hv' n hn
    rcases hmemc v' hv' with rfl | rfl | ⟨hm, _, _⟩
    · rw [Vertex.shrinkV_neighbors] at hn
      obtain ⟨hnm, hne2⟩ := mem_filter_ne.mp hn
      obtain ⟨e', he', hp⟩ := hwf.nsWitness v1 hv1m n hnm
      have hee' : e' ≠ e := by
        intro hc
        subst hc
        have := samePair_otherEnd hp
        rw [hv1id, e'.otherEnd_end1] at this
        exact hne2 this.symm
      refine ⟨e', ?_, ?_⟩
      · rw [Vertex.shrinkV_edges]
        exact (List.Nodup.mem_erase_iff (hwf.adjNodup v1 hv1m)).mpr ⟨hee', he'⟩
      · rw [Vertex.shrinkV_vtx_id]
        exact hp
    · rw [Vertex.shrinkV_neighbors] at hn
      obtain ⟨hnm, hne1⟩ := mem_filter_ne.mp hn
      obtain ⟨e', he', hp⟩ := hwf.nsWitness v2 hv2m n hnm
      have hee' : e' ≠ e := by
        intro hc
        subst hc
        have := samePair_otherEnd hp
        rw [hv2id, e'.otherEnd_end2 hne] at this
        exact hne1 this.symm
      refine ⟨e', ?_, ?_⟩
      · rw [Vertex.shrinkV_edges]
        exact (List.Nodup.mem_erase_iff (hwf.adjNodup v2 hv2m)).mpr ⟨hee', he'⟩
      · rw [Vertex.shrinkV_vtx_id]
        exact hp
    · exact hwf.nsWitness v' hm n hn
  · intro v' hv' x hx
    rcases hmemc v' hv' with rfl | rfl | ⟨hm, _, _⟩
    · rw [Vertex.shrinkV_edges] at hx
      obtain ⟨hxe, hxm⟩ := (List.Nodup.mem_erase_iff (hwf.adjNodup v1 hv1m)).mp hx
      rw [Vertex.shrinkV_vtx_id, Vertex.shrinkV_neighbors]
      apply mem_filter_ne.mpr
      refine ⟨hwf.adjNs v1 hv1m x hxm, ?_⟩
      intro hc
      apply hxe
      apply wf_edge_unique hwf (hwf.adjSub v1 hv1m x hxm).1 hel
      have hxinc : x.end1 = v1.vtx_id ∨ x.end2 = v1.vtx_id := (hwf.adjSub v1 hv1m x hxm).2
      have hsp1 : samePair x ⟨v1.vtx_id, e.end2⟩ :=
        samePair_of_incident_otherEnd (by rcases hxinc with h | h
                                          · exact Or.inl h
                                          · exact Or.inr h) hc
      have hsp2 : samePair e ⟨v1.vtx_id, e.end2⟩ :=
        samePair_of_incident_otherEnd (Or.inl hv1id.symm)
          (by rw [hv1id]; exact e.otherEnd_end1)
      exact samePair_trans' hsp1 hsp2
    · rw [Vertex.shrinkV_edges] at hx
      obtain ⟨hxe, hxm⟩ := (List.Nodup.mem_erase_iff (hwf.adjNodup v2 hv2m)).mp hx
      rw [Vertex.shrinkV_vtx_id, Vertex.shrinkV_neighbors]
      apply mem_filter_ne.mpr
      refine ⟨hwf.adjNs v2 hv2m x hxm, ?_⟩
      intro hc
      apply hxe
      apply wf_edge_unique hwf (hwf.adjSub v2 hv2m x hxm).1 hel
      have hxinc : x.end1 = v2.vtx_id ∨ x.end2 = v2.vtx_id := (hwf.adjSub v2 hv2m x hxm).2
      have hsp1 : samePair x ⟨v2.vtx_id, e.end1⟩ :=
        samePair_of_incident_otherEnd (by rcases hxinc with h | h
                                          · exact Or.inl h
                                          · exact Or.inr h) hc
      have hsp2 : samePair e ⟨v2.vtx_id, e.end1⟩ :=
        samePair_of_incident_otherEnd (Or.inr hv2id.symm)
          (by rw [hv2id]; exact e.otherEnd_end2 hne)
      exact samePair_trans' hsp1 hsp2
    · exact hwf.adjNs v' hm x hx

theorem clean_removeEdgeResult {g : UndirectedGraph} {e : UndirectedEdge} {v1 v2 : Vertex}
    (hclean : Clean g) (hv1m : v1 ∈ g.vtx_list) (hv2m : v2 ∈ g.vtx_list) :
    Clean (removeEdgeResult g e v1 v2) := by
  intro v' hv'
  obtain ⟨u, hu, hψ⟩ := List.mem_map.mp hv'
  subst hψ
  by_cases h1 : u.vtx_id = e.end1
  · rw [if_pos h1]
    exact hclean v1 hv1m
  · rw [if_neg h1]
    by_cases h2 : u.vtx_id = e.end2
    · rw [if_pos h2]
      exact hclean v2 hv2m
    · rw [if_neg h2]
      exact hclean u hu

end UndirectedGraph

namespace UndirectedGraph

theorem find_vtx_removeEdgeResult {g : UndirectedGraph} {e : UndirectedEdge} {v1 v2 : Vertex}
    (hv1id : v1.vtx_id = e.end1) (hv2id : v2.vtx_id = e.end2) (i : Nat) :
    (removeEdgeResult g e v1 v2).find_vtx i =
      (g.find_vtx i).map (fun u =>
        if u.vtx_id = e.end1 then v1.shrinkV e e.end2
        else if u.vtx_id = e.end2 then v2.shrinkV e e.end1
        else u) := by
  apply find?_map_id_pres
  intro u
  by_cases h1 : u.vtx_id = e.end1
  · rw [if_pos h1, Vertex.shrinkV_vtx_id, hv1id, h1]
  · rw [if_neg h1]
    by_cases h2 : u.vtx_id = e.end2
    · rw [if_pos h2, Vertex.shrinkV_vtx_id, hv2id, h2]
    · rw [if_neg h2]

theorem removeIncidentEdges_spec :
    ∀ (k : Nat) (g : UndirectedGraph) (vid : Nat) (v : Vertex),
    WF g → g.find_vtx vid = some v → v.edges.length = k →
    ∃ g' v', removeIncidentEdges g vid k = .ok () g' ∧ WF g' ∧
      g'.find_vtx vid = some v' ∧ v'.edges = [] ∧ ids g' = ids g ∧
      (Clean g → Clean g') := by
  intro k
  induction k with
  | zero =>
    intro g vid v hwf hfind hlen
    refine ⟨g, v, rfl, hwf, hfind, List.length_eq_zero.mp hlen, rfl, fun h => h⟩
  | succ k ih =>
    intro g vid v hwf hfind hlen
    obtain ⟨hvm, hvid⟩ := find_vtx_some hfind
    cases hedges : v.edges with
    | nil => rw [hedges] at hlen; cases hlen
    | cons e rest =>
      have he : e ∈ v.edges := by rw [hedges]; exact List.mem_cons_self e rest
      have hel : e ∈ g.edge_list := (hwf.adjSub v hvm e he).1
      have hinc : e.end1 = vid ∨ e.end2 = vid := by
        have := (hwf.adjSub v hvm e he).2
        rwa [hvid] at this
      obtain ⟨v1, v2, hv1, hv2, hok⟩ := removeEdgeImpl_ok hwf hel
      obtain ⟨hv1m, hv1id⟩ := find_vtx_some hv1
      obtain ⟨hv2m, hv2id⟩ := find_vtx_some hv2
      have hwf' := wf_removeEdgeResult hwf hel hv1 hv2
      have hne : e.end1 ≠ e.end2 := hwf.noSelfLoop e hel
      have hstep : removeIncidentEdges g vid (k + 1) =
          removeIncidentEdges (removeEdgeResult g e v1 v2) vid k := by
        simp only [removeIncidentEdges, hfind, hedges, hok]
      rcases hinc with hinc1 | hinc2
      · have hveq : v = v1 := by
          rw [← hinc1] at hfind
          rw [hfind] at hv1
          exact Option.some.inj hv1
        have hfind' : (removeEdgeResult g e v1 v2).find_vtx vid = some (v1.shrinkV e e.end2) := by
          rw [find_vtx_removeEdgeResult hv1id hv2id, hfind, Option.map_some']
          rw [if_pos (by rw [hvid, hinc1])]
        have hlen' : (v1.shrinkV e e.end2).edges.length = k := by
          rw [Vertex.shrinkV_edges, ← hveq, hedges, List.erase_cons_head]
          rw [hedges] at hlen
          simpa using hlen
        obtain ⟨g', v', hrun, hwfF, hfindF, hedF, hidsF, hclF⟩ :=
          ih (removeEdgeResult g e v1 v2) vid (v1.shrinkV e e.end2) hwf' hfind' hlen'
        refine ⟨g', v', by rw [hstep]; exact hrun, hwfF, hfindF, hedF, ?_, ?_⟩
        · rw [hidsF, ids_removeEdgeResult hv1id hv2id]
        · intro hc
          exact hclF (clean_removeEdgeResult hc hv1m hv2m)
      · have hveq : v = v2 := by
          rw [← hinc2] at hfind
          rw [hfind] at hv2
          exact Option.some.inj hv2
        by_cases hinc1 : e.end1 = vid
        · have hveq1 : v = v1 := by
            rw [← hinc1] at hfind
            rw [hfind] at hv1
            exact Option.some.inj hv1
          have hfind' : (removeEdgeResult g e v1 v2).find_vtx vid =
              some (v1.shrinkV e e.end2) := by
            rw [find_vtx_removeEdgeResult hv1id hv2id, hfind, Option.map_some']
            rw [if_pos (by rw [hvid, hinc1])]
          have hlen' : (v1.shrinkV e e.end2).edges.length = k := by
            rw [Vertex.shrinkV_edges, ← hveq1, hedges, List.erase_cons_head]
            rw [hedges] at hlen
            simpa using hlen
          obtain ⟨g', v', hrun, hwfF, hfindF, hedF, hidsF, hclF⟩ :=
            ih (removeEdgeResult g e v1 v2) vid (v1.shrinkV e e.end2) hwf' hfind' hlen'
          refine ⟨g', v', by rw [hstep]; exact hrun, hwfF, hfindF, hedF, ?_, ?_⟩
          · rw [hidsF, ids_removeEdgeResult hv1id hv2id]
          · intro hc
            exact hclF (clean_removeEdgeResult hc hv1m hv2m)
        · have hfind' : (removeEdgeResult g e v1 v2).find_vtx vid =
              some (v2.shrinkV e e.end1) := by
            rw [find_vtx_removeEdgeResult hv1id hv2id, hfind, Option.map_some']
            rw [if_neg (by rw [hvid]; exact fun hc => hinc1 hc.symm),
              if_pos (by rw [hvid, hinc2])]
          have hlen' : (v2.shrinkV e e.end1).edges.length = k := by
            rw [Vertex.shrinkV_edges, ← hveq, hedges, List.erase_cons_head]
            rw [hedges] at hlen
            simpa using hlen
          obtain ⟨g', v', hrun, hwfF, hfindF, hedF, hidsF, hclF⟩ :=
            ih (removeEdgeResult g e v1 v2) vid (v2.shrinkV e e.end1) hwf' hfind' hlen'
          refine ⟨g', v', by rw [hstep]; exact hrun, hwfF, hfindF, hedF, ?_, ?_⟩
          · rw [hidsF, ids_removeEdgeResult hv1id hv2id]
          · intro hc
            exact hclF (clean_removeEdgeResult hc hv1m hv2m)

end UndirectedGraph

namespace UndirectedGraph

theorem mem_eraseP_find :
    ∀ (l : List Vertex) (vid : Nat) (v' : Vertex),
    (l.map (fun u => u.vtx_id)).Nodup →
    l.find? (fun w => w.vtx_id == vid) = some v' →
    ∀ u, u ∈ l.eraseP (fun w => w.vtx_id == vid) ↔ u ∈ l ∧ u.vtx_id ≠ vid := by
  intro l
  induction l with
  | nil =>
    intro vid v' _ hf
    cases hf
  | cons h t iht =>
    intro vid v' hnd hf u
    have hnd_head : h.vtx_id ∉ t.map (fun u => u.vtx_id) :=
      (List.nodup_cons.mp (by simpa using hnd)).1
    have hnd_tail : (t.map (fun u => u.vtx_id)).Nodup :=
      (List.nodup_cons.mp (by simpa using hnd)).2
    by_cases hh : h.vtx_id = vid
    · rw [List.eraseP_cons_of_pos (by simp [hh])]
      constructor
      · intro hu
        refine ⟨List.mem_cons_of_mem h hu, ?_⟩
        intro hc
        have hin : u.vtx_id ∈ t.map (fun u => u.vtx_id) := List.mem_map_of_mem _ hu
        rw [hc, ← hh] at hin
        exact hnd_head hin
      · rintro ⟨hu, hne⟩
        rcases List.mem_cons.mp hu with rfl | hut
        · exact absurd hh hne
        · exact hut
    · rw [List.eraseP_cons_of_neg (by simp [hh])]
      have hf' : t.find? (fun w => w.vtx_id == vid) = some v' := by
        rwa [List.find?_cons_of_neg t (by simp [hh])] at hf
      constructor
      · intro hu
        rcases List.mem_cons.mp hu with rfl | hut
        · exact ⟨List.mem_cons_self _ _, hh⟩
        · obtain ⟨h1, h2⟩ := (iht vid v' hnd_tail hf' u).mp hut
          exact ⟨List.mem_cons_of_mem h h1, h2⟩
      · rintro ⟨hu, hne⟩
        rcases List.mem_cons.mp hu with rfl | hut
        · exact List.mem_cons_self _ _
        · exact List.mem_cons_of_mem h ((iht vid v' hnd_tail hf' u).mpr ⟨hut, hne⟩)

theorem remove_vtx_ok {g : UndirectedGraph} {vid : Nat} {v : Vertex}
    (hwf : WF g) (hfind : g.find_vtx vid = some v) :
    ∃ g', g.remove_vtx vid = .ok () g' ∧ WF g' ∧ (Clean g → Clean g') ∧
      (∀ x, x ∈ ids g' ↔ x ∈ ids g ∧ x ≠ vid) ∧
      (∀ e ∈ g'.edge_list, e.end1 ≠ vid ∧ e.end2 ≠ vid) ∧
      (∀ u ∈ g'.vtx_list, vid ∉ u.neighbors ∧ ∀ e ∈ u.edges, e.end1 ≠ vid ∧ e.end2 ≠ vid) := by
  obtain ⟨hvm, hvid⟩ := find_vtx_some hfind
  have hfind' : g.find_vtx v.vtx_id = some v := by rwa [hvid]
  obtain ⟨g1, v1, hrun, hwf1, hfind1, hed1, hids1, hcl1⟩ :=
    removeIncidentEdges_spec v.edges.length g v.vtx_id v hwf hfind' rfl
  obtain ⟨hv1m, hv1id⟩ := find_vtx_some hfind1
  have hnotouch : ∀ e ∈ g1.edge_list, e.end1 ≠ v.vtx_id ∧ e.end2 ≠ v.vtx_id := by
    intro e hel
    constructor
    · intro hc
      have hmem : e ∈ v1.edges := hwf1.edgeAdj e hel v1 hv1m (Or.inl (by rw [hc, hv1id]))
      rw [hed1] at hmem
      cases hmem
    · intro hc
      have hmem : e ∈ v1.edges := hwf1.edgeAdj e hel v1 hv1m (Or.inr (by rw [hc, hv1id]))
      rw [hed1] at hmem
      cases hmem
  have hmemc := mem_eraseP_find g1.vtx_list v.vtx_id v1 hwf1.idsNodup hfind1
  refine ⟨{ g1 with vtx_list := g1.vtx_list.eraseP (fun u => u.vtx_id == v.vtx_id) }, ?_,
    ?_, ?_, ?_, ?_, ?_⟩
  · unfold remove_vtx
    rw [hfind]
    dsimp only
    unfold removeVtxImpl
    rw [hrun]
  · refine ⟨?_, ?_, ?_, ?_, ?_, ?_, ?_, ?_, ?_, ?_⟩
    · show (List.map (fun u => u.vtx_id) (g1.vtx_list.eraseP _)).Nodup
      exact List.Nodup.sublist (List.Sublist.map _ (List.eraseP_sublist _)) hwf1.idsNodup
    · exact hwf1.noSelfLoop
    · intro e hel
      obtain ⟨he1, he2⟩ := hwf1.endsMem e hel
      obtain ⟨hne1, hne2⟩ := hnotouch e hel
      constructor
      · obtain ⟨u, hu, hid⟩ := mem_ids_iff.mp he1
        exact mem_ids_iff.mpr ⟨u, (hmemc u).mpr ⟨hu, by rw [hid]; exact hne1⟩, hid⟩
      · obtain ⟨u, hu, hid⟩ := mem_ids_iff.mp he2
        exact mem_ids_iff.mpr ⟨u, (hmemc u).mpr ⟨hu, by rw [hid]; exact hne2⟩, hid⟩
    · exact hwf1.noParallel
    · intro u hu
      exact hwf1.adjNodup u ((hmemc u).mp hu).1
    · intro u hu e he
      exact hwf1.adjSub u ((hmemc u).mp hu).1 e he
    · intro e hel u hu hinc
      exact hwf1.edgeAdj e hel u ((hmemc u).mp hu).1 hinc
    · intro u hu
      exact hwf1.nsNodup u ((hmemc u).mp hu).1
    · intro u hu
      exact hwf1.nsWitness u ((hmemc u).mp hu).1
    · intro u hu
      exact hwf1.adjNs u ((hmemc u).mp hu).1
  · intro hcg
    intro u hu
    exact hcl1 hcg u ((hmemc u).mp hu).1
  · intro x
    rw [← hids1]
    constructor
    · intro hx
      obtain ⟨u, hu, hid⟩ := mem_ids_iff.mp hx
      obtain ⟨hu1, hune⟩ := (hmemc u).mp hu
      refine ⟨mem_ids_iff.mpr ⟨u, hu1, hid⟩, ?_⟩
      rw [← hid, ← hvid]
      exact hune
    · rintro ⟨hx, hne⟩
      obtain ⟨u, hu, hid⟩ := mem_ids_iff.mp hx
      refine mem_ids_iff.mpr ⟨u, (hmemc u).mpr ⟨hu, ?_⟩, hid⟩
      rw [← hid, ← hvid] at hne
      exact hne
  · intro e hel
    obtain ⟨h1, h2⟩ := hnotouch e hel
    rw [hvid] at h1 h2
    exact ⟨h1, h2⟩
  · intro u hu
    obtain ⟨hu1, hune⟩ := (hmemc u).mp hu
    constructor
    · intro hns
      obtain ⟨e, he, hp⟩ := hwf1.nsWitness u hu1 vid hns
      have hel : e ∈ g1.edge_list := (hwf1.adjSub u hu1 e he).1
      obtain ⟨h1, h2⟩ := hnotouch e hel
      rw [hvid] at h1 h2
      rcases hp with ⟨_, hb⟩ | ⟨ha, _⟩
      · exact h2 hb
      · exact h1 ha
    · intro e he
      have hel : e ∈ g1.edge_list := (hwf1.adjSub u hu1 e he).1
      obtain ⟨h1, h2⟩ := hnotouch e hel
      rw [hvid] at h1 h2
      exact ⟨h1, h2⟩

end UndirectedGraph

namespace UndirectedGraph

theorem add_vtx_ok_state {g g' : UndirectedGraph} {i : Nat} {u : Unit}
    (h : g.add_vtx i = .ok u g') :
    g.find_vtx i = none ∧
      g' = { g with vtx_list := g.vtx_list ++ [⟨i, [], [], false, 0⟩] } := by
  unfold add_vtx at h
  by_cases hs : (g.find_vtx i).isSome
  · rw [if_pos hs] at h
    cases h
  · rw [if_neg hs] at h
    cases h
    exact ⟨Option.not_isSome_iff_eq_none.mp hs, rfl⟩

theorem wf_add_vtx {g : UndirectedGraph} {i : Nat} (hwf : WF g)
    (hnone : g.find_vtx i = none) :
    WF { g with vtx_list := g.vtx_list ++ [⟨i, [], [], false, 0⟩] } := by
  have hnotin : i ∉ ids g := by
    rw [← find_vtx_isSome_iff, hnone]
    simp
  have hids : ids { g with vtx_list := g.vtx_list ++ [⟨i, [], [], false, 0⟩] } =
      ids g ++ [i] := by
    unfold ids
    simp
  refine ⟨?_, hwf.noSelfLoop, ?_, hwf.noParallel, ?_, ?_, ?_, ?_, ?_, ?_⟩
  · rw [hids, List.nodup_append]
    exact ⟨hwf.idsNodup, List.nodup_singleton i,
      fun x hx hx' => hnotin ((List.mem_singleton.mp hx') ▸ hx)⟩
  · intro e hel
    rw [hids]
    obtain ⟨h1, h2⟩ := hwf.endsMem e hel
    exact ⟨List.mem_append_left _ h1, List.mem_append_left _ h2⟩
  · intro v hv
    rcases List.mem_append.mp hv with h | h
    · exact hwf.adjNodup v h
    · rw [List.mem_singleton.mp h]
      exact List.nodup_nil
  · intro v hv e he
    rcases List.mem_append.mp hv with h | h
    · exact hwf.adjSub v h e he
    · rw [List.mem_singleton.mp h] at he
      cases he
  · intro e hel v hv hinc
    rcases List.mem_append.mp hv with h | h
    · exact hwf.edgeAdj e hel v h hinc
    · exfalso
      rw [List.mem_singleton.mp h] at hinc
      obtain ⟨h1, h2⟩ := hwf.endsMem e hel
      rcases hinc with hc | hc
      · have hc' : e.end1 = i := hc
        exact hnotin (hc' ▸ h1)
      · have hc' : e.end2 = i := hc
        exact hnotin (hc' ▸ h2)
  · intro v hv
    rcases List.mem_append.mp hv with h | h
    · exact hwf.nsNodup v h
    · rw [List.mem_singleton.mp h]
      exact List.nodup_nil
  · intro v hv n hn
    rcases List.mem_append.mp hv with h | h
    · exact hwf.nsWitness v h n hn
    · rw [List.mem_singleton.mp h] at hn
      cases hn
  · intro v hv e he
    rcases List.mem_append.mp hv with h | h
    · exact hwf.adjNs v h e he
    · rw [List.mem_singleton.mp h] at he
      cases he

theorem clean_add_vtx {g : UndirectedGraph} {i : Nat} (hcl : Clean g) :
    Clean { g with vtx_list := g.vtx_list ++ [⟨i, [], [], false, 0⟩] } := by
  intro v hv
  rcases List.mem_append.mp hv with h | h
  · exact hcl v h
  · rw [List.mem_singleton.mp h]

theorem applyOp_ok_preserves {g g' : UndirectedGraph} {op : Op} {u : Unit}
    (hwf : WF g) (hcl : Clean g) (h : applyOp g op = .ok u g') : WF g' ∧ Clean g' := by
  cases op with
  | addV i =>
    obtain ⟨hnone, rfl⟩ := add_vtx_ok_state h
    exact ⟨wf_add_vtx hwf hnone, clean_add_vtx hcl⟩
  | removeV i =>
    have h' : g.remove_vtx i = .ok u g' := h
    cases hfind : g.find_vtx i with
    | none =>
      unfold remove_vtx at h'
      rw [hfind] at h'
      cases h'
    | some v =>
      obtain ⟨g'', hrun, hwf'', hcl'', _, _, _⟩ := remove_vtx_ok hwf hfind
      rw [h'] at hrun
      cases hrun
      exact ⟨hwf'', hcl'' hcl⟩
  | addE a b =>
    obtain ⟨va, vb, ha, hb, hab, hba, _, rfl⟩ := add_edge_ok_state h
    obtain ⟨ham, _⟩ := find_vtx_some ha
    obtain ⟨hbm, _⟩ := find_vtx_some hb
    exact ⟨wf_addEdgeResult hwf ha hb hab hba, clean_addEdgeResult hcl ham hbm⟩
  | removeE a b =>
    have h : g.remove_edge a b = .ok u g' := h
    unfold remove_edge at h
    cases ha : g.find_vtx a with
    | none =>
      rw [ha] at h
      cases hb : g.find_vtx b with
      | none => rw [hb] at h; cases h
      | some vb => rw [hb] at h; cases h
    | some va =>
      rw [ha] at h
      cases hb : g.find_vtx b with
      | none => rw [hb] at h; cases h
      | some vb =>
        rw [hb] at h
        dsimp only at h
        cases hg : va.get_edge_with_neighbor vb.vtx_id with
        | none => rw [hg] at h; cases h
        | some e =>
          rw [hg] at h
          dsimp only at h
          obtain ⟨hev, _⟩ := Vertex.get_edge_with_neighbor_some hg
          obtain ⟨ham, _⟩ := find_vtx_some ha
          have hel : e ∈ g.edge_list := (hwf.adjSub va ham e hev).1
          obtain ⟨v1, v2, hv1, hv2, hok⟩ := removeEdgeImpl_ok hwf hel
          rw [h] at hok
          cases hok
          obtain ⟨hv1m, _⟩ := find_vtx_some hv1
          obtain ⟨hv2m, _⟩ := find_vtx_some hv2
          exact ⟨wf_removeEdgeResult hwf hel hv1 hv2, clean_removeEdgeResult hcl hv1m hv2m⟩

theorem wf_emptyGraph : WF emptyGraph ∧ Clean emptyGraph := by
  constructor
  · refine ⟨?_, ?_, ?_, ?_, ?_, ?_, ?_, ?_, ?_, ?_⟩ <;> simp [ids, emptyGraph]
  · intro v hv
    cases hv

theorem runOps_foldl_none (ops : List Op) :
    ops.foldl
      (fun og op => og.bind (fun g => match applyOp g op with
        | .ok _ g' => some g'
        | .err _ _ => none)) none = none := by
  induction ops with
  | nil => rfl
  | cons op rest ih => exact ih

theorem runOps_from_wf :
    ∀ (ops : List Op) (g0 : UndirectedGraph), WF g0 → Clean g0 →
    ∀ g, ops.foldl
      (fun og op => og.bind (fun g => match applyOp g op with
        | .ok _ g' => some g'
        | .err _ _ => none)) (some g0) = some g → WF g ∧ Clean g := by
  intro ops
  induction ops with
  | nil =>
    intro g0 hwf hcl g h
    cases h
    exact ⟨hwf, hcl⟩
  | cons op rest ih =>
    intro g0 hwf hcl g h
    simp only [List.foldl_cons, Option.some_bind] at h
    cases happ : applyOp g0 op with
    | ok u g1 =>
      rw [happ] at h
      obtain ⟨hwf1, hcl1⟩ := applyOp_ok_preserves hwf hcl happ
      exact ih g1 hwf1 hcl1 g h
    | err m g1 =>
      rw [happ] at h
      rw [runOps_foldl_none rest] at h
      cases h

theorem runOps_wf {ops : List Op} {g : UndirectedGraph} (h : runOps ops = some g) :
    WF g ∧ Clean g :=
  runOps_from_wf ops emptyGraph wf_emptyGraph.1 wf_emptyGraph.2 g h

end UndirectedGraph

namespace UndirectedGraph

theorem ucount_pos_of_unexplored {g : UndirectedGraph} {w : Vertex}
    (hw : w ∈ g.vtx_list) (he : w.explored = false) : 0 < ucount g := by
  unfold ucount
  apply List.length_pos.mpr
  intro hc
  have : w ∈ g.vtx_list.filter (fun u => !u.explored) :=
    List.mem_filter.mpr ⟨hw, by simp [he]⟩
  rw [hc] at this
  cases this

theorem discoverable_single {g0 : UndirectedGraph} {a b : Nat}
    (h1 : Adj g0 a b) (h2 : ¬ exploredAt g0 b) : Discoverable g0 a b :=
  Relation.ReflTransGen.single ⟨h1, h2⟩

end UndirectedGraph

namespace UndirectedGraph

theorem dfsScan_spec {g0 : UndirectedGraph} (hwf : WF g0) :
    ∀ (fuel : Nat) (es : List UndirectedEdge) (vid : Nat) (v0 : Vertex) (f : List Nat),
    v0 ∈ g0.vtx_list → v0.vtx_id = vid → (∀ e ∈ es, e ∈ v0.edges) →
    ucount (markExplored g0 f) ≤ fuel →
    ∃ N : List Nat,
      dfsScan vid fuel (markExplored g0 f) es f = (markExplored g0 (f ++ N), f ++ N) ∧
      (f.Nodup → (f ++ N).Nodup) ∧
      (∀ n ∈ N, Discoverable g0 vid n) ∧
      (∀ y, (∃ e ∈ es, e.otherEnd vid = y) → ¬ exploredAt g0 y → y ∈ f ++ N) ∧
      (∀ n ∈ N, ∀ y, Adj g0 n y → ¬ exploredAt g0 y → y ∈ f ++ N) ∧
      ucount (markExplored g0 (f ++ N)) + N.length ≤ ucount (markExplored g0 f) := by
  intro fuel
  induction fuel with
  | zero =>
    intro es
    induction es with
    | nil =>
      intro vid v0 f hv0 hv0id hsub hfuel
      refine ⟨[], by simp [dfsScan], by simp, by simp, ?_, by simp, by simp⟩
      rintro y ⟨e, he, _⟩ _
      cases he
    | cons e es ihe =>
      intro vid v0 f hv0 hv0id hsub hfuel
      have he : e ∈ v0.edges := hsub e (List.mem_cons_self e es)
      have hsub' : ∀ e' ∈ es, e' ∈ v0.edges := fun e' h' => hsub e' (List.mem_cons_of_mem e h')
      have hadj : Adj g0 vid (e.otherEnd vid) := ⟨v0, hv0, hv0id, e, he, rfl⟩
      have hnb_ids : e.otherEnd vid ∈ ids g0 := (adj_mem_ids hwf hadj).2
      obtain ⟨w0, hw0⟩ : ∃ w0, g0.find_vtx (e.otherEnd vid) = some w0 := by
        have := find_vtx_isSome_iff.mpr hnb_ids
        exact Option.isSome_iff_exists.mp this
      obtain ⟨hw0m, hw0id⟩ := find_vtx_some hw0
      have hfind : (markExplored g0 f).find_vtx (e.otherEnd vid) = some (markV f w0) := by
        rw [find_vtx_markExplored, hw0]
        rfl
      by_cases hexp : (markV f w0).explored = true
      · obtain ⟨N, hrun, hnd, hsound, hcompl, hclosed, hcount⟩ :=
          ihe vid v0 f hv0 hv0id hsub' hfuel
        refine ⟨N, ?_, hnd, hsound, ?_, hclosed, hcount⟩
        · simp only [dfsScan, hfind, hexp, if_true]
          exact hrun
        · rintro y ⟨e', he', hoe⟩ hnexp
          rcases List.mem_cons.mp he' with rfl | hmem
          · subst hoe
            have hexpAt : exploredAt (markExplored g0 f) (e'.otherEnd vid) :=
              (find_explored_iff (by rw [ids_markExplored]; exact hwf.idsNodup) hfind).mpr hexp
            rcases exploredAt_markExplored.mp hexpAt with h | ⟨hmemf, _⟩
            · exact absurd h hnexp
            · exact List.mem_append_left N hmemf
          · exact hcompl y ⟨e', hmem, hoe⟩ hnexp
      · exfalso
        have hexp' : (markV f w0).explored = false := by
          cases h : (markV f w0).explored
          · rfl
          · exact absurd h hexp
        have hwmem : markV f w0 ∈ (markExplored g0 f).vtx_list := by
          rw [vtx_list_markExplored]
          exact List.mem_map.mpr ⟨w0, hw0m, rfl⟩
        have := ucount_pos_of_unexplored hwmem hexp'
        omega
  | succ fuel ihfuel =>
    intro es
    induction es with
    | nil =>
      intro vid v0 f hv0 hv0id hsub hfuel
      refine ⟨[], by simp [dfsScan], by simp, by simp, ?_, by simp, by simp⟩
      rintro y ⟨e, he, _⟩ _
      cases he
    | cons e es ihe =>
      intro vid v0 f hv0 hv0id hsub hfuel
      have he : e ∈ v0.edges := hsub e (List.mem_cons_self e es)
      have hsub' : ∀ e' ∈ es, e' ∈ v0.edges := fun e' h' => hsub e' (List.mem_cons_of_mem e h')
      have hadj : Adj g0 vid (e.otherEnd vid) := ⟨v0, hv0, hv0id, e, he, rfl⟩
      have hnb_ids : e.otherEnd vid ∈ ids g0 := (adj_mem_ids hwf hadj).2
      obtain ⟨w0, hw0⟩ : ∃ w0, g0.find_vtx (e.otherEnd vid) = some w0 := by
        have := find_vtx_isSome_iff.mpr hnb_ids
        exact Option.isSome_iff_exists.mp this
      obtain ⟨hw0m, hw0id⟩ := find_vtx_some hw0
      have hfind : (markExplored g0 f).find_vtx (e.otherEnd vid) = some (markV f w0) := by
        rw [find_vtx_markExplored, hw0]
        rfl
      by_cases hexp : (markV f w0).explored = true
      · obtain ⟨N, hrun, hnd, hsound, hcompl, hclosed, hcount⟩ :=
          ihe vid v0 f hv0 hv0id hsub' hfuel
        refine ⟨N, ?_, hnd, hsound, ?_, hclosed, hcount⟩
        · simp only [dfsScan, hfind, hexp, if_true]
          exact hrun
        · rintro y ⟨e', he', hoe⟩ hnexp
          rcases List.mem_cons.mp he' with rfl | hmem
          · subst hoe
            have hexpAt : exploredAt (markExplored g0 f) (e'.otherEnd vid) :=
              (find_explored_iff (by rw [ids_markExplored]; exact hwf.idsNodup) hfind).mpr hexp
            rcases exploredAt_markExplored.mp hexpAt with h | ⟨hmemf, _⟩
            · exact absurd h hnexp
            · exact List.mem_append_left N hmemf
          · exact hcompl y ⟨e', hmem, hoe⟩ hnexp
      · have hexp' : (markV f w0).explored = false := by
          cases h : (markV f w0).explored
          · rfl
          · exact absurd h hexp
        have hnext : (markExplored g0 f).updateVtx (markV f w0).set_as_explored =
            markExplored g0 (f ++ [e.otherEnd vid]) :=
          updateVtx_markExplored hwf.idsNodup hfind
        have hnotf : e.otherEnd vid ∉ f := by
          intro hmemf
          have : exploredAt (markExplored g0 f) (e.otherEnd vid) :=
            exploredAt_markExplored.mpr (Or.inr ⟨hmemf, hnb_ids⟩)
          have := (find_explored_iff (by rw [ids_markExplored]; exact hwf.idsNodup) hfind).mp this
          rw [this] at hexp'
          cases hexp'
        have hnexp0 : ¬ exploredAt g0 (e.otherEnd vid) := by
          intro hcontra
          have : exploredAt (markExplored g0 f) (e.otherEnd vid) :=
            exploredAt_markExplored.mpr (Or.inl hcontra)
          have := (find_explored_iff (by rw [ids_markExplored]; exact hwf.idsNodup) hfind).mp this
          rw [this] at hexp'
          cases hexp'
        have hucount_lt : ucount (markExplored g0 (f ++ [e.otherEnd vid])) <
            ucount (markExplored g0 f) :=
          ucount_markExplored_snoc_lt hwf.idsNodup hfind hexp'
        obtain ⟨N1, hrun1, hnd1, hsound1, hcompl1, hclosed1, hcount1⟩ :=
          ihfuel w0.edges (e.otherEnd vid) w0 (f ++ [e.otherEnd vid]) hw0m hw0id
            (fun e' h' => h') (by omega)
        obtain ⟨N2, hrun2, hnd2, hsound2, hcompl2, hclosed2, hcount2⟩ :=
          ihe vid v0 ((f ++ [e.otherEnd vid]) ++ N1) hv0 hv0id hsub' (by omega)
        have hstep : dfsScan vid (fuel + 1) (markExplored g0 f) (e :: es) f =
            dfsScan vid (fuel + 1)
              (markExplored g0 (((f ++ [e.otherEnd vid]) ++ N1)))
              es ((f ++ [e.otherEnd vid]) ++ N1) := by
          simp only [dfsScan, hfind]
          rw [if_neg (by rw [hexp']; exact Bool.false_ne_true)]
          rw [hnext]
          rw [show (markV f w0).edges = w0.edges from markV_edges f w0]
          rw [hrun1]
        refine ⟨e.otherEnd vid :: (N1 ++ N2), ?_, ?_, ?_, ?_, ?_, ?_⟩
        · rw [hstep, hrun2]
          rw [show ((f ++ [e.otherEnd vid]) ++ N1) ++ N2 =
            f ++ (e.otherEnd vid :: (N1 ++ N2)) by simp]
        · intro hfnd
          have hnd_fnb : (f ++ [e.otherEnd vid]).Nodup := by
            rw [List.nodup_append]
            exact ⟨hfnd, List.nodup_singleton _, by simpa using hnotf⟩
          have := hnd2 (hnd1 hnd_fnb)
          rw [show ((f ++ [e.otherEnd vid]) ++ N1) ++ N2 =
            f ++ (e.otherEnd vid :: (N1 ++ N2)) by simp] at this
          exact this
        · intro n hn
          rcases List.mem_cons.mp hn with rfl | hmem
          · exact discoverable_single hadj hnexp0
          · rcases List.mem_append.mp hmem with h | h
            · exact Relation.ReflTransGen.trans
                (discoverable_single hadj hnexp0) (hsound1 n h)
            · exact hsound2 n h
        · rintro y ⟨e', he', hoe⟩ hnexp
          rcases List.mem_cons.mp he' with rfl | hmem
          · subst hoe
            simp
          · have := hcompl2 y ⟨e', hmem, hoe⟩ hnexp
            rw [show ((f ++ [e.otherEnd vid]) ++ N1) ++ N2 =
              f ++ (e.otherEnd vid :: (N1 ++ N2)) by simp] at this
            exact this
        · intro n hn y hady hnexp
          have hsub12 : ∀ z, z ∈ (f ++ [e.otherEnd vid]) ++ N1 →
              z ∈ f ++ (e.otherEnd vid :: (N1 ++ N2)) := by
            intro z hz
            have : z ∈ ((f ++ [e.otherEnd vid]) ++ N1) ++ N2 := List.mem_append_left _ hz
            rw [show ((f ++ [e.otherEnd vid]) ++ N1) ++ N2 =
              f ++ (e.otherEnd vid :: (N1 ++ N2)) by simp] at this
            exact this
          rcases List.mem_cons.mp hn with rfl | hmem
          · -- the newly discovered neighbor was fully scanned by the recursive call
            obtain ⟨v', hv', hv'id, e2, he2, hoe2⟩ := hady
            have hv'eq : v' = w0 := ids_nodup_inj hwf.idsNodup hv' hw0m (by rw [hv'id, hw0id])
            subst hv'eq
            exact hsub12 y (hcompl1 y ⟨e2, he2, hoe2⟩ hnexp)
          · rcases List.mem_append.mp hmem with h | h
            · exact hsub12 y (hclosed1 n h y hady hnexp)
            · have := hclosed2 n h y hady hnexp
              rw [show ((f ++ [e.otherEnd vid]) ++ N1) ++ N2 =
                f ++ (e.otherEnd vid :: (N1 ++ N2)) by simp] at this
              exact this
        · have heq : ((f ++ [e.otherEnd vid]) ++ N1) ++ N2 =
              f ++ (e.otherEnd vid :: (N1 ++ N2)) := by simp
          rw [← heq]
          simp only [List.length_cons, List.length_append]
          omega

end UndirectedGraph

namespace UndirectedGraph

/-- Central DFS theorem: same interface as `bfs_spec` — the recursive
depth-first discovery returns the source followed by everything discoverable
through initially-unexplored vertices, each exactly once, and marks exactly
the returned ids. -/
theorem dfs_spec {g : UndirectedGraph} (hwf : WF g) {s : Nat} (hs : s ∈ ids g) :
    ∃ t : List Nat,
      g.dfs s = .ok (s :: t) (markExplored g (s :: t)) ∧
      (s :: t).Nodup ∧
      (∀ y, y ∈ s :: t ↔ Discoverable g s y) := by
  obtain ⟨src, hsrc⟩ := Option.isSome_iff_exists.mp (find_vtx_isSome_iff.mpr hs)
  obtain ⟨hsm, hsid⟩ := find_vtx_some hsrc
  have hinit := updateVtx_eq_markExplored_single hwf.idsNodup hsrc
  have hfuel : ucount (markExplored g [s]) ≤
      (g.updateVtx src.set_as_explored).vtx_list.length := by
    rw [hinit, vtx_list_length_markExplored]
    have h1 : ucount (markExplored g [s]) ≤ (markExplored g [s]).vtx_list.length :=
      ucount_le_length _
    rw [vtx_list_length_markExplored] at h1
    exact h1
  obtain ⟨N, hrun, hnd, hsound, hcompl, hclosed, _⟩ :=
    dfsScan_spec hwf ((g.updateVtx src.set_as_explored).vtx_list.length)
      src.edges s src [s] hsm hsid (fun e he => he) hfuel
  rw [List.singleton_append] at hrun hnd
  refine ⟨N, ?_, hnd (List.nodup_singleton s), ?_⟩
  · show g.dfs s = .ok (s :: N) (markExplored g (s :: N))
    unfold dfs
    rw [hsrc]
    simp only
    rw [hinit] at hrun ⊢
    rw [hrun]
  · intro y
    constructor
    · intro hy
      rcases List.mem_cons.mp hy with rfl | hmem
      · exact Relation.ReflTransGen.refl
      · exact hsound y hmem
    · intro hdisc
      have hclosedS : ∀ x ∈ s :: N, ∀ y, Adj g x y → ¬ exploredAt g y → y ∈ s :: N := by
        intro x hx y hady hnexp
        rcases List.mem_cons.mp hx with rfl | hmem
        · obtain ⟨v', hv', hv'id, e2, he2, hoe2⟩ := hady
          have hv'eq : v' = src := ids_nodup_inj hwf.idsNodup hv' hsm (by rw [hv'id, hsid])
          subst hv'eq
          exact hcompl y ⟨e2, he2, hoe2⟩ hnexp
        · exact hclosed x hmem y hady hnexp
      induction hdisc with
      | refl => exact List.mem_cons_self s N
      | tail hab hbc ihb => exact hclosedS _ ihb _ hbc.1 hbc.2

end UndirectedGraph

namespace UndirectedGraph

theorem clean_not_exploredAt {g : UndirectedGraph} (hclean : Clean g) (x : Nat) :
    ¬ exploredAt g x := by
  rintro ⟨v, hv, _, hex⟩
  rw [hclean v hv] at hex
  cases hex

theorem reaches_mem_ids {g : UndirectedGraph} (hwf : WF g) {x y : Nat}
    (hx : x ∈ ids g) (hr : Reaches g x y) : y ∈ ids g := by
  induction hr with
  | refl => exact hx
  | tail _ hbc ihb => exact (adj_mem_ids hwf hbc).2

theorem exploredAt_marked_clean {g0 : UndirectedGraph} (hclean : Clean g0)
    (F : List Nat) (x : Nat) :
    exploredAt (markExplored g0 F) x ↔ x ∈ F ∧ x ∈ ids g0 := by
  rw [exploredAt_markExplored]
  constructor
  · rintro (h | h)
    · exact absurd h (clean_not_exploredAt hclean x)
    · exact h
  · exact Or.inr

theorem discoverable_markExplored_iff {g0 : UndirectedGraph} (hwf : WF g0)
    (hclean : Clean g0) {F : List Nat} {vid : Nat}
    (hFclosed : ∀ x ∈ F, ∀ y, Reaches g0 x y → y ∈ F) (hvidF : vid ∉ F) :
    ∀ y, Discoverable (markExplored g0 F) vid y ↔ Reaches g0 vid y := by
  intro y
  constructor
  · intro h
    refine Relation.ReflTransGen.mono ?_ h
    intro a b hab
    exact (adj_markExplored g0 F a b).mp hab.1
  · intro h
    induction h with
    | refl => exact Relation.ReflTransGen.refl
    | tail hab hbc ihb =>
      rename_i b c
      refine Relation.ReflTransGen.tail (ihb) ⟨(adj_markExplored g0 F b c).mpr hbc, ?_⟩
      intro hexp
      rcases (exploredAt_marked_clean hclean F c).mp hexp with ⟨hcF, _⟩
      have hreach_vc : Reaches g0 vid c := Relation.ReflTransGen.tail hab hbc
      have : Reaches g0 c vid := reaches_symm hwf hreach_vc
      exact hvidF (hFclosed c hcF vid this)

/-- Abstract run of a component-counting sweep: process the list left to
right, skipping elements already covered and counting one component (adding
its full reachability class) for each uncovered element. -/
inductive CCRun (r : Nat → Nat → Prop) : List Nat → Set Nat → Nat → Prop where
  | nil : ∀ E, CCRun r [] E 0
  | skip : ∀ x L E n, x ∈ E → CCRun r L E n → CCRun r (x :: L) E n
  | count : ∀ x L E n, x ∉ E → CCRun r L (E ∪ {y | r x y}) n → CCRun r (x :: L) E (n + 1)

theorem ccLoopBfs_ccrun {g0 : UndirectedGraph} (hwf : WF g0) (hclean : Clean g0) :
    ∀ (L : List Nat) (F : List Nat) (n : Nat),
    (∀ x ∈ L, x ∈ ids g0) →
    (∀ x ∈ F, x ∈ ids g0) →
    (∀ x ∈ F, ∀ y, Reaches g0 x y → y ∈ F) →
    ∃ n' gF, ccLoopBfs L (markExplored g0 F) n = (n + n', gF) ∧
      CCRun (Reaches g0) L {y | y ∈ F} n' := by
  intro L
  induction L with
  | nil =>
    intro F n _ _ _
    exact ⟨0, markExplored g0 F, by simp [ccLoopBfs], CCRun.nil _⟩
  | cons vid rest ih =>
    intro F n hL hF hFclosed
    have hvid_ids : vid ∈ ids g0 := hL vid (List.mem_cons_self vid rest)
    have hrest : ∀ x ∈ rest, x ∈ ids g0 := fun x hx => hL x (List.mem_cons_of_mem vid hx)
    obtain ⟨w0, hw0⟩ : ∃ w0, g0.find_vtx vid = some w0 :=
      Option.isSome_iff_exists.mp (find_vtx_isSome_iff.mpr hvid_ids)
    have hfind : (markExplored g0 F).find_vtx vid = some (markV F w0) := by
      rw [find_vtx_markExplored, hw0]
      rfl
    by_cases hexp : (markV F w0).explored = true
    · have hvidF : vid ∈ F := by
        have : exploredAt (markExplored g0 F) vid :=
          (find_explored_iff (by rw [ids_markExplored]; exact hwf.idsNodup) hfind).mpr hexp
        exact ((exploredAt_marked_clean hclean F vid).mp this).1
      obtain ⟨n', gF, hrun, hcc⟩ := ih F n hrest hF hFclosed
      refine ⟨n', gF, ?_, CCRun.skip vid rest _ n' hvidF hcc⟩
      simp only [ccLoopBfs, hfind, hexp, if_true]
      exact hrun
    · have hexp' : (markV F w0).explored = false := by
        cases h : (markV F w0).explored
        · rfl
        · exact absurd h hexp
      have hvidF : vid ∉ F := by
        intro hc
        have : exploredAt (markExplored g0 F) vid :=
          (exploredAt_marked_clean hclean F vid).mpr ⟨hc, hvid_ids⟩
        have := (find_explored_iff (by rw [ids_markExplored]; exact hwf.idsNodup) hfind).mp this
        rw [this] at hexp'
        cases hexp'
      obtain ⟨t, hbfs, hndt, hmem⟩ :=
        bfs_spec ((wf_markExplored_iff g0 F).mpr hwf) (by rw [ids_markExplored]; exact hvid_ids)
      have hdisc := discoverable_markExplored_iff hwf hclean hFclosed hvidF
      have hmem' : ∀ y, y ∈ vid :: t ↔ Reaches g0 vid y := by
        intro y
        rw [hmem y, hdisc y]
      have hF' : ∀ x ∈ F ++ vid :: t, x ∈ ids g0 := by
        intro x hx
        rcases List.mem_append.mp hx with h | h
        · exact hF x h
        · exact reaches_mem_ids hwf hvid_ids ((hmem' x).mp h)
      have hFclosed' : ∀ x ∈ F ++ vid :: t, ∀ y, Reaches g0 x y → y ∈ F ++ vid :: t := by
        intro x hx y hr
        rcases List.mem_append.mp hx with h | h
        · exact List.mem_append_left _ (hFclosed x h y hr)
        · refine List.mem_append_right _ ?_
          exact (hmem' y).mpr (Relation.ReflTransGen.trans ((hmem' x).mp h) hr)
      obtain ⟨n'', gF, hrun, hcc⟩ := ih (F ++ vid :: t) (n + 1) hrest hF' hFclosed'
      have hmarks : markExplored (markExplored g0 F) (vid :: t) =
          markExplored g0 (F ++ vid :: t) := (markExplored_append g0 F (vid :: t)).symm
      refine ⟨n'' + 1, gF, ?_, ?_⟩
      · simp only [ccLoopBfs, hfind]
        rw [if_neg (by rw [hexp']; exact Bool.false_ne_true)]
        rw [hbfs]
        simp only
        rw [hmarks, hrun]
        congr 1
        omega
      · refine CCRun.count vid rest _ n'' hvidF ?_
        have hsetEq : {y | y ∈ F ++ vid :: t} = {y | y ∈ F} ∪ {y | Reaches g0 vid y} := by
          ext y
          simp only [Set.mem_setOf_eq, Set.mem_union, List.mem_append]
          constructor
          · rintro (h | h)
            · exact Or.inl h
            · exact Or.inr ((hmem' y).mp h)
          · rintro (h | h)
            · exact Or.inl h
            · exact Or.inr ((hmem' y).mpr h)
        rw [← hsetEq]
        exact hcc

end UndirectedGraph

namespace UndirectedGraph

theorem ccLoopDfs_ccrun {g0 : UndirectedGraph} (hwf : WF g0) (hclean : Clean g0) :
    ∀ (L : List Nat) (F : List Nat) (n : Nat),
    (∀ x ∈ L, x ∈ ids g0) →
    (∀ x ∈ F, x ∈ ids g0) →
    (∀ x ∈ F, ∀ y, Reaches g0 x y → y ∈ F) →
    ∃ n' gF, ccLoopDfs L (markExplored g0 F) n = (n + n', gF) ∧
      CCRun (Reaches g0) L {y | y ∈ F} n' := by
  intro L
  induction L with
  | nil =>
    intro F n _ _ _
    exact ⟨0, markExplored g0 F, by simp [ccLoopDfs], CCRun.nil _⟩
  | cons vid rest ih =>
    intro F n hL hF hFclosed
    have hvid_ids : vid ∈ ids g0 := hL vid (List.mem_cons_self vid rest)
    have hrest : ∀ x ∈ rest, x ∈ ids g0 := fun x hx => hL x (List.mem_cons_of_mem vid hx)
    obtain ⟨w0, hw0⟩ : ∃ w0, g0.find_vtx vid = some w0 :=
      Option.isSome_iff_exists.mp (find_vtx_isSome_iff.mpr hvid_ids)
    have hfind : (markExplored g0 F).find_vtx vid = some (markV F w0) := by
      rw [find_vtx_markExplored, hw0]
      rfl
    by_cases hexp : (markV F w0).explored = true
    · have hvidF : vid ∈ F := by
        have : exploredAt (markExplored g0 F) vid :=
          (find_explored_iff (by rw [ids_markExplored]; exact hwf.idsNodup) hfind).mpr hexp
        exact ((exploredAt_marked_clean hclean F vid).mp this).1
      obtain ⟨n', gF, hrun, hcc⟩ := ih F n hrest hF hFclosed
      refine ⟨n', gF, ?_, CCRun.skip vid rest _ n' hvidF hcc⟩
      simp only [ccLoopDfs, hfind, hexp, if_true]
      exact hrun
    · have hexp' : (markV F w0).explored = false := by
        cases h : (markV F w0).explored
        · rfl
        · exact absurd h hexp
      have hvidF : vid ∉ F := by
        intro hc
        have : exploredAt (markExplored g0 F) vid :=
          (exploredAt_marked_clean hclean F vid).mpr ⟨hc, hvid_ids⟩
        have := (find_explored_iff (by rw [ids_markExplored]; exact hwf.idsNodup) hfind).mp this
        rw [this] at hexp'
        cases hexp'
      obtain ⟨t, hdfs, hndt, hmem⟩ :=
        dfs_spec ((wf_markExplored_iff g0 F).mpr hwf) (by rw [ids_markExplored]; exact hvid_ids)
      have hdisc := discoverable_markExplored_iff hwf hclean hFclosed hvidF
      have hmem' : ∀ y, y ∈ vid :: t ↔ Reaches g0 vid y := by
        intro y
        rw [hmem y, hdisc y]
      have hF' : ∀ x ∈ F ++ vid :: t, x ∈ ids g0 := by
        intro x hx
        rcases List.mem_append.mp hx with h | h
        · exact hF x h
        · exact reaches_mem_ids hwf hvid_ids ((hmem' x).mp h)
      have hFclosed' : ∀ x ∈ F ++ vid :: t, ∀ y, Reaches g0 x y → y ∈ F ++ vid :: t := by
        intro x hx y hr
        rcases List.mem_append.mp hx with h | h
        · exact List.mem_append_left _ (hFclosed x h y hr)
        · refine List.mem_append_right _ ?_
          exact (hmem' y).mpr (Relation.ReflTransGen.trans ((hmem' x).mp h) hr)
      obtain ⟨n'', gF, hrun, hcc⟩ := ih (F ++ vid :: t) (n + 1) hrest hF' hFclosed'
      have hmarks : markExplored (markExplored g0 F) (vid :: t) =
          markExplored g0 (F ++ vid :: t) := (markExplored_append g0 F (vid :: t)).symm
      refine ⟨n'' + 1, gF, ?_, ?_⟩
      · simp only [ccLoopDfs, hfind]
        rw [if_neg (by rw [hexp']; exact Bool.false_ne_true)]
        rw [hdfs]
        simp only
        rw [hmarks, hrun]
        congr 1
        omega
      · refine CCRun.count vid rest _ n'' hvidF ?_
        have hsetEq : {y | y ∈ F ++ vid :: t} = {y | y ∈ F} ∪ {y | Reaches g0 vid y} := by
          ext y
          simp only [Set.mem_setOf_eq, Set.mem_union, List.mem_append]
          constructor
          · rintro (h | h)
            · exact Or.inl h
            · exact Or.inr ((hmem' y).mp h)
          · rintro (h | h)
            · exact Or.inl h
            · exact Or.inr ((hmem' y).mpr h)
        rw [← hsetEq]
        exact hcc

end UndirectedGraph

namespace UndirectedGraph

theorem ccrun_eq_ncard {r : Nat → Nat → Prop}
    (hrefl : ∀ x, r x x)
    (hsymm : ∀ {x y}, r x y → r y x)
    (htrans : ∀ {x y z}, r x y → r y z → r x z) :
    ∀ {L : List Nat} {E : Set Nat} {n : Nat}, CCRun r L E n →
    (∀ x ∈ E, ∀ y, r x y → y ∈ E) →
    n = ((fun x => {y | r x y}) '' {x | x ∈ L ∧ x ∉ E}).ncard := by
  intro L E n h
  induction h with
  | nil E =>
    intro _
    have : {x : Nat | x ∈ ([] : List Nat) ∧ x ∉ E} = ∅ := by
      ext z
      simp
    rw [this]
    simp
  | skip x L E n hxE hrec ih =>
    intro hEc
    have hset : {x' | x' ∈ x :: L ∧ x' ∉ E} = {x' | x' ∈ L ∧ x' ∉ E} := by
      ext z
      simp only [Set.mem_setOf_eq, List.mem_cons]
      constructor
      · rintro ⟨rfl | hz, hnE⟩
        · exact absurd hxE hnE
        · exact ⟨hz, hnE⟩
      · rintro ⟨hz, hnE⟩
        exact ⟨Or.inr hz, hnE⟩
    rw [hset]
    exact ih hEc
  | count x L E n hxE hrec ih =>
    intro hEc
    have hE'c : ∀ x' ∈ E ∪ {y | r x y}, ∀ y, r x' y → y ∈ E ∪ {y | r x y} := by
      rintro x' (hx' | hx') y hr
      · exact Or.inl (hEc x' hx' y hr)
      · exact Or.inr (htrans hx' hr)
    have ihv := ih hE'c
    have hfinL : {x' : Nat | x' ∈ L ∧ x' ∉ E ∪ {y | r x y}}.Finite :=
      Set.Finite.subset (List.finite_toSet L) (fun z hz => hz.1)
    have hfinA : ((fun x => {y | r x y}) '' {x' | x' ∈ L ∧ x' ∉ E ∪ {y | r x y}}).Finite :=
      Set.Finite.image _ hfinL
    have hclass_eq : ∀ {w : Nat}, r x w → {y | r w y} = {y | r x y} := by
      intro w hw
      ext z
      simp only [Set.mem_setOf_eq]
      exact ⟨fun h => htrans hw h, fun h => htrans (hsymm hw) h⟩
    have hB : (fun x => {y | r x y}) '' {x' | x' ∈ x :: L ∧ x' ∉ E} =
        insert {y | r x y} ((fun x => {y | r x y}) '' {x' | x' ∈ L ∧ x' ∉ E ∪ {y | r x y}}) := by
      ext S
      simp only [Set.mem_image, Set.mem_setOf_eq, Set.mem_insert_iff, List.mem_cons,
        Set.mem_union]
      constructor
      · rintro ⟨w, ⟨rfl | hwL, hwE⟩, rfl⟩
        · exact Or.inl rfl
        · by_cases hrxw : r x w
          · exact Or.inl (hclass_eq hrxw)
          · exact Or.inr ⟨w, ⟨hwL, fun hc => (hc.elim hwE hrxw)⟩, rfl⟩
      · rintro (rfl | ⟨w, ⟨hwL, hwE'⟩, rfl⟩)
        · exact ⟨x, ⟨Or.inl rfl, hxE⟩, rfl⟩
        · exact ⟨w, ⟨Or.inr hwL, fun hc => hwE' (Or.inl hc)⟩, rfl⟩
    have hnotmem : {y | r x y} ∉
        (fun x => {y | r x y}) '' {x' | x' ∈ L ∧ x' ∉ E ∪ {y | r x y}} := by
      rintro ⟨w, ⟨hwL, hwE'⟩, hweq⟩
      apply hwE'
      right
      have hw_in : w ∈ {y | r w y} := hrefl w
      rw [show ({y | r w y} : Set Nat) = {y | r x y} from hweq] at hw_in
      exact hw_in
    rw [hB, Set.ncard_insert_of_not_mem hnotmem hfinA]
    omega

end UndirectedGraph

namespace UndirectedGraph

theorem num_cc_bfs_eq_ncard {g : UndirectedGraph} (hwf : WF g) (hclean : Clean g) :
    (g.num_of_connected_components_with_bfs).1 =
      ((fun x => {y | Reaches g x y}) '' {x | x ∈ ids g}).ncard := by
  obtain ⟨n', gF, hrun, hcc⟩ :=
    ccLoopBfs_ccrun hwf hclean (ids g) [] 0 (fun x hx => hx)
      (fun x hx => absurd hx (List.not_mem_nil x))
      (fun x hx => absurd hx (List.not_mem_nil x))
  rw [markExplored_nil] at hrun
  have hfst : (g.num_of_connected_components_with_bfs).1 = n' := by
    unfold num_of_connected_components_with_bfs
    show (ccLoopBfs (ids g) g 0).1 = n'
    rw [hrun]
    simp
  rw [hfst]
  have hcard := ccrun_eq_ncard (fun x => Relation.ReflTransGen.refl)
    (fun h => reaches_symm hwf h) (fun h1 h2 => Relation.ReflTransGen.trans h1 h2) hcc
    (fun x hx => absurd hx (List.not_mem_nil x))
  have hsetEq : {x : Nat | x ∈ ids g ∧ x ∉ ({y : Nat | y ∈ ([] : List Nat)} : Set Nat)} =
      {x : Nat | x ∈ ids g} := by
    ext z
    simp
  rw [hsetEq] at hcard
  exact hcard

theorem num_cc_dfs_eq_ncard {g : UndirectedGraph} (hwf : WF g) (hclean : Clean g) :
    (g.num_of_connected_components_with_dfs).1 =
      ((fun x => {y | Reaches g x y}) '' {x | x ∈ ids g}).ncard := by
  obtain ⟨n', gF, hrun, hcc⟩ :=
    ccLoopDfs_ccrun hwf hclean (ids g) [] 0 (fun x hx => hx)
      (fun x hx => absurd hx (List.not_mem_nil x))
      (fun x hx => absurd hx (List.not_mem_nil x))
  rw [markExplored_nil] at hrun
  have hfst : (g.num_of_connected_components_with_dfs).1 = n' := by
    unfold num_of_connected_components_with_dfs
    show (ccLoopDfs (ids g) g 0).1 = n'
    rw [hrun]
    simp
  rw [hfst]
  have hcard := ccrun_eq_ncard (fun x => Relation.ReflTransGen.refl)
    (fun h => reaches_symm hwf h) (fun h1 h2 => Relation.ReflTransGen.trans h1 h2) hcc
    (fun x hx => absurd hx (List.not_mem_nil x))
  have hsetEq : {x : Nat | x ∈ ids g ∧ x ∉ ({y : Nat | y ∈ ([] : List Nat)} : Set Nat)} =
      {x : Nat | x ∈ ids g} := by
    ext z
    simp
  rw [hsetEq] at hcard
  exact hcard

end UndirectedGraph

namespace UndirectedGraph

theorem adj_perm {g g' : UndirectedGraph} (hp : g'.vtx_list.Perm g.vtx_list) (x y : Nat) :
    Adj g' x y ↔ Adj g x y := by
  unfold Adj
  constructor
  · rintro ⟨v, hv, hrest⟩
    exact ⟨v, hp.mem_iff.mp hv, hrest⟩
  · rintro ⟨v, hv, hrest⟩
    exact ⟨v, hp.mem_iff.mpr hv, hrest⟩

theorem reaches_perm {g g' : UndirectedGraph} (hp : g'.vtx_list.Perm g.vtx_list) (x y : Nat) :
    Reaches g' x y ↔ Reaches g x y := by
  constructor
  · intro h
    exact Relation.ReflTransGen.mono (fun a b hab => (adj_perm hp a b).mp hab) h
  · intro h
    exact Relation.ReflTransGen.mono (fun a b hab => (adj_perm hp a b).mpr hab) h

theorem mem_ids_perm {g g' : UndirectedGraph} (hp : g'.vtx_list.Perm g.vtx_list) (x : Nat) :
    x ∈ ids g' ↔ x ∈ ids g :=
  (List.Perm.map (fun v => v.vtx_id) hp).mem_iff

theorem wf_perm {g g' : UndirectedGraph} (hwf : WF g) (hp : g'.vtx_list.Perm g.vtx_list)
    (he : g'.edge_list = g.edge_list) : WF g' := by
  have hmem : ∀ v : Vertex, v ∈ g'.vtx_list ↔ v ∈ g.vtx_list := fun v => hp.mem_iff
  refine ⟨?_, ?_, ?_, ?_, ?_, ?_, ?_, ?_, ?_, ?_⟩
  · exact (List.Perm.nodup_iff (List.Perm.map _ hp)).mpr hwf.idsNodup
  · rw [he]
    exact hwf.noSelfLoop
  · rw [he]
    intro e hel
    obtain ⟨h1, h2⟩ := hwf.endsMem e hel
    exact ⟨(mem_ids_perm hp _).mpr h1, (mem_ids_perm hp _).mpr h2⟩
  · rw [he]
    exact hwf.noParallel
  · intro v hv
    exact hwf.adjNodup v ((hmem v).mp hv)
  · intro v hv e hedge
    rw [he]
    exact hwf.adjSub v ((hmem v).mp hv) e hedge
  · rw [he]
    intro e hel v hv hinc
    exact hwf.edgeAdj e hel v ((hmem v).mp hv) hinc
  · intro v hv
    exact hwf.nsNodup v ((hmem v).mp hv)
  · intro v hv
    exact hwf.nsWitness v ((hmem v).mp hv)
  · intro v hv
    exact hwf.adjNs v ((hmem v).mp hv)

theorem clean_perm {g g' : UndirectedGraph} (hcl : Clean g)
    (hp : g'.vtx_list.Perm g.vtx_list) : Clean g' :=
  fun v hv => hcl v (hp.mem_iff.mp hv)

theorem ncard_components_perm {g g' : UndirectedGraph}
    (hp : g'.vtx_list.Perm g.vtx_list) :
    ((fun x => {y | Reaches g' x y}) '' {x | x ∈ ids g'}).ncard =
      ((fun x => {y | Reaches g x y}) '' {x | x ∈ ids g}).ncard := by
  have hfun : (fun x => {y | Reaches g' x y}) = (fun x => {y | Reaches g x y}) := by
    funext x
    ext y
    exact reaches_perm hp x y
  have hbase : {x | x ∈ ids g'} = {x | x ∈ ids g} := by
    ext x
    exact mem_ids_perm hp x
  rw [hfun, hbase]

end UndirectedGraph

namespace UndirectedGraph

/-- Every record carrying id `v` is marked explored. -/
def allExploredAt (g : UndirectedGraph) (v : Nat) : Prop :=
  ∀ u ∈ g.vtx_list, u.vtx_id = v → u.explored = true

theorem allExploredAt_updateVtx {g : UndirectedGraph} {w' : Vertex} {v : Nat}
    (h : allExploredAt g v) (hw : w'.explored = true) :
    allExploredAt (g.updateVtx w') v := by
  intro u hu hid
  obtain ⟨x, hx, hψ⟩ := List.mem_map.mp hu
  subst hψ
  by_cases hc : x.vtx_id = w'.vtx_id
  · rw [if_pos hc]
    exact hw
  · rw [if_neg hc]
    rw [if_neg hc] at hid
    exact h x hx hid

theorem spScan_no_self (v : Nat) :
    ∀ (es : List UndirectedEdge) (vid : Nat) (vlayer : Int) (g : UndirectedGraph)
      (q : List Nat), allExploredAt g v →
    ∃ g' q', spScan vid (some v) vlayer es g q = (g', q', none) ∧ allExploredAt g' v := by
  intro es
  induction es with
  | nil =>
    intro vid vlayer g q hinv
    exact ⟨g, q, by simp [spScan], hinv⟩
  | cons e es ihe =>
    intro vid vlayer g q hinv
    cases hfind : g.find_vtx (e.otherEnd vid) with
    | none =>
      obtain ⟨g', q', hrun, hinv'⟩ := ihe vid vlayer g q hinv
      exact ⟨g', q', by simp only [spScan, hfind]; exact hrun, hinv'⟩
    | some w =>
      by_cases hexp : w.explored = true
      · obtain ⟨g', q', hrun, hinv'⟩ := ihe vid vlayer g q hinv
        refine ⟨g', q', ?_, hinv'⟩
        simp only [spScan, hfind, hexp, if_true]
        exact hrun
      · have hexp' : w.explored = false := by
          cases h : w.explored
          · rfl
          · exact absurd h hexp
        have hne : ¬ ((some v : Option Nat) = some (e.otherEnd vid)) := by
          intro hc
          obtain ⟨hwm, hwid⟩ := find_vtx_some hfind
          have := hinv w hwm (by rw [hwid, ← Option.some.inj hc])
          rw [this] at hexp'
          cases hexp'
        have hinv1 : allExploredAt
            (g.updateVtx { w with explored := true, layer := vlayer + 1 }) v :=
          allExploredAt_updateVtx hinv rfl
        obtain ⟨g', q', hrun, hinv'⟩ := ihe vid vlayer
          (g.updateVtx { w with explored := true, layer := vlayer + 1 })
          (q ++ [e.otherEnd vid]) hinv1
        refine ⟨g', q', ?_, hinv'⟩
        simp only [spScan, hfind]
        rw [if_neg (by rw [hexp']; exact Bool.false_ne_true)]
        rw [if_neg hne]
        exact hrun

theorem spLoop_no_self (v : Nat) :
    ∀ (fuel : Nat) (g : UndirectedGraph) (q : List Nat), allExploredAt g v →
    ∃ g', spLoop (some v) fuel g q = (-1, g') := by
  intro fuel
  induction fuel with
  | zero =>
    intro g q _
    exact ⟨g, rfl⟩
  | succ fuel ih =>
    intro g q hinv
    cases q with
    | nil => exact ⟨g, rfl⟩
    | cons vid rest =>
      cases hfind : g.find_vtx vid with
      | none =>
        obtain ⟨g', hrun⟩ := ih g rest hinv
        exact ⟨g', by simp only [spLoop, hfind]; exact hrun⟩
      | some w =>
        obtain ⟨g1, q1, hscan, hinv1⟩ := spScan_no_self v w.edges vid w.layer g rest hinv
        obtain ⟨g', hrun⟩ := ih g1 q1 hinv1
        refine ⟨g', ?_⟩
        simp only [spLoop, hfind]
        rw [hscan]
        exact hrun

theorem shortest_path_self {g : UndirectedGraph} {v : Nat} {src : Vertex}
    (hfind : g.find_vtx v = some src) :
    ∃ g', g.shortest_path v v = .ok (-1) g' := by
  obtain ⟨hsm, hsid⟩ := find_vtx_some hfind
  have hdest : (g.find_vtx v).map (fun u => u.vtx_id) = some v := by
    rw [hfind, Option.map_some', hsid]
  have hinv : allExploredAt (g.updateVtx src.set_as_explored) v := by
    intro u hu hid
    obtain ⟨x, hx, hψ⟩ := List.mem_map.mp hu
    subst hψ
    by_cases hc : x.vtx_id = src.set_as_explored.vtx_id
    · rw [if_pos hc]
      rfl
    · rw [if_neg hc] at hid ⊢
      exfalso
      apply hc
      rw [hid, Vertex.set_as_explored_vtx_id, hsid]
  obtain ⟨g', hrun⟩ := spLoop_no_self v
    (2 * (g.updateVtx src.set_as_explored).vtx_list.length + 1)
    (g.updateVtx src.set_as_explored) [v] hinv
  refine ⟨g', ?_⟩
  unfold shortest_path
  rw [hfind]
  simp only [Option.map_some', hsid]
  rw [hrun]

end UndirectedGraph

namespace UndirectedGraph

theorem bfs_twice {g : UndirectedGraph} (hwf : WF g) {s : Nat} (hs : s ∈ ids g)
    {f : List Nat} {g' : UndirectedGraph} (h1 : g.bfs s = .ok f g') :
    g'.bfs s = .ok [s] g' := by
  obtain ⟨t, hrun, hnd, hiff⟩ := bfs_spec hwf hs
  rw [h1] at hrun
  injection hrun with hf hg
  subst hf
  subst hg
  have hwf' : WF (markExplored g (s :: t)) := (wf_markExplored_iff g (s :: t)).mpr hwf
  have hs' : s ∈ ids (markExplored g (s :: t)) := by
    rw [ids_markExplored]; exact hs
  obtain ⟨t', hrun', hnd', hiff'⟩ := bfs_spec hwf' hs'
  have hnostep : ∀ b, ¬ stepR (markExplored g (s :: t)) s b := by
    intro b ⟨hadj, hunexp⟩
    have hadjg : Adj g s b := (adj_markExplored g (s :: t) s b).mp hadj
    apply hunexp
    rw [exploredAt_markExplored]
    by_cases hexg : exploredAt g b
    · exact Or.inl hexg
    · refine Or.inr ⟨?_, (adj_mem_ids hwf hadjg).2⟩
      exact (hiff b).mpr (Relation.ReflTransGen.single ⟨hadjg, hexg⟩)
  have ht' : t' = [] := by
    cases ht' : t' with
    | nil => rfl
    | cons a t'' =>
      exfalso
      have ha : a ∈ s :: t' := by rw [ht']; exact List.mem_cons_of_mem _ (List.mem_cons_self a t'')
      have hda := (hiff' a).mp ha
      rcases Relation.ReflTransGen.cases_head hda with heq | ⟨b, hsb, _⟩
      · rw [ht'] at hnd'
        exact (List.nodup_cons.mp hnd').1 (heq ▸ List.mem_cons_self a t'')
      · exact hnostep b hsb
  rw [ht'] at hrun'
  have hfix : markExplored (markExplored g (s :: t)) [s] = markExplored g (s :: t) := by
    apply markExplored_eq_self
    intro u hu hmem
    obtain ⟨x, hx, rfl⟩ := List.mem_map.mp hu
    rw [markV_vtx_id] at hmem
    have hxid : x.vtx_id ∈ s :: t := by
      rw [List.mem_singleton.mp hmem]
      exact List.mem_cons_self _ _
    unfold markV
    rw [if_pos hxid]
    exact Vertex.set_as_explored_explored x
  rw [hfix] at hrun'
  exact hrun'

end UndirectedGraph

namespace UndirectedGraph

theorem add_vtx_err_state {g : UndirectedGraph} {i : Nat} {m : String}
    {g'' : UndirectedGraph} (h : g.add_vtx i = .err m g'') : g'' = g := by
  unfold add_vtx at h
  by_cases hc : (g.find_vtx i).isSome
  · rw [if_pos hc] at h
    injection h with _ h2
    exact h2.symm
  · rw [if_neg hc] at h
    cases h

theorem remove_vtx_err_state {g : UndirectedGraph} {i : Nat} {m : String}
    {g'' : UndirectedGraph} (hwf : WF g) (h : g.remove_vtx i = .err m g'') :
    g'' = g ∧ g.find_vtx i = none := by
  cases hfind : g.find_vtx i with
  | none =>
    unfold remove_vtx at h
    rw [hfind] at h
    injection h with _ h2
    exact ⟨h2.symm, rfl⟩
  | some v =>
    obtain ⟨g', hok, _⟩ := remove_vtx_ok hwf hfind
    rw [hok] at h
    cases h

theorem add_edge_err_state {g : UndirectedGraph} {a b : Nat} {m : String}
    {g'' : UndirectedGraph} (hwf : WF g) (h : g.add_edge a b = .err m g'') : g'' = g := by
  unfold add_edge at h
  cases ha : g.find_vtx a with
  | none =>
    rw [ha] at h
    cases hb : g.find_vtx b with
    | none =>
      rw [hb] at h
      injection h with _ h2
      exact h2.symm
    | some vb =>
      rw [hb] at h
      injection h with _ h2
      exact h2.symm
  | some va =>
    rw [ha] at h
    cases hb : g.find_vtx b with
    | none =>
      rw [hb] at h
      injection h with _ h2
      exact h2.symm
    | some vb =>
      rw [hb] at h
      dsimp only at h
      obtain ⟨ham, haid⟩ := find_vtx_some ha
      obtain ⟨hbm, hbid⟩ := find_vtx_some hb
      by_cases hab : a = b
      · rw [if_pos hab] at h
        injection h with _ h2
        exact h2.symm
      · rw [if_neg hab] at h
        unfold addEdgeImpl at h
        cases h1 : va.add_edge ⟨a, b⟩ with
        | error m1 =>
          rw [h1] at h
          injection h with _ h2
          exact h2.symm
        | ok va1 =>
          rw [h1] at h
          cases h2 : vb.add_edge ⟨a, b⟩ with
          | ok vb1 =>
            rw [h2] at h
            cases h
          | error m2 =>
            exfalso
            obtain ⟨_, hna, _⟩ := Vertex.add_edge_ok_iff.mp h1
            rw [otherEnd_left haid] at hna
            rcases Vertex.add_edge_err_iff.mp ⟨m2, h2⟩ with hni | hin
            · exact hni.2 hbid.symm
            · rw [otherEnd_right hbid hab] at hin
              exact hna ((wf_ns_symm hwf ham hbm haid hbid).mpr hin)

theorem remove_edge_err_state {g : UndirectedGraph} {a b : Nat} {m : String}
    {g'' : UndirectedGraph} (hwf : WF g) (h : g.remove_edge a b = .err m g'') : g'' = g := by
  unfold remove_edge at h
  cases ha : g.find_vtx a with
  | none =>
    rw [ha] at h
    cases hb : g.find_vtx b with
    | none =>
      rw [hb] at h
      injection h with _ h2
      exact h2.symm
    | some vb =>
      rw [hb] at h
      injection h with _ h2
      exact h2.symm
  | some va =>
    rw [ha] at h
    cases hb : g.find_vtx b with
    | none =>
      rw [hb] at h
      injection h with _ h2
      exact h2.symm
    | some vb =>
      rw [hb] at h
      dsimp only at h
      obtain ⟨ham, haid⟩ := find_vtx_some ha
      cases hge : va.get_edge_with_neighbor vb.vtx_id with
      | none =>
        rw [hge] at h
        injection h with _ h2
        exact h2.symm
      | some e =>
        rw [hge] at h
        dsimp only at h
        obtain ⟨hev, _⟩ := Vertex.get_edge_with_neighbor_some hge
        have hel : e ∈ g.edge_list := (hwf.adjSub va ham e hev).1
        obtain ⟨v1, v2, _, _, hok⟩ := removeEdgeImpl_ok hwf hel
        rw [hok] at h
        cases h

end UndirectedGraph

namespace UndirectedGraph

theorem find_vtx_addEdgeResult {g : UndirectedGraph} {a b : Nat} {va vb : Vertex}
    (haid : va.vtx_id = a) (hbid : vb.vtx_id = b) (i : Nat) :
    (addEdgeResult g a b va vb).find_vtx i =
      (g.find_vtx i).map (fun u =>
        if u.vtx_id = a then
          { va with edges := va.edges ++ [⟨a, b⟩], neighbors := va.neighbors ++ [b] }
        else if u.vtx_id = b then
          { vb with edges := vb.edges ++ [⟨a, b⟩], neighbors := vb.neighbors ++ [a] }
        else u) := by
  unfold find_vtx addEdgeResult
  apply find?_map_id_pres
  intro u
  by_cases h1 : u.vtx_id = a
  · rw [if_pos h1]
    show va.vtx_id = u.vtx_id
    rw [haid, h1]
  · rw [if_neg h1]
    by_cases h2 : u.vtx_id = b
    · rw [if_pos h2]
      show vb.vtx_id = u.vtx_id
      rw [hbid, h2]
    · rw [if_neg h2]

theorem add_edge_err_parallel {g : UndirectedGraph} {a b : Nat} {va vb : Vertex}
    (ha : g.find_vtx a = some va) (hb : g.find_vtx b = some vb) (hab : a ≠ b)
    (hmem : b ∈ va.neighbors) :
    ∃ m, g.add_edge a b = .err m g := by
  obtain ⟨ham, haid⟩ := find_vtx_some ha
  have herr : ∃ m, va.add_edge ⟨a, b⟩ = .error m := by
    apply Vertex.add_edge_err_iff.mpr
    right
    rw [otherEnd_left haid]
    exact hmem
  obtain ⟨m, hm⟩ := herr
  refine ⟨m, ?_⟩
  unfold add_edge
  rw [ha, hb]
  dsimp only
  rw [if_neg hab]
  unfold addEdgeImpl
  rw [hm]

theorem add_edge_twice_err {g : UndirectedGraph} {a b : Nat} {g' : UndirectedGraph}
    (hwf : WF g) (hok : g.add_edge a b = .ok () g') :
    WF g' ∧ (∃ m, g'.add_edge a b = .err m g') ∧ (∃ m, g'.add_edge b a = .err m g') := by
  obtain ⟨va, vb, ha, hb, hab, hna, hnb, hg'⟩ := add_edge_ok_state hok
  obtain ⟨ham, haid⟩ := find_vtx_some ha
  obtain ⟨hbm, hbid⟩ := find_vtx_some hb
  have hfa : g'.find_vtx a = some (va.extendV ⟨a, b⟩ b) := by
    rw [hg', find_vtx_addEdgeResult haid hbid, ha]
    simp only [Option.map_some']
    rw [if_pos haid]
    rfl
  have hfb : g'.find_vtx b = some (vb.extendV ⟨a, b⟩ a) := by
    rw [hg', find_vtx_addEdgeResult haid hbid, hb]
    simp only [Option.map_some']
    rw [if_neg (by rw [hbid]; exact fun hc => hab hc.symm)]
    rw [if_pos hbid]
    rfl
  refine ⟨hg' ▸ wf_addEdgeResult hwf ha hb hab hna, ?_, ?_⟩
  · exact add_edge_err_parallel hfa hfb hab
      (by rw [Vertex.extendV_neighbors]; exact List.mem_append_right _ (List.mem_singleton.mpr rfl))
  · exact add_edge_err_parallel hfb hfa (Ne.symm hab)
      (by rw [Vertex.extendV_neighbors]; exact List.mem_append_right _ (List.mem_singleton.mpr rfl))

end UndirectedGraph

namespace UndirectedGraph

theorem find?_append_none {α : Type} (p : α → Bool) :
    ∀ (l1 l2 : List α), (∀ x ∈ l1, p x = false) → (l1 ++ l2).find? p = l2.find? p := by
  intro l1
  induction l1 with
  | nil =>
    intro l2 _
    rfl
  | cons a t ih =>
    intro l2 h
    rw [List.cons_append, List.find?_cons, h a (List.mem_cons_self a t)]
    exact ih l2 (fun x hx => h x (List.mem_cons_of_mem a hx))

theorem mk_eq_self {g : UndirectedGraph} {L : List Vertex} {E : List UndirectedEdge}
    (hL : L = g.vtx_list) (hE : E = g.edge_list) :
    ({ vtx_list := L, edge_list := E } : UndirectedGraph) = g := by
  rw [hL, hE]

theorem gewn_extend {g : UndirectedGraph} (hwf : WF g) {a b : Nat} {va : Vertex}
    (ham : va ∈ g.vtx_list) (haid : va.vtx_id = a) (hna : b ∉ va.neighbors) :
    (va.extendV ⟨a, b⟩ b).get_edge_with_neighbor b = some ⟨a, b⟩ := by
  have hnp : ∀ e ∈ g.edge_list, ¬ samePair e ⟨a, b⟩ := no_parallel_new hwf ham haid hna
  have hnone : ∀ e ∈ va.edges,
      ((e.end1 == a && e.end2 == b) || (e.end1 == b && e.end2 == a)) = false := by
    intro e he
    have hel : e ∈ g.edge_list := (hwf.adjSub va ham e he).1
    rw [Bool.eq_false_iff]
    intro hc
    apply hnp e hel
    simp only [Bool.or_eq_true, Bool.and_eq_true, beq_iff_eq] at hc
    exact hc
  unfold Vertex.get_edge_with_neighbor
  simp only [Vertex.extendV_edges, Vertex.extendV_vtx_id, haid]
  rw [find?_append_none _ va.edges [⟨a, b⟩] hnone]
  rw [List.find?_cons]
  simp

theorem extend_shrink_roundtrip {v : Vertex} {e : UndirectedEdge} {n : Nat}
    (hne : e ∉ v.edges) (hnn : n ∉ v.neighbors) :
    (v.extendV e n).shrinkV e n = v := by
  have hE : ((v.edges ++ [e]).erase e : List UndirectedEdge) = v.edges := by
    rw [List.erase_append_right _ hne]
    simp
  have hN : (v.neighbors ++ [n]).filter (fun m => m ≠ n) = v.neighbors := by
    rw [List.filter_append]
    have h1 : v.neighbors.filter (fun m => m ≠ n) = v.neighbors := by
      apply List.filter_eq_self.mpr
      intro x hx
      have hxn : x ≠ n := fun hc => hnn (hc ▸ hx)
      simp [hxn]
    rw [h1]
    simp
  unfold Vertex.shrinkV
  simp only [Vertex.extendV_edges, Vertex.extendV_neighbors]
  rw [hE, hN]
  rfl

theorem add_remove_edge_roundtrip {g : UndirectedGraph} {a b : Nat} {g' : UndirectedGraph}
    (hwf : WF g) (hok : g.add_edge a b = .ok () g') :
    g'.remove_edge a b = .ok () g := by
  obtain ⟨va, vb, ha, hb, hab, hna, hnb, hg'⟩ := add_edge_ok_state hok
  subst hg'
  obtain ⟨ham, haid⟩ := find_vtx_some ha
  obtain ⟨hbm, hbid⟩ := find_vtx_some hb
  have hwf' : WF (addEdgeResult g a b va vb) := wf_addEdgeResult hwf ha hb hab hna
  have hnp : ∀ e ∈ g.edge_list, ¬ samePair e ⟨a, b⟩ := no_parallel_new hwf ham haid hna
  have hnewa : (⟨a, b⟩ : UndirectedEdge) ∉ va.edges :=
    fun hmem => new_edge_not_mem_adj hwf ham hmem hnp rfl
  have hnewb : (⟨a, b⟩ : UndirectedEdge) ∉ vb.edges :=
    fun hmem => new_edge_not_mem_adj hwf hbm hmem hnp rfl
  have hnewel : (⟨a, b⟩ : UndirectedEdge) ∉ g.edge_list :=
    fun hmem => hnp _ hmem (samePair_refl _)
  have hfa : (addEdgeResult g a b va vb).find_vtx a = some (va.extendV ⟨a, b⟩ b) := by
    rw [find_vtx_addEdgeResult haid hbid, ha]
    simp only [Option.map_some']
    rw [if_pos haid]
    rfl
  have hfb : (addEdgeResult g a b va vb).find_vtx b = some (vb.extendV ⟨a, b⟩ a) := by
    rw [find_vtx_addEdgeResult haid hbid, hb]
    simp only [Option.map_some']
    rw [if_neg (by rw [hbid]; exact fun hc => hab hc.symm)]
    rw [if_pos hbid]
    rfl
  have hgewn : (va.extendV ⟨a, b⟩ b).get_edge_with_neighbor (vb.extendV ⟨a, b⟩ a).vtx_id
      = some ⟨a, b⟩ := by
    rw [Vertex.extendV_vtx_id, hbid]
    exact gewn_extend hwf ham haid hna
  have hel' : (⟨a, b⟩ : UndirectedEdge) ∈ (addEdgeResult g a b va vb).edge_list := by
    show (⟨a, b⟩ : UndirectedEdge) ∈ g.edge_list ++ [⟨a, b⟩]
    exact List.mem_append_right _ (List.mem_singleton.mpr rfl)
  obtain ⟨v1, v2, hv1, hv2, himpl⟩ := removeEdgeImpl_ok hwf' hel'
  have hv1' : v1 = va.extendV ⟨a, b⟩ b := by
    have h : (addEdgeResult g a b va vb).find_vtx a = some v1 := hv1
    rw [hfa] at h
    exact (Option.some.inj h).symm
  have hv2' : v2 = vb.extendV ⟨a, b⟩ a := by
    have h : (addEdgeResult g a b va vb).find_vtx b = some v2 := hv2
    rw [hfb] at h
    exact (Option.some.inj h).symm
  have hva_rt : (va.extendV ⟨a, b⟩ b).shrinkV ⟨a, b⟩ b = va :=
    extend_shrink_roundtrip hnewa hna
  have hvb_rt : (vb.extendV ⟨a, b⟩ a).shrinkV ⟨a, b⟩ a = vb :=
    extend_shrink_roundtrip hnewb hnb
  have hres : removeEdgeResult (addEdgeResult g a b va vb) ⟨a, b⟩
      (va.extendV ⟨a, b⟩ b) (vb.extendV ⟨a, b⟩ a) = g := by
    unfold removeEdgeResult
    apply mk_eq_self
    · rw [show (addEdgeResult g a b va vb).vtx_list = g.vtx_list.map (fun u =>
        if u.vtx_id = a then
          { va with edges := va.edges ++ [⟨a, b⟩], neighbors := va.neighbors ++ [b] }
        else if u.vtx_id = b then
          { vb with edges := vb.edges ++ [⟨a, b⟩], neighbors := vb.neighbors ++ [a] }
        else u) from rfl, List.map_map]
      refine Eq.trans (List.map_congr_left ?_) (List.map_id' g.vtx_list)
      intro u hu
      simp only [Function.comp]
      by_cases h1 : u.vtx_id = a
      · rw [if_pos h1]
        dsimp only
        rw [if_pos haid]
        have hu_eq : u = va := by
          have h := find_vtx_of_mem hwf.idsNodup hu
          rw [h1, ha] at h
          exact (Option.some.inj h).symm
        rw [hu_eq]
        exact hva_rt
      · rw [if_neg h1]
        by_cases h2 : u.vtx_id = b
        · rw [if_pos h2]
          dsimp only
          rw [if_neg (fun hc => hab (hc.symm.trans hbid))]
          rw [if_pos hbid]
          have hu_eq : u = vb := by
            have h := find_vtx_of_mem hwf.idsNodup hu
            rw [h2, hb] at h
            exact (Option.some.inj h).symm
          rw [hu_eq]
          exact hvb_rt
        · rw [if_neg h2]
          rw [if_neg h1, if_neg h2]
    · show ((g.edge_list ++ [(⟨a, b⟩ : UndirectedEdge)]).erase
        (⟨a, b⟩ : UndirectedEdge) : List UndirectedEdge) = g.edge_list
      rw [List.erase_append_right _ hnewel]
      simp
  unfold remove_edge
  rw [hfa, hfb]
  dsimp only
  rw [hgewn]
  dsimp only
  rw [himpl, hv1', hv2', hres]

end UndirectedGraph

namespace UndirectedGraph

theorem spScan_no_dest :
    ∀ (es : List UndirectedEdge) (vid : Nat) (vlayer : Int) (g : UndirectedGraph)
      (q : List Nat), ∃ g' q', spScan vid none vlayer es g q = (g', q', none) := by
  intro es
  induction es with
  | nil =>
    intro vid vlayer g q
    exact ⟨g, q, rfl⟩
  | cons e es ihe =>
    intro vid vlayer g q
    cases hfind : g.find_vtx (e.otherEnd vid) with
    | none =>
      obtain ⟨g', q', hrun⟩ := ihe vid vlayer g q
      exact ⟨g', q', by simp only [spScan, hfind]; exact hrun⟩
    | some w =>
      by_cases hexp : w.explored = true
      · obtain ⟨g', q', hrun⟩ := ihe vid vlayer g q
        refine ⟨g', q', ?_⟩
        simp only [spScan, hfind, hexp, if_true]
        exact hrun
      · have hexp' : w.explored = false := by
          cases h : w.explored
          · rfl
          · exact absurd h hexp
        obtain ⟨g', q', hrun⟩ := ihe vid vlayer
          (g.updateVtx { w with explored := true, layer := vlayer + 1 })
          (q ++ [e.otherEnd vid])
        refine ⟨g', q', ?_⟩
        simp only [spScan, hfind]
        rw [if_neg (by rw [hexp']; exact Bool.false_ne_true)]
        rw [if_neg (by intro hc; cases hc)]
        exact hrun

theorem spLoop_no_dest :
    ∀ (fuel : Nat) (g : UndirectedGraph) (q : List Nat),
    ∃ g', spLoop none fuel g q = (-1, g') := by
  intro fuel
  induction fuel with
  | zero =>
    intro g q
    exact ⟨g, rfl⟩
  | succ fuel ih =>
    intro g q
    cases q with
    | nil => exact ⟨g, rfl⟩
    | cons vid rest =>
      cases hfind : g.find_vtx vid with
      | none =>
        obtain ⟨g', hrun⟩ := ih g rest
        exact ⟨g', by simp only [spLoop, hfind]; exact hrun⟩
      | some w =>
        obtain ⟨g1, q1, hscan⟩ := spScan_no_dest w.edges vid w.layer g rest
        obtain ⟨g', hrun⟩ := ih g1 q1
        refine ⟨g', ?_⟩
        simp only [spLoop, hfind]
        rw [hscan]
        exact hrun

theorem shortest_path_missing_dest {g : UndirectedGraph} {s d : Nat} {vs : Vertex}
    (hs : g.find_vtx s = some vs) (hd : g.find_vtx d = none) :
    ∃ g', g.shortest_path s d = .ok (-1) g' := by
  obtain ⟨g', hrun⟩ := spLoop_no_dest
    (2 * (g.updateVtx vs.set_as_explored).vtx_list.length + 1)
    (g.updateVtx vs.set_as_explored) [s]
  refine ⟨g', ?_⟩
  unfold shortest_path
  rw [hs]
  simp only [hd, Option.map_none']
  rw [hrun]

theorem discoverable_iff_reaches {g : UndirectedGraph} (hclean : Clean g) (s y : Nat) :
    Discoverable g s y ↔ Reaches g s y := by
  constructor
  · intro h
    exact Relation.ReflTransGen.mono (fun a b hab => hab.1) h
  · intro h
    exact Relation.ReflTransGen.mono
      (fun a b hab => ⟨hab, clean_not_exploredAt hclean b⟩) h

theorem remove_vtx_missing {g : UndirectedGraph} {v : Nat} (h : g.find_vtx v = none) :
    g.remove_vtx v = .err "The input vertex doesn't exist." g := by
  unfold remove_vtx
  rw [h]

end UndirectedGraph

namespace UndirectedGraph

/-- A demonstration call sequence: four vertices, edges 1-2 and 2-3, so the
components are \x7b1, 2, 3\x7d and \x7b4\x7d. -/
def demoOps : List Op :=
  [.addV 1, .addV 2, .addV 3, .addV 4, .addE 1 2, .addE 2 3]

/-- The graph the demonstration sequence builds. -/
def gDemo : UndirectedGraph := (runOps demoOps).getD emptyGraph

/-- The demonstration graph after one `bfs` from vertex 1. -/
def gDemoAfterBfs : UndirectedGraph := (gDemo.bfs 1).state

/-- The demonstration graph with its vertex collection iterated in the
reverse order (same vertices, same edges). -/
def gDemoPerm : UndirectedGraph := ⟨gDemo.vtx_list.reverse, gDemo.edge_list⟩

/-- Claim C1: for every graph reachable by valid mutation operations, the
DFS component counter returns the same count as the BFS component
counter. -/
theorem C1_counts_agree {ops : List Op} {g : UndirectedGraph}
    (h : runOps ops = some g) :
    (g.num_of_connected_components_with_dfs).1 =
      (g.num_of_connected_components_with_bfs).1 := by
  obtain ⟨hwf, hclean⟩ := runOps_wf h
  rw [num_cc_dfs_eq_ncard hwf hclean, num_cc_bfs_eq_ncard hwf hclean]

/-- The component counters agree on the demonstration graph. -/
theorem C1_counts_agree_witness :
    runOps demoOps = some gDemo ∧
      (gDemo.num_of_connected_components_with_dfs).1 =
        (gDemo.num_of_connected_components_with_bfs).1 :=
  ⟨rfl, C1_counts_agree (show runOps demoOps = some gDemo from rfl)⟩

/-- Claim C2, corrected: no traversal ever resets the explored marks, so a
second `bfs` from the same source on the state left by a first `bfs` does
not see a clean exploration state: it returns only the source itself (the
first call would have to be its own sole exploration for the claim to
hold), and leaves the state unchanged. -/
theorem C2_second_call_not_clean {g : UndirectedGraph} (hwf : WF g) {s : Nat}
    (hs : s ∈ ids g) {f : List Nat} {g' : UndirectedGraph}
    (h1 : g.bfs s = .ok f g') : g'.bfs s = .ok [s] g' :=
  bfs_twice hwf hs h1

/-- The second `bfs` from vertex 1 on the demonstration graph returns only
the source. -/
theorem C2_second_call_not_clean_witness :
    WF gDemo ∧ 1 ∈ ids gDemo ∧
      gDemoAfterBfs.bfs 1 = .ok [1] gDemoAfterBfs :=
  ⟨by decide, by decide,
    C2_second_call_not_clean (by decide) (by decide)
      (show gDemo.bfs 1 = .ok [1, 2, 3] gDemoAfterBfs from rfl)⟩

/-- A first `bfs` from vertex 1 returns the whole component of 1, and a
second, independent `bfs` from the same source returns a different list:
stale explored marks leak between top-level calls. -/
theorem C2_counterexample :
    (gDemo.bfs 1).val? = some [1, 2, 3] ∧
      ((gDemo.bfs 1).state.bfs 1).val? = some [1] ∧
      ([1] : List Nat) ≠ [1, 2, 3] :=
  ⟨rfl, rfl, by decide⟩

/-- Claim C3, corrected: for an existing vertex `v`, `shortest_path v v`
returns `-1`, not `0`: the source is marked explored before the loop and
the early exit only fires on a newly discovered neighbor, so the
destination `v` is never "discovered". -/
theorem C3_self_distance_minus_one {g : UndirectedGraph} {v : Nat}
    (h : (g.find_vtx v).isSome) :
    ∃ g', g.shortest_path v v = .ok (-1) g' := by
  obtain ⟨src, hsrc⟩ := Option.isSome_iff_exists.mp h
  exact shortest_path_self hsrc

/-- `shortest_path 1 1` on the demonstration graph returns `-1`. -/
theorem C3_self_distance_minus_one_witness :
    (gDemo.find_vtx 1).isSome ∧
      (∃ g', gDemo.shortest_path 1 1 = .ok (-1) g') :=
  ⟨by decide, C3_self_distance_minus_one (by decide)⟩

/-- On the demonstration graph the self-distance of vertex 1 evaluates to
`-1`, not the `0` the spec promises. -/
theorem C3_counterexample :
    (gDemo.shortest_path 1 1).val? = some (-1) ∧
      some (-1 : Int) ≠ some (0 : Int) :=
  ⟨rfl, by decide⟩

/-- Claim C4 records a code bug: `shortest_path` checks only the source
lookup, so with an existing source and a missing destination it does not
fail with the promised error but runs to completion and returns `-1`. -/
theorem C4_missing_dest_succeeds {g : UndirectedGraph} {s d : Nat} {vs : Vertex}
    (hs : g.find_vtx s = some vs) (hd : g.find_vtx d = none) :
    ∃ g', g.shortest_path s d = .ok (-1) g' :=
  shortest_path_missing_dest hs hd

/-- On the demonstration graph, `shortest_path 1 9` with the missing
destination 9 succeeds with `-1` instead of failing. -/
theorem C4_missing_dest_succeeds_witness :
    gDemo.find_vtx 9 = none ∧
      (∃ g', gDemo.shortest_path 1 9 = .ok (-1) g') :=
  ⟨rfl, C4_missing_dest_succeeds rfl rfl⟩

/-- Claim C5: on a well-formed graph with a clean exploration state,
`bfs s` for an existing source `s` returns the source first, each id at
most once, and exactly the ids reachable from `s` (the source's connected
component). -/
theorem C5_bfs_component {g : UndirectedGraph} (hwf : WF g) (hclean : Clean g)
    {s : Nat} (hs : s ∈ ids g) :
    ∃ t, g.bfs s = .ok (s :: t) (markExplored g (s :: t)) ∧ (s :: t).Nodup ∧
      (∀ y, y ∈ s :: t ↔ Reaches g s y) := by
  obtain ⟨t, hrun, hnd, hiff⟩ := bfs_spec hwf hs
  exact ⟨t, hrun, hnd, fun y => (hiff y).trans (discoverable_iff_reaches hclean s y)⟩

/-- `bfs 1` on the demonstration graph returns exactly the component of
vertex 1, source first, without repetition. -/
theorem C5_bfs_component_witness :
    WF gDemo ∧ Clean gDemo ∧ 1 ∈ ids gDemo ∧
      (∃ t, gDemo.bfs 1 = .ok (1 :: t) (markExplored gDemo (1 :: t)) ∧
        (1 :: t).Nodup ∧ (∀ y, y ∈ 1 :: t ↔ Reaches gDemo 1 y)) :=
  ⟨by decide, by decide, by decide,
    C5_bfs_component (by decide) (by decide) (by decide)⟩

/-- Claim C6: after any sequence of valid mutation calls from the empty
graph, an edge is in a vertex's adjacency exactly when the vertex is one
of its endpoints (so it is in both endpoints' adjacency and in no other
vertex's), no two distinct edges connect the same unordered pair, and no
edge is a self-loop. -/
theorem C6_edge_invariants {ops : List Op} {g : UndirectedGraph}
    (h : runOps ops = some g) :
    (∀ e ∈ g.edge_list, e.end1 ≠ e.end2) ∧
    (∀ e ∈ g.edge_list, ∀ v ∈ g.vtx_list,
      (e ∈ v.edges ↔ (e.end1 = v.vtx_id ∨ e.end2 = v.vtx_id))) ∧
    (∀ e ∈ g.edge_list, ∀ e' ∈ g.edge_list, samePair e e' → e = e') := by
  obtain ⟨hwf, _⟩ := runOps_wf h
  refine ⟨hwf.noSelfLoop, ?_, ?_⟩
  · intro e he v hv
    constructor
    · intro hev
      exact (hwf.adjSub v hv e hev).2
    · intro hinc
      exact hwf.edgeAdj e he v hv hinc
  · intro e he e' he' hp
    exact wf_edge_unique hwf he he' hp

/-- The edge and adjacency invariants hold on the demonstration graph. -/
theorem C6_edge_invariants_witness :
    runOps demoOps = some gDemo ∧
      (∀ e ∈ gDemo.edge_list, ∀ v ∈ gDemo.vtx_list,
        (e ∈ v.edges ↔ (e.end1 = v.vtx_id ∨ e.end2 = v.vtx_id))) :=
  ⟨rfl, (C6_edge_invariants (show runOps demoOps = some gDemo from rfl)).2.1⟩

/-- Claim C7: on every reachable graph state a failing mutation leaves the
state exactly unchanged, and after a successful `add_edge x y` a repeated
`add_edge` in either endpoint order fails and leaves the graph as it was
after the first call. -/
theorem C7_failure_atomicity {ops : List Op} {g : UndirectedGraph}
    (h : runOps ops = some g) :
    (∀ i m g', g.add_vtx i = .err m g' → g' = g) ∧
    (∀ i m g', g.remove_vtx i = .err m g' → g' = g) ∧
    (∀ a b m g', g.add_edge a b = .err m g' → g' = g) ∧
    (∀ a b m g', g.remove_edge a b = .err m g' → g' = g) ∧
    (∀ a b g', g.add_edge a b = .ok () g' →
      (∃ m, g'.add_edge a b = .err m g') ∧ (∃ m, g'.add_edge b a = .err m g')) := by
  obtain ⟨hwf, _⟩ := runOps_wf h
  refine ⟨?_, ?_, ?_, ?_, ?_⟩
  · intro i m g' h'
    exact add_vtx_err_state h'
  · intro i m g' h'
    exact (remove_vtx_err_state hwf h').1
  · intro a b m g' h'
    exact add_edge_err_state hwf h'
  · intro a b m g' h'
    exact remove_edge_err_state hwf h'
  · intro a b g' h'
    exact (add_edge_twice_err hwf h').2

/-- Failing mutations leave the demonstration graph unchanged. -/
theorem C7_failure_atomicity_witness :
    runOps demoOps = some gDemo ∧
      (∀ a b m g', gDemo.add_edge a b = .err m g' → g' = gDemo) :=
  ⟨rfl, (C7_failure_atomicity (show runOps demoOps = some gDemo from rfl)).2.2.1⟩

/-- Claim C8: on every reachable graph state, removing a missing vertex
fails with the invalid-argument error and leaves the state unchanged;
removing an existing vertex succeeds and afterwards no edge and no
remaining vertex's adjacency or neighbor set mentions the removed id. -/
theorem C8_remove_vertex_cleanup {ops : List Op} {g : UndirectedGraph} {v : Nat}
    (h : runOps ops = some g) :
    (g.find_vtx v = none →
      g.remove_vtx v = .err "The input vertex doesn't exist." g) ∧
    (∀ w, g.find_vtx v = some w → ∃ g', g.remove_vtx v = .ok () g' ∧
      (∀ e ∈ g'.edge_list, e.end1 ≠ v ∧ e.end2 ≠ v) ∧
      (∀ u ∈ g'.vtx_list, v ∉ u.neighbors ∧ ∀ e ∈ u.edges, e.end1 ≠ v ∧ e.end2 ≠ v) ∧
      (∀ x, x ∈ ids g' ↔ x ∈ ids g ∧ x ≠ v)) := by
  obtain ⟨hwf, _⟩ := runOps_wf h
  constructor
  · intro hn
    exact remove_vtx_missing hn
  · intro w hw
    obtain ⟨g', hok, _, _, hids, hedges, hadj⟩ := remove_vtx_ok hwf hw
    exact ⟨g', hok, hedges, hadj, hids⟩

/-- Removing the missing vertex 9 from the demonstration graph fails and
leaves it unchanged. -/
theorem C8_remove_vertex_cleanup_witness :
    runOps demoOps = some gDemo ∧
      (gDemo.find_vtx 9 = none →
        gDemo.remove_vtx 9 = .err "The input vertex doesn't exist." gDemo) :=
  ⟨rfl, (C8_remove_vertex_cleanup (show runOps demoOps = some gDemo from rfl)).1⟩

/-- Claim C9: the BFS component count does not depend on the iteration
order of the vertex collection: any graph presenting the same vertices (in
any order) and the same edges yields the same count. -/
theorem C9_count_order_independent {ops : List Op} {g g2 : UndirectedGraph}
    (h : runOps ops = some g) (hp : g2.vtx_list.Perm g.vtx_list)
    (he : g2.edge_list = g.edge_list) :
    (g2.num_of_connected_components_with_bfs).1 =
      (g.num_of_connected_components_with_bfs).1 := by
  obtain ⟨hwf, hclean⟩ := runOps_wf h
  have hwf2 : WF g2 := wf_perm hwf hp he
  have hclean2 : Clean g2 := clean_perm hclean hp
  rw [num_cc_bfs_eq_ncard hwf2 hclean2, num_cc_bfs_eq_ncard hwf hclean]
  exact ncard_components_perm hp

/-- Reversing the vertex iteration order of the demonstration graph leaves
the BFS component count unchanged. -/
theorem C9_count_order_independent_witness :
    gDemoPerm.vtx_list.Perm gDemo.vtx_list ∧
      (gDemoPerm.num_of_connected_components_with_bfs).1 =
        (gDemo.num_of_connected_components_with_bfs).1 :=
  ⟨List.reverse_perm _,
    C9_count_order_independent (show runOps demoOps = some gDemo from rfl)
      (List.reverse_perm _) rfl⟩

/-- Claim C10: on every reachable graph state with two distinct existing
vertices not connected by any edge, `add_edge a b` succeeds and the
following `remove_edge a b` restores the graph exactly: vertex records
(adjacency order included) and the edge collection are identical to the
state before the `add_edge` call. -/
theorem C10_add_remove_roundtrip {ops : List Op} {g : UndirectedGraph} {a b : Nat}
    {va vb : Vertex} (h : runOps ops = some g)
    (ha : g.find_vtx a = some va) (hb : g.find_vtx b = some vb) (hab : a ≠ b)
    (hnoedge : ∀ e ∈ g.edge_list, ¬ samePair e ⟨a, b⟩) :
    ∃ g', g.add_edge a b = .ok () g' ∧ g'.remove_edge a b = .ok () g := by
  have hwf := (runOps_wf h).1
  obtain ⟨ham, haid⟩ := find_vtx_some ha
  obtain ⟨hbm, hbid⟩ := find_vtx_some hb
  have hna : b ∉ va.neighbors := by
    intro hmem
    obtain ⟨e, hel, hp⟩ := (mem_ns_iff_edge hwf ham b).mp hmem
    apply hnoedge e hel
    rw [haid] at hp
    exact hp
  have hnb : a ∉ vb.neighbors := by
    intro hmem
    obtain ⟨e, hel, hp⟩ := (mem_ns_iff_edge hwf hbm a).mp hmem
    apply hnoedge e hel
    rw [hbid] at hp
    exact samePair_swap hp
  have hok := add_edge_ok_of ha hb hab hna hnb
  exact ⟨_, hok, add_remove_edge_roundtrip hwf hok⟩

/-- Adding the absent edge 1-4 to the demonstration graph and removing it
again restores the graph exactly. -/
theorem C10_add_remove_roundtrip_witness :
    (∀ e ∈ gDemo.edge_list, ¬ samePair e ⟨1, 4⟩) ∧
      (∃ g', gDemo.add_edge 1 4 = .ok () g' ∧ g'.remove_edge 1 4 = .ok () gDemo) :=
  ⟨by decide,
    C10_add_remove_roundtrip (show runOps demoOps = some gDemo from rfl)
      rfl rfl (by decide) (by decide)⟩

end UndirectedGraph
